import Mathlib

/-!
# DOF indexing and one-sided basis values of the DG Laplace driver

A shallow embedding of the core of `src/problems/dg/laplace.cpp` (namespace
`ads`): the interval and regular meshes, the 1D B-spline space, the 2D
tensor-product space, the basis value tables with the one-sided vertex table used
on facets, and the element and facet evaluators.

Modelling conventions.

* `int` (`simple_index`, `local_dof`, `global_dof`) is `Int`.  Signed overflow is
  undefined in C++, so the arithmetic is the unbounded one.
* `double` is `ℚ`: only `+`, `-`, `*`, `/ 2` and the literal `0.0` occur in the
  modelled functions and no rounding property is claimed.  The exactness of the
  mapped quadrature rule is about Gauss nodes, which are irrational, so for it the
  functions of `quadrature::data_for_interval` are embedded over an arbitrary
  ordered field (namespace `scalar`) and the statement is made over `ℝ`.
* `std::vector<T>` is `List T`.  Reading outside the bounds is undefined in C++;
  the model reads `0` there.  The statements are proved for every index and are
  meant at the in-range ones.
* The first-DOF table `first_dofs_` of a 1D space is computed by
  `first_nonzero_dofs`, which is outside the sources, so the table is a field of
  the space; what a statement needs of the table is a hypothesis of that
  statement.
* `std::optional<T>` is `Option T`.  A function with an `assert` returns an
  `Option`: `none` when the assertion fails.
* The external B-spline evaluation (`find_span`, `eval_basis_with_derivatives`) is
  modelled from the spec by the Cox-de Boor recursion in exact arithmetic.
* Overloads are told apart by a suffix: `dofs` / `dofs_elem`,
  `dof_count` / `dof_count_elem`.
-/

namespace ads

/-! ## Index ranges -/

/-- The value of `range(start, past_end)`: a `boost::iterator_range` of counting
iterators over `int`. -/
structure simple_index_range where
  start : Int
  past_end : Int
deriving DecidableEq, Repr

/-- Source: `range(int start, int past_end)`. -/
def range (start past_end : Int) : simple_index_range :=
  ⟨start, past_end⟩

/-- Source: `empty_range()`. -/
def empty_range : simple_index_range :=
  range 0 0

namespace simple_index_range

/-- The indices visited by a range-based `for` over the range, in order:
`start, start + 1, ..., past_end - 1`. -/
def toList (r : simple_index_range) : List Int :=
  (List.range (r.past_end - r.start).toNat).map (fun (k : Nat) => r.start + (k : Int))

/-- The value of `std::distance(begin(r), end(r))`; counting iterators are random
access, so this is the difference of the two ends. -/
def distance (r : simple_index_range) : Int :=
  r.past_end - r.start

end simple_index_range

/-- The type `index_types::index_range`: a range over pairs of indices.

Modelled from the spec: `util::product_range` (header `ads/util/iter/product.hpp`)
is not among the sources; the spec describes its result as the Cartesian product
of the two 1D ranges. -/
structure index_range where
  rx : simple_index_range
  ry : simple_index_range
deriving DecidableEq, Repr

/-- Modelled from the spec: `util::product_range<index>(rx, ry)`, the Cartesian
product of the two 1D ranges. -/
def product_range (rx ry : simple_index_range) : index_range :=
  ⟨rx, ry⟩

/-- The pairs visited by a range-based `for` over a product range. -/
def index_range.toList (r : index_range) : List (Int × Int) :=
  List.product r.rx.toList r.ry.toList

/-- The read `v[i]` on a `std::vector` (or through a pointer into one); positions
outside the bounds read `0`. -/
def vec_at {α : Type} [Zero α] (v : List α) (i : Int) : α :=
  if 0 ≤ i then v.getD i.toNat 0 else 0

/-! ## Meshes -/

/-- Source: `using partition = std::vector<double>`. -/
abbrev partition := List ℚ

/-- Source: `class interval_mesh`. -/
structure interval_mesh where
  points_ : partition
deriving DecidableEq, Repr

/-- Source: `enum class orientation`. -/
inductive orientation where
  | horizontal
  | vertical
deriving DecidableEq, Repr

/-- Source: `class regular_mesh`. -/
structure regular_mesh where
  mesh_x_ : interval_mesh
  mesh_y_ : interval_mesh
deriving DecidableEq, Repr

/-- Source: `regular_mesh::edge_index`. -/
structure edge_index where
  ix : Int
  iy : Int
  dir : orientation
deriving DecidableEq, Repr

/-- Source: `struct interval`. -/
structure interval where
  left : ℚ
  right : ℚ
deriving DecidableEq, Repr

/-- Source: `length(interval)`. -/
def length (s : interval) : ℚ :=
  |s.right - s.left|

/-- Source: `subinterval(points, i)`; `none` when its assertion fails.  The bound
`as_signed(points.size() - 1)` is `-1` for an empty partition. -/
def subinterval (points : partition) (i : Int) : Option interval :=
  if i ≥ 0 ∧ i < (points.length : Int) - 1 then
    let a := vec_at points i
    let b := vec_at points (i + 1)
    some ⟨a, b⟩
  else none

/-- Source: `lerp(t, interval)`. -/
def lerp (t : ℚ) (s : interval) : ℚ :=
  (1 - t) * s.left + t * s.right

/-- Source: `interval_mesh::point_data`. -/
structure point_data where
  position : ℚ
  normal : ℚ
deriving DecidableEq, Repr

namespace interval_mesh

/-- Source: `interval_mesh::element_count`. -/
def element_count (m : interval_mesh) : Int :=
  (m.points_.length : Int) - 1

/-- Source: `interval_mesh::elements`. -/
def elements (m : interval_mesh) : simple_index_range :=
  range 0 m.element_count

/-- Source: `interval_mesh::subinterval`. -/
def subinterval (m : interval_mesh) (e : Int) : Option interval :=
  ads.subinterval m.points_ e

/-- Source: `interval_mesh::facets`. -/
def facets (m : interval_mesh) : simple_index_range :=
  let facet_count := (m.points_.length : Int)
  range 0 facet_count

/-- Source: `interval_mesh::boundary_facets`, the array `{0, last}`. -/
def boundary_facets (m : interval_mesh) : List Int :=
  let last := (m.points_.length : Int) - 1
  [0, last]

/-- Source: `interval_mesh::facet`; `none` when its assertion (which bounds `i`
from above only) fails. -/
def facet (m : interval_mesh) (i : Int) : Option point_data :=
  if i < (m.points_.length : Int) then
    let normal : ℚ := if i > 0 then 1 else -1
    some ⟨vec_at m.points_ i, normal⟩
  else none

end interval_mesh

/-- Source: `regular_mesh::element_data`. -/
structure element_data where
  span_x : interval
  span_y : interval
deriving DecidableEq, Repr

/-- Source: `regular_mesh::edge_data`. -/
structure edge_data where
  span : interval
  position : ℚ
  direction : orientation
  normal : ℚ × ℚ
deriving DecidableEq, Repr

namespace regular_mesh

/-- Source: `regular_mesh::elements`. -/
def elements (m : regular_mesh) : index_range :=
  let rx := m.mesh_x_.elements
  let ry := m.mesh_y_.elements
  product_range rx ry

/-- Source: `regular_mesh::element`; `none` when an assertion of `subinterval`
fails. -/
def element (m : regular_mesh) (e : Int × Int) : Option element_data := do
  let sx ← m.mesh_x_.subinterval e.1
  let sy ← m.mesh_y_.subinterval e.2
  pure ⟨sx, sy⟩

/-- Source: `regular_mesh::facets`: the two nested loops, each `push_back` in
order. -/
def facets (m : regular_mesh) : List edge_index :=
  (m.mesh_x_.elements.toList.flatMap fun ix =>
    m.mesh_y_.facets.toList.map fun iy => (⟨ix, iy, orientation.horizontal⟩ : edge_index))
  ++
  (m.mesh_x_.facets.toList.flatMap fun ix =>
    m.mesh_y_.elements.toList.map fun iy => (⟨ix, iy, orientation.vertical⟩ : edge_index))

/-- Source: `regular_mesh::boundary_facets`: the two nested loops, each
`push_back` in order. -/
def boundary_facets (m : regular_mesh) : List edge_index :=
  (m.mesh_y_.boundary_facets.flatMap fun iy =>
    m.mesh_x_.elements.toList.map fun ix => (⟨ix, iy, orientation.horizontal⟩ : edge_index))
  ++
  (m.mesh_x_.boundary_facets.flatMap fun ix =>
    m.mesh_y_.elements.toList.map fun iy => (⟨ix, iy, orientation.vertical⟩ : edge_index))

/-- Source: `regular_mesh::facet`; `none` when an assertion of
`interval_mesh::facet` or `subinterval` fails. -/
def facet (m : regular_mesh) (e : edge_index) : Option edge_data :=
  match e.dir with
  | orientation.horizontal => do
    let pd ← m.mesh_y_.facet e.iy
    let span ← m.mesh_x_.subinterval e.ix
    let normal : ℚ × ℚ := (0, pd.normal)
    pure ⟨span, pd.position, e.dir, normal⟩
  | orientation.vertical => do
    let pd ← m.mesh_x_.facet e.ix
    let span ← m.mesh_y_.subinterval e.iy
    let normal : ℚ × ℚ := (pd.normal, 0)
    pure ⟨span, pd.position, e.dir, normal⟩

end regular_mesh

/-! ## The B-spline basis (external type) -/

namespace bspline

/-- Modelled from the spec: `bspline::basis` is declared in `ads/bspline/bspline.hpp`,
which is not among the sources.  The members the code reads are fields: the knot
vector, the degree, the break points, and the values of `elements()` and
`dofs()`. -/
structure basis where
  knot : List ℚ
  degree : Int
  points : List ℚ
  elements : Int
  dofs : Int
deriving DecidableEq, Repr

/-- The value of `b.knot_size()`. -/
def basis.knot_size (b : basis) : Int :=
  (b.knot.length : Int)

end bspline

/-- Source: `spans_for_elements`: the loop over `i` with `i + 1 < knot_size` pushes
`i` when `knot[i] != knot[i + 1]`; `none` when the final assertion
(`spans.size() == b.elements()`) fails. -/
def spans_for_elements (b : bspline.basis) : Option (List Int) :=
  let spans := (List.range (b.knot_size - 1).toNat).foldl
    (fun (spans : List Int) (i : Nat) =>
      if vec_at b.knot (i : Int) ≠ vec_at b.knot ((i : Int) + 1) then spans ++ [(i : Int)]
      else spans)
    []
  if (spans.length : Int) = b.elements then some spans else none

/-! ## The 1D B-spline space -/

/-- Source: `class bspline_space`.  The table `first_dofs_` is filled by the
external `first_nonzero_dofs(basis_)` and is a field here. -/
structure bspline_space where
  basis_ : bspline.basis
  first_dofs_ : List Int
  spans_ : List Int
deriving DecidableEq, Repr

namespace bspline_space

/-- Source: `bspline_space::degree`. -/
def degree (s : bspline_space) : Int :=
  s.basis_.degree

/-- Source: `bspline_space::dofs_per_element`. -/
def dofs_per_element (s : bspline_space) : Int :=
  s.degree + 1

/-- Source: `bspline_space::dof_count()`. -/
def dof_count (s : bspline_space) : Int :=
  s.basis_.dofs

/-- Source: `bspline_space::dof_count(element_index)`. -/
def dof_count_elem (s : bspline_space) (_e : Int) : Int :=
  s.dofs_per_element

/-- Source: `bspline_space::dofs()`. -/
def dofs (s : bspline_space) : simple_index_range :=
  range 0 s.dof_count

/-- Source: `bspline_space::dofs(element_index)`. -/
def dofs_elem (s : bspline_space) (e : Int) : simple_index_range :=
  let first := vec_at s.first_dofs_ e
  range first (first + s.dofs_per_element)

/-- Source: `bspline_space::local_index`. -/
def local_index (s : bspline_space) (dof : Int) (e : Int) : Int :=
  let first := vec_at s.first_dofs_ e
  dof - first

/-- Source: `bspline_space::first_dof`. -/
def first_dof (s : bspline_space) (e : Int) : Int :=
  vec_at s.first_dofs_ e

/-- Source: `bspline_space::last_dof`. -/
def last_dof (s : bspline_space) (e : Int) : Int :=
  s.first_dof e + s.dofs_per_element - 1

/-- Source: `bspline_space::dofs_on_facet`. -/
def dofs_on_facet (s : bspline_space) (f : Int) : simple_index_range :=
  let last_element := s.basis_.elements - 1
  let elem_left := max (f - 1) 0
  let elem_right := min f last_element
  let first := vec_at s.first_dofs_ elem_left
  let one_past_last := vec_at s.first_dofs_ elem_right + s.dofs_per_element
  range first one_past_last

/-- Source: `bspline_space::facet_dof_count`. -/
def facet_dof_count (s : bspline_space) (f : Int) : Int :=
  (s.dofs_on_facet f).distance

/-- Source: `bspline_space::facet_local_index`. -/
def facet_local_index (s : bspline_space) (dof : Int) (f : Int) : Int :=
  let elem_left := max (f - 1) 0
  let first := vec_at s.first_dofs_ elem_left
  dof - first

/-- Source: `bspline_space::span`. -/
def span (s : bspline_space) (e : Int) : Int :=
  vec_at s.spans_ e

end bspline_space

/-! ## Basis value tables -/

/-- Source: `class bspline_basis_values`.  A pointer into a vector is the offset
of the cell it points to: `dof_data_[k]` is an offset into `buffer_` and
`point_data_[k]` an offset into `dof_data_`. -/
structure bspline_basis_values where
  buffer_ : List ℚ
  point_data_ : List Int
  dof_data_ : List Int
deriving DecidableEq, Repr

namespace bspline_basis_values

/-- Source: the constructor `bspline_basis_values(points, dofs, ders)`: a zeroed
buffer of `points * dofs * (ders + 1)` cells and the two pointer tables. -/
def create (points dofs ders : Int) : bspline_basis_values :=
  { buffer_ := List.replicate (points * dofs * (ders + 1)).toNat 0
    point_data_ := (List.range points.toNat).map (fun (i : Nat) => (i : Int) * (ders + 1))
    dof_data_ :=
      (List.range (points * (ders + 1)).toNat).map (fun (i : Nat) => (i : Int) * dofs) }

/-- Source: `bspline_basis_values::operator()(point, i, der)`, the read
`point_data_[point][der][i]`. -/
def value (v : bspline_basis_values) (point : Int) (i : Int) (der : Int) : ℚ :=
  vec_at v.buffer_ (vec_at v.dof_data_ (vec_at v.point_data_ point + der) + i)

end bspline_basis_values

/-- Source: `class bspline_basis_values_on_vertex`. -/
structure bspline_basis_values_on_vertex where
  left_ : Option bspline_basis_values
  right_ : Option bspline_basis_values
  left_last_ : Int
  right_first_ : Int
deriving DecidableEq, Repr

namespace bspline_basis_values_on_vertex

/-- Source: the constructor of `bspline_basis_values_on_vertex`; `none` when its
assertion (one of the two sides is present) fails. -/
def create (left right : Option bspline_basis_values) (left_last right_first : Int) :
    Option bspline_basis_values_on_vertex :=
  if left.isSome || right.isSome then some ⟨left, right, left_last, right_first⟩ else none

/-- Source: `bspline_basis_values_on_vertex::left`. -/
def left (t : bspline_basis_values_on_vertex) (i : Int) (der : Int) : ℚ :=
  match t.left_ with
  | some l => if i ≤ t.left_last_ then l.value 0 i der else 0
  | none => 0

/-- Source: `bspline_basis_values_on_vertex::right`. -/
def right (t : bspline_basis_values_on_vertex) (i : Int) (der : Int) : ℚ :=
  match t.right_ with
  | some r =>
    if i ≥ t.right_first_ then
      let idx := i - t.right_first_
      r.value 0 idx der
    else 0
  | none => 0

/-- Source: `bspline_basis_values_on_vertex::operator()`. -/
def value (t : bspline_basis_values_on_vertex) (i : Int) (der : Int) : ℚ :=
  if t.left_.isSome ∧ i ≤ t.left_last_ then t.left i der else t.right i der

/-- Source: `bspline_basis_values_on_vertex::jump`. -/
def jump (t : bspline_basis_values_on_vertex) (i : Int) (der : Int) (normal : ℚ) : ℚ :=
  let left_val := t.left i der
  let right_val := t.right i der
  normal * (left_val - right_val)

/-- Source: `bspline_basis_values_on_vertex::average`. -/
def average (t : bspline_basis_values_on_vertex) (i : Int) (der : Int) : ℚ :=
  let left_val := t.left i der
  let right_val := t.right i der
  let sum := left_val + right_val
  if t.left_.isSome ∧ t.right_.isSome then sum / 2 else sum

end bspline_basis_values_on_vertex

/-- Source: `element_left`. -/
def element_left (f : Int) (_b : bspline.basis) : Option Int :=
  if f > 0 then some (f - 1) else none

/-- Source: `element_right`. -/
def element_right (f : Int) (b : bspline.basis) : Option Int :=
  if f < b.elements then some f else none

/-! ## Quadrature point sets -/

/-- Source: `class interval_quadrature_points`; the pointer `weights_` is the row
of canonical weights it points to. -/
structure interval_quadrature_points where
  points_ : List ℚ
  weights_ : List ℚ
  scale_ : ℚ
deriving DecidableEq, Repr

namespace interval_quadrature_points

/-- Source: `interval_quadrature_points::points`. -/
def points (p : interval_quadrature_points) : List ℚ :=
  p.points_

/-- Source: `interval_quadrature_points::indices`. -/
def indices (p : interval_quadrature_points) : simple_index_range :=
  range 0 (p.points_.length : Int)

/-- Source: `interval_quadrature_points::coords`; `none` when its assertion
fails. -/
def coords (p : interval_quadrature_points) (q : Int) : Option ℚ :=
  if q ≥ 0 ∧ q < (p.points_.length : Int) then some (vec_at p.points_ q) else none

/-- Source: `interval_quadrature_points::weight`; `none` when its assertion
fails. -/
def weight (p : interval_quadrature_points) (q : Int) : Option ℚ :=
  if q ≥ 0 ∧ q < (p.points_.length : Int) then some (vec_at p.weights_ q * p.scale_) else none

end interval_quadrature_points

/-- Source: `class tensor_quadrature_points`. -/
structure tensor_quadrature_points where
  ptx_ : interval_quadrature_points
  pty_ : interval_quadrature_points
deriving DecidableEq, Repr

namespace tensor_quadrature_points

/-- Source: `tensor_quadrature_points::xs`. -/
def xs (p : tensor_quadrature_points) : List ℚ :=
  p.ptx_.points

/-- Source: `tensor_quadrature_points::ys`. -/
def ys (p : tensor_quadrature_points) : List ℚ :=
  p.pty_.points

/-- Source: `tensor_quadrature_points::indices`. -/
def indices (p : tensor_quadrature_points) : index_range :=
  let rx := p.ptx_.indices
  let ry := p.pty_.indices
  product_range rx ry

/-- Source: `tensor_quadrature_points::coords`. -/
def coords (p : tensor_quadrature_points) (q : Int × Int) : Option (ℚ × ℚ) := do
  let x ← p.ptx_.coords q.1
  let y ← p.pty_.coords q.2
  pure (x, y)

/-- Source: `tensor_quadrature_points::weight`. -/
def weight (p : tensor_quadrature_points) (q : Int × Int) : Option ℚ := do
  let wx ← p.ptx_.weight q.1
  let wy ← p.pty_.weight q.2
  pure (wx * wy)

end tensor_quadrature_points

/-- Source: `class edge_quadrature_points`. -/
structure edge_quadrature_points where
  points_ : interval_quadrature_points
  position_ : ℚ
  direction_ : orientation
deriving DecidableEq, Repr

namespace edge_quadrature_points

/-- Source: `edge_quadrature_points::points`. -/
def points (p : edge_quadrature_points) : List ℚ :=
  p.points_.points

/-- Source: `edge_quadrature_points::position`. -/
def position (p : edge_quadrature_points) : ℚ :=
  p.position_

/-- Source: `edge_quadrature_points::indices`. -/
def indices (p : edge_quadrature_points) : simple_index_range :=
  p.points_.indices

/-- Source: `edge_quadrature_points::coords`. -/
def coords (p : edge_quadrature_points) (q : Int) : Option (ℚ × ℚ) := do
  let s ← p.points_.coords q
  match p.direction_ with
  | orientation.horizontal => pure (s, p.position_)
  | orientation.vertical => pure (p.position_, s)

/-- Source: `edge_quadrature_points::weight`. -/
def weight (p : edge_quadrature_points) (q : Int) : Option ℚ :=
  p.points_.weight q

end edge_quadrature_points

/-! ## B-spline point evaluation -/

/-- Modelled from the spec: the values that the external
`eval_basis_with_derivatives` (header `ads/bspline/eval.hpp`, not among the sources)
computes.  The spec describes it as a pure function of knot span, coordinate and
basis that fills the buffer with the B-spline basis values.  These are the values
of the Cox-de Boor recursion started from the indicator of the given span:
`basis_function knot span x q j` is the degree-`q` basis function number `j` of
the knot vector, taken on the knot span `span` and evaluated at `x`; a quotient
with denominator 0 is 0. -/
def basis_function (knot : List ℚ) (span : Int) (x : ℚ) : Nat → Int → ℚ
  | 0, j => if j = span then 1 else 0
  | q + 1, j =>
    (x - vec_at knot j) / (vec_at knot (j + q + 1) - vec_at knot j)
        * basis_function knot span x q j
      + (vec_at knot (j + q + 2) - x) / (vec_at knot (j + q + 2) - vec_at knot (j + 1))
        * basis_function knot span x q (j + 1)

/-- Modelled from the spec: the derivatives that the external
`eval_basis_with_derivatives` computes: `basis_function_derivative knot span x d q j`
is the derivative of order `d` of the degree-`q` basis function number `j`, by the
derivative formula of the Cox-de Boor recursion. -/
def basis_function_derivative (knot : List ℚ) (span : Int) (x : ℚ) : Nat → Nat → Int → ℚ
  | 0, q, j => basis_function knot span x q j
  | _ + 1, 0, _ => 0
  | d + 1, q + 1, j =>
    ((q : ℚ) + 1)
      * (basis_function_derivative knot span x d q j
            / (vec_at knot (j + q + 1) - vec_at knot j)
          - basis_function_derivative knot span x d q (j + 1)
            / (vec_at knot (j + q + 2) - vec_at knot (j + 1)))

/-- The write `buffer_[addr] = x` through a pointer into the buffer. -/
def write_cell (buf : List ℚ) (addr : Int) (x : ℚ) : List ℚ :=
  if 0 ≤ addr then buf.set addr.toNat x else buf

/-- Source: `bspline_basis_values::point_buffer`. -/
def bspline_basis_values.point_buffer (v : bspline_basis_values) (point : Int) : Int :=
  vec_at v.point_data_ point

/-- Modelled from the spec: the external `eval_basis_with_derivatives(span, x, basis,
buffer, ders, context)`, which fills the output buffer with the basis values and
derivatives: for every derivative order `der = 0..ders` and every local DOF
`i = 0..degree` it writes to `buffer[der][i]` the derivative of order `der` of the
basis function number `span - degree + i`.  The scratch context has no effect on
the result. -/
def eval_basis_with_derivatives (span : Int) (x : ℚ) (b : bspline.basis)
    (v : bspline_basis_values) (buffer : Int) (ders : Int) : bspline_basis_values :=
  { v with
    buffer_ :=
      (List.range (ders + 1).toNat).foldl
        (fun buf (der : Nat) =>
          (List.range (b.degree + 1).toNat).foldl
            (fun buf (i : Nat) =>
              write_cell buf (vec_at v.dof_data_ (buffer + (der : Int)) + (i : Int))
                (basis_function_derivative b.knot span x der b.degree.toNat
                  (span - b.degree + (i : Int))))
            buf)
        v.buffer_ }

/-- Modelled from the spec: the external `find_span(x, basis)`, which locates the
knot span containing `x`: the first index `i` with `knot[i] <= x < knot[i+1]`, and
the last span of the basis when there is none (`x` is the right end). -/
def find_span (x : ℚ) (b : bspline.basis) : Int :=
  match (List.range (b.knot.length - 1)).find?
      (fun (i : Nat) => decide (vec_at b.knot (i : Int) ≤ x ∧ x < vec_at b.knot ((i : Int) + 1))) with
  | some i => (i : Int)
  | none => b.knot_size - b.degree - 2

/-- Source: `evaluate_basis(points, space, ders)`. -/
def evaluate_basis (points : List ℚ) (space : bspline_space) (ders : Int) :
    bspline_basis_values :=
  let point_count := (points.length : Int)
  let dof_count := space.dofs_per_element
  let values := bspline_basis_values.create point_count dof_count ders
  (List.range points.length).foldl
    (fun values (q : Nat) =>
      let x := vec_at points (q : Int)
      let buffer := values.point_buffer (q : Int)
      let span := find_span x space.basis_
      eval_basis_with_derivatives span x space.basis_ values buffer ders)
    values

/-- Source: `evaluate_basis_at_point`. -/
def evaluate_basis_at_point (x : ℚ) (space : bspline_space) (ders : Int) (span : Int) :
    bspline_basis_values :=
  let dof_count := space.dofs_per_element
  let values := bspline_basis_values.create 1 dof_count ders
  let buffer := values.point_buffer 0
  eval_basis_with_derivatives span x space.basis_ values buffer ders

/-- Source: `evaluate_basis(facet_index, space, ders)`; `none` when the assertion
that an adjacent element exists fails. -/
def evaluate_basis_facet (f : Int) (space : bspline_space) (ders : Int) :
    Option bspline_basis_values_on_vertex :=
  let x := vec_at space.basis_.points f
  let maybe_elem_left := element_left f space.basis_
  let maybe_elem_right := element_right f space.basis_
  match maybe_elem_left, maybe_elem_right with
  | some elem_left, some elem_right =>
    let span_left := space.span elem_left
    let span_right := space.span elem_right
    let left_last := space.last_dof elem_left
    let right_first := space.first_dof elem_right
    let left_last_loc := space.facet_local_index left_last f
    let right_first_loc := space.facet_local_index right_first f
    let vals_left := evaluate_basis_at_point x space ders span_left
    let vals_right := evaluate_basis_at_point x space ders span_right
    bspline_basis_values_on_vertex.create (some vals_left) (some vals_right)
      left_last_loc right_first_loc
  | some elem_left, none =>
    let span_left := space.span elem_left
    let left_last := space.last_dof elem_left
    let left_last_loc := space.facet_local_index left_last f
    let vals_left := evaluate_basis_at_point x space ders span_left
    bspline_basis_values_on_vertex.create (some vals_left) none left_last_loc 0
  | none, some elem_right =>
    let span_right := space.span elem_right
    let right_first := space.first_dof elem_right
    let right_first_loc := space.facet_local_index right_first f
    let vals_right := evaluate_basis_at_point x space ders span_right
    bspline_basis_values_on_vertex.create none (some vals_right) 0 right_first_loc
  | none, none => none

/-! ## The 2D tensor-product space -/

/-- Modelled from the spec: `standard_ordering<2>` (declared outside the sources).
The spec gives the convention as the row-major linearization over the extents
`(nx, ny)` with `ix` the slower-varying index. -/
structure standard_ordering2 where
  nx : Int
  ny : Int
deriving DecidableEq, Repr

/-- Modelled from the spec: `standard_ordering<2>::linear_index(ix, iy)`, row-major
with `ix` the slower-varying index. -/
def standard_ordering2.linear_index (o : standard_ordering2) (ix iy : Int) : Int :=
  ix * o.ny + iy

/-- Source: `class space`; the mesh pointer is the mesh it points to. -/
structure space where
  mesh_ : regular_mesh
  space_x_ : bspline_space
  space_y_ : bspline_space
deriving DecidableEq, Repr

namespace space

/-- Source: `space::linearized`. -/
def linearized (dof : Int × Int) (bounds : Int × Int) : Int :=
  let order : standard_ordering2 := ⟨bounds.1, bounds.2⟩
  order.linear_index dof.1 dof.2

/-- Source: `space::dof_count()`. -/
def dof_count (s : space) : Int :=
  let nx := s.space_x_.dof_count
  let ny := s.space_y_.dof_count
  nx * ny

/-- Source: `space::dof_count(element_index)`. -/
def dof_count_elem (s : space) (e : Int × Int) : Int :=
  let nx := s.space_x_.dof_count_elem e.1
  let ny := s.space_y_.dof_count_elem e.2
  nx * ny

/-- Source: `space::facet_dof_count`. -/
def facet_dof_count (s : space) (f : edge_index) : Int :=
  match f.dir with
  | orientation.horizontal =>
    let ndofs_x := s.space_x_.dofs_per_element
    let ndofs_y := s.space_y_.facet_dof_count f.iy
    ndofs_x * ndofs_y
  | orientation.vertical =>
    let ndofs_x := s.space_x_.facet_dof_count f.ix
    let ndofs_y := s.space_y_.dofs_per_element
    ndofs_x * ndofs_y

/-- Source: `space::dofs()`. -/
def dofs (s : space) : index_range :=
  product_range s.space_x_.dofs s.space_y_.dofs

/-- Source: `space::dofs(element_index)`. -/
def dofs_elem (s : space) (e : Int × Int) : index_range :=
  product_range (s.space_x_.dofs_elem e.1) (s.space_y_.dofs_elem e.2)

/-- Source: `space::dofs_on_facet`. -/
def dofs_on_facet (s : space) (f : edge_index) : index_range :=
  match f.dir with
  | orientation.horizontal =>
    product_range (s.space_x_.dofs_elem f.ix) (s.space_y_.dofs_on_facet f.iy)
  | orientation.vertical =>
    product_range (s.space_x_.dofs_on_facet f.ix) (s.space_y_.dofs_elem f.iy)

/-- Source: `space::index_on_element`. -/
def index_on_element (s : space) (dof : Int × Int) (e : Int × Int) : Int × Int :=
  let ix := s.space_x_.local_index dof.1 e.1
  let iy := s.space_y_.local_index dof.2 e.2
  (ix, iy)

/-- Source: `space::index_on_facet`. -/
def index_on_facet (s : space) (dof : Int × Int) (f : edge_index) : Int × Int :=
  match f.dir with
  | orientation.horizontal =>
    let ix := s.space_x_.local_index dof.1 f.ix
    let iy := s.space_y_.facet_local_index dof.2 f.iy
    (ix, iy)
  | orientation.vertical =>
    let ix := s.space_x_.facet_local_index dof.1 f.ix
    let iy := s.space_y_.local_index dof.2 f.iy
    (ix, iy)

/-- Source: `space::local_index`. -/
def local_index (s : space) (dof : Int × Int) (e : Int × Int) : Int :=
  let idx := s.index_on_element dof e
  let ndofs_x := s.space_x_.dofs_per_element
  let ndofs_y := s.space_y_.dofs_per_element
  linearized idx (ndofs_x, ndofs_y)

/-- Source: `space::facet_local_index`. -/
def facet_local_index (s : space) (dof : Int × Int) (f : edge_index) : Int :=
  let idx := s.index_on_facet dof f
  match f.dir with
  | orientation.horizontal =>
    let ndofs_x := s.space_x_.dofs_per_element
    let ndofs_y := s.space_y_.facet_dof_count f.iy
    linearized idx (ndofs_x, ndofs_y)
  | orientation.vertical =>
    let ndofs_x := s.space_x_.facet_dof_count f.ix
    let ndofs_y := s.space_y_.dofs_per_element
    linearized idx (ndofs_x, ndofs_y)

/-- Source: `space::global_index`. -/
def global_index (s : space) (dof : Int × Int) : Int :=
  let ndofs_x := s.space_x_.dof_count
  let ndofs_y := s.space_y_.dof_count
  linearized dof (ndofs_x, ndofs_y)

end space

/-- Modelled from the spec: `function_value_2d` (header
`ads/util/function_value.hpp`, not among the sources): a value and its first
derivatives in `x` and `y`, in the order `{value, dx, dy}` of the braced returns. -/
structure function_value_2d where
  val : ℚ
  dx : ℚ
  dy : ℚ
deriving DecidableEq, Repr

/-- Source: `using value_type = ads::function_value_2d`. -/
abbrev value_type := function_value_2d

namespace space

/-- Source: `class space::evaluator`. -/
structure evaluator where
  space_ : space
  element_ : Int × Int
  derivatives_ : Int
  vals_x_ : bspline_basis_values
  vals_y_ : bspline_basis_values
deriving DecidableEq, Repr

/-- Source: `space::evaluator::operator()`. -/
def evaluator.call (ev : evaluator) (dof : Int × Int) (q : Int × Int) : value_type :=
  let idx := ev.space_.index_on_element dof ev.element_
  let Bx := ev.vals_x_.value q.1 idx.1 0
  let dBx := ev.vals_x_.value q.1 idx.1 1
  let By := ev.vals_y_.value q.2 idx.2 0
  let dBy := ev.vals_y_.value q.2 idx.2 1
  let v := Bx * By
  let dx := dBx * By
  let dy := Bx * dBy
  ⟨v, dx, dy⟩

/-- Source: `class space::edge_evaluator`. -/
structure edge_evaluator where
  space_ : space
  facet_ : edge_index
  derivatives_ : Int
  vals_interval_ : bspline_basis_values
  vals_point_ : bspline_basis_values_on_vertex
deriving DecidableEq, Repr

/-- Source: `space::edge_evaluator::operator()`. -/
def edge_evaluator.call (ev : edge_evaluator) (dof : Int × Int) (q : Int) : value_type :=
  let idx := ev.space_.index_on_facet dof ev.facet_
  match ev.facet_.dir with
  | orientation.horizontal =>
    let Bx := ev.vals_interval_.value q idx.1 0
    let dBx := ev.vals_interval_.value q idx.1 1
    let By := ev.vals_point_.value idx.2 0
    let dBy := ev.vals_point_.value idx.2 1
    let v := Bx * By
    let dx := dBx * By
    let dy := Bx * dBy
    ⟨v, dx, dy⟩
  | orientation.vertical =>
    let Bx := ev.vals_point_.value idx.1 0
    let dBx := ev.vals_point_.value idx.1 1
    let By := ev.vals_interval_.value q idx.2 0
    let dBy := ev.vals_interval_.value q idx.2 1
    let v := Bx * By
    let dx := dBx * By
    let dy := Bx * dBy
    ⟨v, dx, dy⟩

/-- Source: `space::dof_evaluator(element_index, points, ders)`. -/
def dof_evaluator (s : space) (e : Int × Int) (points : tensor_quadrature_points)
    (ders : Int) : evaluator :=
  let data_x := evaluate_basis points.xs s.space_x_ ders
  let data_y := evaluate_basis points.ys s.space_y_ ders
  ⟨s, e, ders, data_x, data_y⟩

/-- Source: `space::dof_evaluator(facet_index, points, ders)`; `none` when the
assertion of the vertex evaluation fails. -/
def dof_evaluator_facet (s : space) (f : edge_index) (points : edge_quadrature_points)
    (ders : Int) : Option edge_evaluator :=
  match f.dir with
  | orientation.horizontal => do
    let data_x := evaluate_basis points.points s.space_x_ ders
    let data_y ← evaluate_basis_facet f.iy s.space_y_ ders
    pure ⟨s, f, ders, data_x, data_y⟩
  | orientation.vertical => do
    let data_x ← evaluate_basis_facet f.ix s.space_x_ ders
    let data_y := evaluate_basis points.points s.space_y_ ders
    pure ⟨s, f, ders, data_y, data_x⟩

end space

/-! ## Quadrature -/

/-- Modelled from the spec: the Gauss table collaborator `quad::gauss::Xs` and
`quad::gauss::Ws` (header `ads/quad/gauss.hpp`, not among the sources): for a point
count, the canonical nodes and weights on `[-1, 1]`.  The tables are a parameter of
every function that reads them. -/
structure gauss_tables where
  Xs : Int → List ℚ
  Ws : Int → List ℚ

/-- Source: `class quadrature`; the mesh pointer is the mesh it points to. -/
structure quadrature where
  mesh_ : regular_mesh
  point_count_ : Int
deriving DecidableEq, Repr

namespace quadrature

/-- Source: `quadrature::transform_points`. -/
def transform_points (G : gauss_tables) (qd : quadrature) (target : interval) : List ℚ :=
  (List.range qd.point_count_.toNat).map
    (fun (i : Nat) =>
      let t := vec_at (G.Xs qd.point_count_) (i : Int)
      let s := (t + 1) / 2
      lerp s target)

/-- Source: `quadrature::data_for_interval`. -/
def data_for_interval (G : gauss_tables) (qd : quadrature) (target : interval) :
    interval_quadrature_points :=
  let size := length target
  let scale := size / 2
  let weights := G.Ws qd.point_count_
  ⟨qd.transform_points G target, weights, scale⟩

/-- Source: `quadrature::coordinates(element_index)`; `none` when an assertion of
`regular_mesh::element` fails. -/
def coordinates (G : gauss_tables) (qd : quadrature) (e : Int × Int) :
    Option tensor_quadrature_points := do
  let element ← qd.mesh_.element e
  let ptx := qd.data_for_interval G element.span_x
  let pty := qd.data_for_interval G element.span_y
  pure ⟨ptx, pty⟩

/-- Source: `quadrature::coordinates(facet_index)`; `none` when an assertion of
`regular_mesh::facet` fails. -/
def coordinates_facet (G : gauss_tables) (qd : quadrature) (f : edge_index) :
    Option edge_quadrature_points := do
  let edge ← qd.mesh_.facet f
  let pts := qd.data_for_interval G edge.span
  pure ⟨pts, edge.position, edge.direction⟩

end quadrature

/-! ## Quadrature on an interval over an ordered field

The nodes of a Gauss rule with two or more points are irrational.  For the
exactness of the mapped rule the functions of `quadrature::data_for_interval` are
therefore embedded a second time with `double` read as an arbitrary ordered field
`K`; at `K = ℚ` they are the definitions above. -/

namespace scalar

/-- Source: `struct interval`, over the field `K`. -/
structure interval (K : Type) where
  left : K
  right : K

/-- Source: `length(interval)`, over the field `K`. -/
def length {K : Type} [LinearOrderedField K] (s : interval K) : K :=
  |s.right - s.left|

/-- Source: `lerp(t, interval)`, over the field `K`. -/
def lerp {K : Type} [LinearOrderedField K] (t : K) (s : interval K) : K :=
  (1 - t) * s.left + t * s.right

/-- The Gauss table collaborator `quad::gauss::Xs` and `quad::gauss::Ws` (not among
the sources), over the field `K`: for a point count, the canonical nodes and
weights on `[-1, 1]`. -/
structure gauss_tables (K : Type) where
  Xs : Int → List K
  Ws : Int → List K

/-- Source: `class interval_quadrature_points`, over the field `K`. -/
structure interval_quadrature_points (K : Type) where
  points_ : List K
  weights_ : List K
  scale_ : K

/-- Source: `interval_quadrature_points::indices`. -/
def interval_quadrature_points.indices {K : Type} (p : interval_quadrature_points K) :
    simple_index_range :=
  range 0 (p.points_.length : Int)

/-- Source: `interval_quadrature_points::coords`; `none` when its assertion
fails. -/
def interval_quadrature_points.coords {K : Type} [LinearOrderedField K]
    (p : interval_quadrature_points K) (q : Int) : Option K :=
  if q ≥ 0 ∧ q < (p.points_.length : Int) then some (vec_at p.points_ q) else none

/-- Source: `interval_quadrature_points::weight`; `none` when its assertion
fails. -/
def interval_quadrature_points.weight {K : Type} [LinearOrderedField K]
    (p : interval_quadrature_points K) (q : Int) : Option K :=
  if q ≥ 0 ∧ q < (p.points_.length : Int) then some (vec_at p.weights_ q * p.scale_) else none

/-- Source: `quadrature::transform_points`, over the field `K`. -/
def transform_points {K : Type} [LinearOrderedField K] (G : gauss_tables K) (qd : quadrature)
    (target : interval K) : List K :=
  (List.range qd.point_count_.toNat).map
    (fun (i : Nat) =>
      let t := vec_at (G.Xs qd.point_count_) (i : Int)
      let s := (t + 1) / 2
      lerp s target)

/-- Source: `quadrature::data_for_interval`, over the field `K`. -/
def data_for_interval {K : Type} [LinearOrderedField K] (G : gauss_tables K) (qd : quadrature)
    (target : interval K) : interval_quadrature_points K :=
  let size := length target
  let scale := size / 2
  let weights := G.Ws qd.point_count_
  ⟨transform_points G qd target, weights, scale⟩

/-- The sum over the list of indices `l` of the terms `term q`; `none` when a
term fails. -/
def sum_over {K : Type} [LinearOrderedField K] (l : List Int) (term : Int → Option K) :
    Option K :=
  match l with
  | [] => some 0
  | q :: t => do
    let x ← term q
    let r ← sum_over t term
    pure (x + r)

/-- The value of a quadrature rule on a function: the sum over `q` in `indices()`
of `weight(q) * f(coords(q))`. -/
def interval_quadrature_points.rule_sum {K : Type} [LinearOrderedField K]
    (p : interval_quadrature_points K) (f : K → K) : Option K :=
  sum_over p.indices.toList (fun q => do
    let x ← p.coords q
    let w ← p.weight q
    pure (w * f x))

end scalar

/-! ## The matrix assembly of the DG driver -/

/-- Source: `tensor_quadrature_points::data`, the pair `{coords(q), weight(q)}`. -/
def tensor_quadrature_points.data (p : tensor_quadrature_points) (q : Int × Int) :
    Option ((ℚ × ℚ) × ℚ) := do
  let x ← p.coords q
  let w ← p.weight q
  pure (x, w)

/-- Source: `edge_quadrature_points::data`, the pair `{coords(q), weight(q)}`. -/
def edge_quadrature_points.data (p : edge_quadrature_points) (q : Int) :
    Option ((ℚ × ℚ) × ℚ) := do
  let x ← p.coords q
  let w ← p.weight q
  pure (x, w)

namespace lin

/-- Modelled from the spec: the dense local matrix `lin::tensor<double, 2>` (header
`ads/lin/tensor.hpp`, not among the sources): its two extents and its cells,
addressed by the pair of indices. -/
structure tensor2 where
  sizes : Int × Int
  cells : Int → Int → ℚ

/-- Modelled from the spec: the construction `lin::tensor<double, 2>{{n0, n1}}`, a
matrix of zeros. -/
def tensor2.zeros (n0 n1 : Int) : tensor2 :=
  ⟨(n0, n1), fun _ _ => 0⟩

/-- Modelled from the spec: the update `M(a, b) += x`. -/
def tensor2.add_at (M : tensor2) (a b : Int) (x : ℚ) : tensor2 :=
  ⟨M.sizes, fun a2 b2 => if a2 = a ∧ b2 = b then M.cells a2 b2 + x else M.cells a2 b2⟩

end lin

namespace mumps

/-- Modelled from the spec: the solver collaborator `mumps::problem` (header
`mumps.hpp`, not among the sources) as far as the assembly uses it: the number of
unknowns and the sequence of triplets `(row, col, value)` added so far. -/
structure problem where
  n : Int
  entries : List (Int × Int × ℚ)
deriving DecidableEq, Repr

/-- Modelled from the spec: `mumps::problem::add(row, col, value)`. -/
def problem.add (pr : problem) (row col : Int) (value : ℚ) : problem :=
  ⟨pr.n, pr.entries ++ [(row, col, value)]⟩

end mumps

namespace laplace

/-- Source: the element form of `main`, `u.dx * v.dx + u.dy * v.dy`. -/
def element_form (u v : value_type) : ℚ :=
  u.dx * v.dx + u.dy * v.dy

/-- Source: the boundary form of `main`,
`- (v.dx * nx + v.dy * ny) * u.val - (u.dx * nx + u.dy * ny) * v.val
 + eta * u.val * v.val`. -/
def boundary_form (eta nx ny : ℚ) (u v : value_type) : ℚ :=
  - (v.dx * nx + v.dy * ny) * u.val - (u.dx * nx + u.dy * ny) * v.val + eta * u.val * v.val

/-- Source: the body of the element loop of `main` up to the scatter: the local
matrix `M` after the loop over the quadrature points; `none` when an assertion
fails. -/
def element_matrix (G : gauss_tables) (sp : space) (quad : quadrature) (e : Int × Int) :
    Option lin.tensor2 := do
  let points ← quad.coordinates G e
  let eval := sp.dof_evaluator e points 1
  let n := sp.dof_count_elem e
  let M := lin.tensor2.zeros n n
  points.indices.toList.foldlM
    (fun (M : lin.tensor2) (q : Int × Int) => do
      let xw ← points.data q
      let w := xw.2
      pure ((sp.dofs_elem e).toList.foldl
        (fun (M : lin.tensor2) (i : Int × Int) =>
          let u := eval.call i q
          (sp.dofs_elem e).toList.foldl
            (fun (M : lin.tensor2) (j : Int × Int) =>
              let v := eval.call j q
              let iloc := sp.local_index i e
              let jloc := sp.local_index j e
              let form := element_form u v
              M.add_at jloc iloc (form * w))
            M)
        M))
    M

/-- Source: the scatter loop of the element loop of `main`. -/
def element_scatter (sp : space) (e : Int × Int) (M : lin.tensor2) (problem : mumps.problem) :
    mumps.problem :=
  (sp.dofs_elem e).toList.foldl
    (fun (problem : mumps.problem) (i : Int × Int) =>
      let iloc := sp.local_index i e
      let I := sp.global_index i
      (sp.dofs_elem e).toList.foldl
        (fun (problem : mumps.problem) (j : Int × Int) =>
          let jloc := sp.local_index j e
          let J := sp.global_index j
          problem.add (J + 1) (I + 1) (M.cells jloc iloc))
        problem)
    problem

/-- Source: one pass of the element loop of `main`. -/
def element_step (G : gauss_tables) (sp : space) (quad : quadrature)
    (problem : mumps.problem) (e : Int × Int) : Option mumps.problem := do
  let M ← element_matrix G sp quad e
  pure (element_scatter sp e M problem)

/-- Source: the element loop of `main`, `for (auto e : mesh.elements())`. -/
def assemble_elements (G : gauss_tables) (mesh : regular_mesh) (sp : space) (quad : quadrature)
    (problem : mumps.problem) : Option mumps.problem :=
  mesh.elements.toList.foldlM (element_step G sp quad) problem

/-- Source: the body of the boundary loop of `main` up to the scatter: the local
matrix `M` after the loop over the quadrature points; `none` when an assertion
fails. -/
def boundary_matrix (G : gauss_tables) (mesh : regular_mesh) (sp : space) (quad : quadrature)
    (eta : ℚ) (f : edge_index) : Option lin.tensor2 := do
  let facet ← mesh.facet f
  let nx := facet.normal.1
  let ny := facet.normal.2
  let points ← quad.coordinates_facet G f
  let eval ← sp.dof_evaluator_facet f points 1
  let n := sp.facet_dof_count f
  let M := lin.tensor2.zeros n n
  points.indices.toList.foldlM
    (fun (M : lin.tensor2) (q : Int) => do
      let xw ← points.data q
      let w := xw.2
      pure ((sp.dofs_on_facet f).toList.foldl
        (fun (M : lin.tensor2) (i : Int × Int) =>
          let u := eval.call i q
          (sp.dofs_on_facet f).toList.foldl
            (fun (M : lin.tensor2) (j : Int × Int) =>
              let v := eval.call j q
              let iloc := sp.facet_local_index i f
              let jloc := sp.facet_local_index j f
              let form := boundary_form eta nx ny u v
              M.add_at jloc iloc (form * w))
            M)
        M))
    M

/-- Source: the scatter loop of the boundary loop of `main`: only the nonzero
entries are added. -/
def boundary_scatter (sp : space) (f : edge_index) (M : lin.tensor2)
    (problem : mumps.problem) : mumps.problem :=
  (sp.dofs_on_facet f).toList.foldl
    (fun (problem : mumps.problem) (i : Int × Int) =>
      let iloc := sp.facet_local_index i f
      let I := sp.global_index i
      (sp.dofs_on_facet f).toList.foldl
        (fun (problem : mumps.problem) (j : Int × Int) =>
          let jloc := sp.facet_local_index j f
          let J := sp.global_index j
          let val := M.cells jloc iloc
          if val ≠ 0 then problem.add (J + 1) (I + 1) val else problem)
        problem)
    problem

/-- Source: one pass of the boundary loop of `main`. -/
def boundary_step (G : gauss_tables) (mesh : regular_mesh) (sp : space) (quad : quadrature)
    (eta : ℚ) (problem : mumps.problem) (f : edge_index) : Option mumps.problem := do
  let M ← boundary_matrix G mesh sp quad eta f
  pure (boundary_scatter sp f M problem)

/-- Source: the boundary loop of `main`, `for (auto f : mesh.boundary_facets())`. -/
def assemble_boundary (G : gauss_tables) (mesh : regular_mesh) (sp : space) (quad : quadrature)
    (eta : ℚ) (problem : mumps.problem) : Option mumps.problem :=
  mesh.boundary_facets.foldlM (boundary_step G mesh sp quad eta) problem

/-- Source: the two matrix loops of `main`, the element loop and then the boundary
loop. -/
def assemble_matrix (G : gauss_tables) (mesh : regular_mesh) (sp : space) (quad : quadrature)
    (eta : ℚ) (problem : mumps.problem) : Option mumps.problem := do
  let problem ← assemble_elements G mesh sp quad problem
  assemble_boundary G mesh sp quad eta problem

/-- The triplet added for the trial DOF `i` and the test DOF `j` of element `e`. -/
def element_triplet (sp : space) (e : Int × Int) (M : lin.tensor2)
    (ij : (Int × Int) × (Int × Int)) : Int × Int × ℚ :=
  (sp.global_index ij.2 + 1, sp.global_index ij.1 + 1,
    M.cells (sp.local_index ij.2 e) (sp.local_index ij.1 e))

/-- The triplet considered for the trial DOF `i` and the test DOF `j` of facet `f`. -/
def boundary_triplet (sp : space) (f : edge_index) (M : lin.tensor2)
    (ij : (Int × Int) × (Int × Int)) : Int × Int × ℚ :=
  (sp.global_index ij.2 + 1, sp.global_index ij.1 + 1,
    M.cells (sp.facet_local_index ij.2 f) (sp.facet_local_index ij.1 f))

/-- A triplet with row and column exchanged. -/
def transpose_triplet (t : Int × Int × ℚ) : Int × Int × ℚ :=
  (t.2.1, t.1, t.2.2)

end laplace

/-! ## The data of the DG driver -/

namespace laplace

/-- Source: the lambda `func` of `main`, the source term; it returns `0.0`. -/
def func (_x _y : ℚ) : ℚ :=
  0

/-- Source: the lambda `g` of `main`, the Dirichlet data; it returns
`x*x + y*y`. -/
def g (x y : ℚ) : ℚ :=
  x * x + y * y

/-- Source: the lambda `sol` of `main`, the exact solution of the error norm,
`1 + std::sin(M_PI * x) * std::sin(M_PI * y)`; `sin` is `std::sin` and `pi` is
`M_PI`, both parameters. -/
def sol (sin : ℚ → ℚ) (pi : ℚ) (x y : ℚ) : ℚ :=
  1 + sin (pi * x) * sin (pi * y)

end laplace

/-! ## The erikkson driver -/

/-- The two external interpolation overloads used by the drivers,
`lerp(t, a, b)` and `lerp(i, n, a, b)`, which are not among the sources. -/
structure lerp_overloads where
  value : ℚ → ℚ → ℚ → ℚ
  indexed : Int → Int → ℚ → ℚ → ℚ

namespace erikkson

/-- Source: the two loops of `create_basis`, run on the vector `knot`. -/
def fill_knots (L : lerp_overloads) (knot : List ℚ) (a b : ℚ)
    (p elements repeated_nodes : Int) : List ℚ :=
  let points := elements + 1
  let r := repeated_nodes + 1
  let knot_size := 2 * (p + 1) + (points - 2) * r
  let knot := (List.range (p + 1).toNat).foldl
    (fun (knot : List ℚ) (i : Nat) =>
      write_cell (write_cell knot (i : Int) a) (knot_size - (i : Int) - 1) b) knot
  let x0 : ℚ := 1 / 2
  let y0 : ℚ := 9 / 10
  (List.range (points - 1 - 1).toNat).foldl
    (fun (knot : List ℚ) (k : Nat) =>
      let i : Int := 1 + (k : Int)
      let t := L.indexed i elements 0 1
      let s := if t < x0 then t / x0 * y0 else (t - x0) / (1 - x0) * (1 - y0) + y0
      (List.range r.toNat).foldl
        (fun (knot : List ℚ) (j : Nat) =>
          write_cell knot (p + 1 + (i - 1) * r + (j : Int)) (L.value s a b))
        knot)
    knot

/-- Source: the knot vector of `create_basis`: `knot(knot_size)` is a zeroed
vector of `knot_size` cells, which the two loops then fill. -/
def create_basis_knot (L : lerp_overloads) (a b : ℚ) (p elements repeated_nodes : Int) :
    List ℚ :=
  let points := elements + 1
  let r := repeated_nodes + 1
  let knot_size := 2 * (p + 1) + (points - 2) * r
  fill_knots L (List.replicate knot_size.toNat 0) a b p elements repeated_nodes

/-- The value written for the interior point number `i` in `create_basis`:
`lerp(s, a, b)` with `t = lerp(i, elements, 0.0, 1.0)` and `s` as in the source. -/
def interior_knot (L : lerp_overloads) (a b : ℚ) (elements i : Int) : ℚ :=
  let x0 : ℚ := 1 / 2
  let y0 : ℚ := 9 / 10
  let t := L.indexed i elements 0 1
  let s := if t < x0 then t / x0 * y0 else (t - x0) / (1 - x0) * (1 - y0) + y0
  L.value s a b

end erikkson

namespace erikkson

/-- Source: `create_basis`, whose result is `{std::move(knot), p}`; `make` is the
external constructor of `bspline::basis` from a knot vector and a degree. -/
def create_basis (L : lerp_overloads) (make : List ℚ → Int → bspline.basis) (a b : ℚ)
    (p elements repeated_nodes : Int) : bspline.basis :=
  make (create_basis_knot L a b p elements repeated_nodes) p

/-- The external record `dimension` as the driver builds it,
`dimension{basis, quad, ders}`; the driver reads the member `B`. -/
structure dimension where
  B : bspline.basis
  quad_order : Int
  derivatives : Int
deriving DecidableEq, Repr

/-- The external record `timesteps_config{step_count, dt}`. -/
structure timesteps_config where
  step_count : Int
  dt : ℚ
deriving DecidableEq, Repr

/-- What one run of the driver does, in order: the two messages written to
`std::cerr`, `std::exit(status)`, the construction of the simulation
`erikkson sim{dtrial_x, dtrial_y, dtest_x, dtest_y, steps}` and `sim.run()`. -/
inductive event where
  | usage_message : event
  | dimension_message (trial_dim test_dim : Int) : event
  | exit_with (status : Int) : event
  | construct_sim (dtrial_x dtrial_y dtest_x dtest_y : dimension) (steps : timesteps_config) :
      event
  | run_sim : event
deriving DecidableEq, Repr

/-- Source: `main` of the erikkson driver, as the list of its events; `std::exit`
ends the run.  `argv k` is the value of `std::atoi(argv[k])`, and
`bspline_create_basis` is the external `bspline::create_basis`.  The two
`dim_config` records `trial` and `test`, which nothing reads, are left out. -/
def main (L : lerp_overloads) (make : List ℚ → Int → bspline.basis)
    (bspline_create_basis : ℚ → ℚ → Int → Int → Int → bspline.basis)
    (argc : Int) (argv : Int → Int) : List event :=
  if argc ≠ 7 then [event.usage_message, event.exit_with 1]
  else
    let n := argv 1
    let p_trial := argv 2
    let C_trial := argv 3
    let p_test := argv 4
    let C_test := argv 5
    let nsteps := argv 6
    let quad := max p_trial p_test + 1
    let steps : timesteps_config := ⟨nsteps, 1 / 2 * (1 / 100)⟩
    let ders : Int := 1
    let trial_basis_x := create_basis L make 0 1 p_trial n (p_trial - 1 - C_trial)
    let dtrial_x : dimension := ⟨trial_basis_x, quad, ders⟩
    let trial_basis_y := bspline_create_basis 0 1 p_trial n (p_trial - 1 - C_trial)
    let dtrial_y : dimension := ⟨trial_basis_y, quad, ders⟩
    let test_basis_x := create_basis L make 0 1 p_test n (p_test - 1 - C_test)
    let dtest_x : dimension := ⟨test_basis_x, quad, ders⟩
    let test_basis_y := bspline_create_basis 0 1 p_test n (p_test - 1 - C_test)
    let dtest_y : dimension := ⟨test_basis_y, quad, ders⟩
    let trial_dim := dtrial_x.B.dofs
    let test_dim := dtest_x.B.dofs
    if trial_dim > test_dim then
      [event.dimension_message trial_dim test_dim, event.exit_with 1]
    else [event.construct_sim dtrial_x dtrial_y dtest_x dtest_y steps, event.run_sim]

/-- The DOF count of the trial basis in `main`: `dtrial_x.B.dofs()`. -/
def trial_dim (L : lerp_overloads) (make : List ℚ → Int → bspline.basis)
    (argv : Int → Int) : Int :=
  (create_basis L make 0 1 (argv 2) (argv 1) (argv 2 - 1 - argv 3)).dofs

/-- The DOF count of the test basis in `main`: `dtest_x.B.dofs()`. -/
def test_dim (L : lerp_overloads) (make : List ℚ → Int → bspline.basis)
    (argv : Int → Int) : Int :=
  (create_basis L make 0 1 (argv 4) (argv 1) (argv 4 - 1 - argv 5)).dofs

/-- Whether an event builds or runs the simulation. -/
def event.touches_sim : event → Bool
  | event.construct_sim _ _ _ _ _ => true
  | event.run_sim => true
  | _ => false

end erikkson

/-! ## The basis of the DG driver -/

/-- Source: `make_bspline_basis`, the knot vector it builds.  The local function
`append(k, x)` is `std::fill_n(back_inserter(knot), k, x)`, which appends `k`
copies of `x` (none when `k <= 0`). -/
def make_bspline_basis_knot (points : partition) (p c : Int) : List ℚ :=
  let n := (points.length : Int)
  let r := p - c
  let knot : List ℚ := []
  let append := fun (knot : List ℚ) (k : Int) (x : ℚ) => knot ++ List.replicate k.toNat x
  let knot := append knot (p + 1) (vec_at points 0)
  let knot := (List.range (n - 1 - 1).toNat).foldl
    (fun (knot : List ℚ) (k : Nat) =>
      let i : Int := 1 + (k : Int)
      append knot r (vec_at points i))
    knot
  append knot (p + 1) (vec_at points (n - 1))

/-- Source: `make_bspline_basis`, whose result is `bspline::basis{std::move(knot), p}`;
`make` is the external constructor of `bspline::basis` from a knot vector and a
degree. -/
def make_bspline_basis (make : List ℚ → Int → bspline.basis) (points : partition)
    (p c : Int) : bspline.basis :=
  make (make_bspline_basis_knot points p c) p

/-! ## The reads of a vertex table -/

/-- The local DOF index at which `bspline_basis_values_on_vertex::left(i, der)` reads
the table of the left element, `(*left_)(0, i, der)`; `none` when it returns `0.0`
without reading. -/
def bspline_basis_values_on_vertex.left_lookup (t : bspline_basis_values_on_vertex)
    (i : Int) : Option Int :=
  match t.left_ with
  | some _ => if i ≤ t.left_last_ then some i else none
  | none => none

/-- The local DOF index at which `bspline_basis_values_on_vertex::right(i, der)`
reads the table of the right element, `(*right_)(0, idx, der)` with
`idx = i - right_first_`; `none` when it returns `0.0` without reading. -/
def bspline_basis_values_on_vertex.right_lookup (t : bspline_basis_values_on_vertex)
    (i : Int) : Option Int :=
  match t.right_ with
  | some _ =>
    if i ≥ t.right_first_ then
      let idx := i - t.right_first_
      some idx
    else none
  | none => none

/-! ## Sums of quadrature weights -/

/-- The sum over the list of index pairs `l` of the terms `term q`; `none` when a
term fails. -/
def sum_over_pairs (l : List (Int × Int)) (term : Int × Int → Option ℚ) : Option ℚ :=
  match l with
  | [] => some 0
  | q :: t => do
    let x ← term q
    let r ← sum_over_pairs t term
    pure (x + r)

/-- The sum over the point indices `q` of `quadrature::coordinates(e).weight(q)`. -/
def quadrature.element_weight_sum (G : gauss_tables) (qd : quadrature) (e : Int × Int) :
    Option ℚ := do
  let points ← qd.coordinates G e
  sum_over_pairs points.indices.toList (fun q => points.weight q)

/-- The sum over the elements `e` of the mesh and the point indices `q` of
`quadrature::coordinates(e).weight(q)`. -/
def quadrature.total_weight_sum (G : gauss_tables) (qd : quadrature) : Option ℚ :=
  sum_over_pairs qd.mesh_.elements.toList (fun e => qd.element_weight_sum G e)

/-! ## The cell addressed in a basis value table -/

/-- The offset into `buffer_` of the cell that
`bspline_basis_values::operator()(point, i, der)` reads,
`&point_data_[point][der][i] - &buffer_[0]`. -/
def bspline_basis_values.offset (v : bspline_basis_values) (point : Int) (i : Int)
    (der : Int) : Int :=
  vec_at v.dof_data_ (vec_at v.point_data_ point + der) + i

/-! ## Concrete spaces used to instantiate the statements -/

/-- A quadratic basis on two elements: knots `0,0,0,1/2,1,1,1`. -/
def sample_basis_x : bspline.basis :=
  ⟨[0, 0, 0, 1/2, 1, 1, 1], 2, [0, 1/2, 1], 2, 4⟩

/-- A linear basis on three elements: knots `0,0,1/3,2/3,1,1`. -/
def sample_basis_y : bspline.basis :=
  ⟨[0, 0, 1/3, 2/3, 1, 1], 1, [0, 1/3, 2/3, 1], 3, 4⟩

/-- The space over `sample_basis_x`: first DOFs `0, 1`, spans `2, 3`. -/
def sample_space_x : bspline_space :=
  ⟨sample_basis_x, [0, 1], [2, 3]⟩

/-- The space over `sample_basis_y`: first DOFs `0, 1, 2`, spans `1, 2, 3`. -/
def sample_space_y : bspline_space :=
  ⟨sample_basis_y, [0, 1, 2], [1, 2, 3]⟩

/-- The mesh under the two sample spaces. -/
def sample_mesh : regular_mesh :=
  ⟨⟨[0, 1/2, 1]⟩, ⟨[0, 1/3, 2/3, 1]⟩⟩

/-- The tensor-product space of the two sample spaces. -/
def sample_space : space :=
  ⟨sample_mesh, sample_space_x, sample_space_y⟩

/-- The table of the linear sample basis at the break point `1/3`, seen from
element 0: values `0, 1` and derivatives `-3, 3` of its two local DOFs. -/
def sample_values_left : bspline_basis_values :=
  { bspline_basis_values.create 1 2 1 with buffer_ := [0, 1, -3, 3] }

/-- The table of the linear sample basis at the break point `1/3`, seen from
element 1: values `1, 0` and derivatives `-3, 3` of its two local DOFs. -/
def sample_values_right : bspline_basis_values :=
  { bspline_basis_values.create 1 2 1 with buffer_ := [1, 0, -3, 3] }

/-- The one-sided table at facet 1 of the linear sample space: facet-local DOFs
`0, 1` belong to the left element and `1, 2` to the right one. -/
def sample_vertex : bspline_basis_values_on_vertex :=
  ⟨some sample_values_left, some sample_values_right, 1, 1⟩

/-- The one-sided table at the last facet of the linear sample space: only the
left element is present. -/
def sample_vertex_left_only : bspline_basis_values_on_vertex :=
  ⟨some sample_values_left, none, 1, 0⟩

/-- Two quadrature points on the first `x` element of the sample mesh, with
weights of the two-point rule scaled by half the element length. -/
def sample_points_x : interval_quadrature_points :=
  ⟨[1/8, 3/8], [1, 1], 1/4⟩

/-- Two quadrature points on the second `y` element of the sample mesh. -/
def sample_points_y : interval_quadrature_points :=
  ⟨[5/12, 7/12], [1, 1], 1/6⟩

/-- The tensor-product point set on element `(0, 1)` of the sample mesh. -/
def sample_tensor_points : tensor_quadrature_points :=
  ⟨sample_points_x, sample_points_y⟩

/-- The point set on the horizontal facet `(0, 1)` of the sample mesh, at
`y = 1/3`. -/
def sample_edge_points : edge_quadrature_points :=
  ⟨sample_points_x, 1/3, orientation.horizontal⟩

/-- The three-point rule with nodes `-1, 0, 1` and weights `1/3, 4/3, 1/3`
(exact for polynomials of degree at most 3), stored at point count 3, and the
one-point rule with node `0` and weight `2`, stored at point count 1. -/
def sample_gauss : gauss_tables :=
  ⟨fun n => if n = 3 then [-1, 0, 1] else if n = 1 then [0] else [],
   fun n => if n = 3 then [1/3, 4/3, 1/3] else if n = 1 then [2] else []⟩

/-- The three-point quadrature on the sample mesh. -/
def sample_quadrature : quadrature :=
  ⟨sample_mesh, 3⟩

/-- A quadratic basis on two elements with integer knots `0,0,0,1,2,2,2`. -/
def sample_basis_int : bspline.basis :=
  ⟨[0, 0, 0, 1, 2, 2, 2], 2, [0, 1, 2], 2, 4⟩

/-- The usual linear interpolation. -/
def linear_lerp : lerp_overloads :=
  ⟨fun t a b => (1 - t) * a + t * b,
   fun i n a b => (1 - (i : ℚ) / (n : ℚ)) * a + (i : ℚ) / (n : ℚ) * b⟩

/-- A basis constructor with `dofs() = knot_size - degree - 1`. -/
def sample_make (knot : List ℚ) (p : Int) : bspline.basis :=
  ⟨knot, p, [], 0, (knot.length : Int) - p - 1⟩

/-- A stand-in for the external `bspline::create_basis`. -/
def sample_bspline_create_basis (_a _b : ℚ) (p elements _repeated_nodes : Int) : bspline.basis :=
  ⟨[], p, [], elements, elements + p⟩

/-- The arguments `3 2 0 1 0 5`: the trial space is larger than the test space. -/
def sample_argv_rejected (k : Int) : Int :=
  vec_at [0, 3, 2, 0, 1, 0, 5] k

/-- The arguments `3 1 0 2 0 5`: the trial space is smaller than the test space. -/
def sample_argv_accepted (k : Int) : Int :=
  vec_at [0, 3, 1, 0, 2, 0, 5] k

/-- A basis constructor that keeps the knot vector and counts the elements as the
distinct knots minus one. -/
def sample_make_counting (knot : List ℚ) (p : Int) : bspline.basis :=
  ⟨knot, p, knot.dedup, (knot.dedup.length : Int) - 1, (knot.length : Int) - p - 1⟩

/-- The two-point rule with the nodes `-s`, `s` and the weights `1`, `1` (for every
point count); it is the two-point Gauss rule when `s * s = 1/3`. -/
def two_point_rule {K : Type} [LinearOrderedField K] (s : K) : scalar.gauss_tables K :=
  ⟨fun _ => [-s, s], fun _ => [1, 1]⟩

/-- The two-point quadrature on the sample mesh. -/
def sample_quadrature_2 : quadrature :=
  ⟨sample_mesh, 2⟩

/-! ## Ranges: membership, length, no repetition -/

theorem mem_range_toList (r : simple_index_range) (d : Int) :
    d ∈ r.toList ↔ r.start ≤ d ∧ d < r.past_end := by
  unfold simple_index_range.toList
  simp only [List.mem_map, List.mem_range]
  constructor
  · rintro ⟨k, hk, rfl⟩
    omega
  · rintro ⟨h1, h2⟩
    exact ⟨(d - r.start).toNat, by omega, by omega⟩

theorem length_range_toList (r : simple_index_range) :
    r.toList.length = (r.past_end - r.start).toNat := by
  simp [simple_index_range.toList]

theorem nodup_range_toList (r : simple_index_range) : r.toList.Nodup := by
  unfold simple_index_range.toList
  refine List.Nodup.map ?_ (List.nodup_range _)
  intro a b h
  simp only at h
  omega

theorem mem_index_range_toList (r : index_range) (d : Int × Int) :
    d ∈ r.toList ↔
      (r.rx.start ≤ d.1 ∧ d.1 < r.rx.past_end) ∧ (r.ry.start ≤ d.2 ∧ d.2 < r.ry.past_end) := by
  obtain ⟨a, b⟩ := d
  simp [index_range.toList, List.mem_product, mem_range_toList]

theorem length_index_range_toList (r : index_range) :
    r.toList.length
      = (r.rx.past_end - r.rx.start).toNat * (r.ry.past_end - r.ry.start).toNat := by
  show (r.rx.toList ×ˢ r.ry.toList).length = _
  rw [List.length_product, length_range_toList, length_range_toList]

theorem nodup_index_range_toList (r : index_range) : r.toList.Nodup := by
  unfold index_range.toList
  exact List.Nodup.product (nodup_range_toList _) (nodup_range_toList _)

/-! ## The linearization is a bijection of the index box -/

theorem linearized_bounds (nx ny ix iy : Int)
    (hix : 0 ≤ ix) (hix2 : ix < nx) (hiy : 0 ≤ iy) (hiy2 : iy < ny) :
    0 ≤ space.linearized (ix, iy) (nx, ny) ∧ space.linearized (ix, iy) (nx, ny) < nx * ny := by
  simp only [space.linearized, standard_ordering2.linear_index]
  constructor
  · have : 0 ≤ ix * ny := mul_nonneg hix (by omega)
    omega
  · have h1 : (ix + 1) * ny ≤ nx * ny := mul_le_mul_of_nonneg_right (by omega) (by omega)
    have h2 : (ix + 1) * ny = ix * ny + ny := by ring
    omega

theorem linearized_inj (nx ny ix iy jx jy : Int)
    (hiy : 0 ≤ iy) (hiy2 : iy < ny) (hjy : 0 ≤ jy) (hjy2 : jy < ny)
    (h : space.linearized (ix, iy) (nx, ny) = space.linearized (jx, jy) (nx, ny)) :
    ix = jx ∧ iy = jy := by
  simp only [space.linearized, standard_ordering2.linear_index] at h
  have hx : ix = jx := by
    rcases lt_trichotomy ix jx with hlt | heq | hgt
    · exfalso
      have h1 : (ix + 1) * ny ≤ jx * ny := mul_le_mul_of_nonneg_right (by omega) (by omega)
      have h2 : (ix + 1) * ny = ix * ny + ny := by ring
      omega
    · exact heq
    · exfalso
      have h1 : (jx + 1) * ny ≤ ix * ny := mul_le_mul_of_nonneg_right (by omega) (by omega)
      have h2 : (jx + 1) * ny = jx * ny + ny := by ring
      omega
  subst hx
  exact ⟨rfl, by omega⟩

theorem linearized_surj (nx ny k : Int) (hnx : 0 ≤ nx) (hk : 0 ≤ k) (hk2 : k < nx * ny) :
    ∃ ix iy : Int, (0 ≤ ix ∧ ix < nx) ∧ (0 ≤ iy ∧ iy < ny) ∧
      space.linearized (ix, iy) (nx, ny) = k := by
  have hny : 0 < ny := by
    by_contra hcon
    have : nx * ny ≤ 0 := mul_nonpos_of_nonneg_of_nonpos hnx (by omega)
    omega
  refine ⟨k / ny, k % ny, ⟨Int.ediv_nonneg hk hny.le, ?_⟩,
    ⟨Int.emod_nonneg k hny.ne', Int.emod_lt_of_pos k hny⟩, ?_⟩
  · exact Int.ediv_lt_of_lt_mul hny hk2
  · simp only [space.linearized, standard_ordering2.linear_index]
    exact Int.ediv_add_emod' k ny

/-- A map that linearizes the offsets from a corner `(ax, ay)` over the extents
`(nx, ny)` is a bijection from the box with that corner and those extents onto
`[0, nx * ny)`. -/
theorem bijOn_of_shifted_linearized (g : Int × Int → Int) (ax ay nx ny : Int) (hnx : 0 ≤ nx)
    (hg : ∀ d, g d = space.linearized (d.1 - ax, d.2 - ay) (nx, ny)) :
    Set.BijOn g
      {d | (ax ≤ d.1 ∧ d.1 < ax + nx) ∧ (ay ≤ d.2 ∧ d.2 < ay + ny)}
      (Set.Ico 0 (nx * ny)) := by
  refine ⟨?_, ?_, ?_⟩
  · rintro ⟨dx, dy⟩ ⟨⟨h1, h2⟩, h3, h4⟩
    simp only at h1 h2 h3 h4
    rw [Set.mem_Ico, hg]
    exact linearized_bounds nx ny (dx - ax) (dy - ay) (by omega) (by omega) (by omega) (by omega)
  · rintro ⟨dx, dy⟩ ⟨_, h3, h4⟩ ⟨ex, ey⟩ ⟨_, k3, k4⟩ heq
    simp only at h3 h4 k3 k4
    rw [hg, hg] at heq
    obtain ⟨e1, e2⟩ := linearized_inj nx ny (dx - ax) (dy - ay) (ex - ax) (ey - ay)
      (by omega) (by omega) (by omega) (by omega) heq
    exact Prod.ext (by simp only; omega) (by simp only; omega)
  · intro k hk
    rw [Set.mem_Ico] at hk
    obtain ⟨ix, iy, ⟨h1, h2⟩, ⟨h3, h4⟩, h5⟩ := linearized_surj nx ny k hnx hk.1 hk.2
    refine ⟨(ix + ax, iy + ay), ⟨⟨?_, ?_⟩, ?_, ?_⟩, ?_⟩
    · simp only; omega
    · simp only; omega
    · simp only; omega
    · simp only; omega
    · rw [hg]
      simp only [add_sub_cancel_right]
      exact h5

/-! ## C1: the global index -/

/-- C1: `space::global_index` is a bijection.  For a tensor-product space with
`nx = space_x.dof_count()` and `ny = space_y.dof_count()` DOFs per axis, the pairs
enumerated by `space::dofs()` are exactly the `(ix, iy)` with `0 <= ix < nx` and
`0 <= iy < ny`; `global_index` maps each of them into `[0, nx * ny)`, maps two
different pairs to different indices, and reaches every index of `[0, nx * ny)`. -/
theorem global_index_bijection (s : space)
    (hx : 0 ≤ s.space_x_.dof_count) (_hy : 0 ≤ s.space_y_.dof_count) :
    (∀ d : Int × Int, d ∈ s.dofs.toList ↔
      (0 ≤ d.1 ∧ d.1 < s.space_x_.dof_count) ∧ (0 ≤ d.2 ∧ d.2 < s.space_y_.dof_count)) ∧
    s.dof_count = s.space_x_.dof_count * s.space_y_.dof_count ∧
    Set.BijOn s.global_index
      {d | (0 ≤ d.1 ∧ d.1 < s.space_x_.dof_count) ∧ (0 ≤ d.2 ∧ d.2 < s.space_y_.dof_count)}
      (Set.Ico 0 s.dof_count) := by
  refine ⟨?_, rfl, ?_⟩
  · intro d
    rw [mem_index_range_toList]
    rfl
  · have h := bijOn_of_shifted_linearized s.global_index 0 0
      s.space_x_.dof_count s.space_y_.dof_count hx
      (by intro d; simp only [space.global_index, sub_zero])
    simpa only [zero_add] using h

/-- C1 at the sample space (4 x 4 DOFs). -/
theorem global_index_bijection_witness :
    (∀ d : Int × Int, d ∈ sample_space.dofs.toList ↔
      (0 ≤ d.1 ∧ d.1 < 4) ∧ (0 ≤ d.2 ∧ d.2 < 4)) ∧
    sample_space.dof_count = 4 * 4 ∧
    Set.BijOn sample_space.global_index
      {d | (0 ≤ d.1 ∧ d.1 < 4) ∧ (0 ≤ d.2 ∧ d.2 < 4)}
      (Set.Ico 0 sample_space.dof_count) :=
  global_index_bijection sample_space (by decide) (by decide)

/-! ## C7, C8: the DOFs of an element of a 1D space -/

theorem head_map_range (a : Int) (n : Nat) (hn : 0 < n) :
    ((List.range n).map (fun (k : Nat) => a + (k : Int))).head? = some a := by
  obtain ⟨m, rfl⟩ := Nat.exists_eq_succ_of_ne_zero hn.ne'
  simp [List.range_succ_eq_map]

theorem getLast_map_range (a : Int) (n : Nat) (hn : 0 < n) :
    ((List.range n).map (fun (k : Nat) => a + (k : Int))).getLast? = some (a + (n : Int) - 1) := by
  obtain ⟨m, rfl⟩ := Nat.exists_eq_succ_of_ne_zero hn.ne'
  rw [List.range_succ, List.map_append]
  simp
  omega

/-- C7: for a 1D space of degree `p >= 0` and every element `e`,
`bspline_space::dofs(e)` is the contiguous range
`[first_dofs[e], first_dofs[e] + p + 1)`: it enumerates `first_dofs[e] + k` for
`k = 0..p` in order, has exactly `p + 1` members, which is `dofs_per_element()`
and `dof_count(e)`, its first member is `first_dof(e)` and its last member is
`last_dof(e)`. -/
theorem dofs_elem_contiguous (s : bspline_space) (e : Int) (hp : 0 ≤ s.degree) :
    s.dofs_elem e
      = range (vec_at s.first_dofs_ e) (vec_at s.first_dofs_ e + s.degree + 1) ∧
    (s.dofs_elem e).toList
      = (List.range (s.degree + 1).toNat).map
          (fun (k : Nat) => vec_at s.first_dofs_ e + (k : Int)) ∧
    (∀ d : Int, d ∈ (s.dofs_elem e).toList ↔
      vec_at s.first_dofs_ e ≤ d ∧ d < vec_at s.first_dofs_ e + s.degree + 1) ∧
    ((s.dofs_elem e).toList.length : Int) = s.degree + 1 ∧
    s.dofs_per_element = s.degree + 1 ∧
    s.dof_count_elem e = s.degree + 1 ∧
    (s.dofs_elem e).toList.head? = some (s.first_dof e) ∧
    (s.dofs_elem e).toList.getLast? = some (s.last_dof e) := by
  have hlist : (s.dofs_elem e).toList
      = (List.range (s.degree + 1).toNat).map
          (fun (k : Nat) => vec_at s.first_dofs_ e + (k : Int)) := by
    simp only [bspline_space.dofs_elem, bspline_space.dofs_per_element, range,
      simple_index_range.toList]
    rw [show vec_at s.first_dofs_ e + (s.degree + 1) - vec_at s.first_dofs_ e = s.degree + 1
      by ring]
  have hpos : 0 < (s.degree + 1).toNat := by omega
  refine ⟨?_, hlist, ?_, ?_, rfl, rfl, ?_, ?_⟩
  · simp only [bspline_space.dofs_elem, bspline_space.dofs_per_element, range, add_assoc]
  · intro d
    rw [mem_range_toList]
    simp only [bspline_space.dofs_elem, bspline_space.dofs_per_element, range]
    omega
  · rw [hlist, List.length_map, List.length_range]
    omega
  · rw [hlist, head_map_range _ _ hpos]
    rfl
  · rw [hlist, getLast_map_range _ _ hpos]
    simp only [bspline_space.last_dof, bspline_space.first_dof, bspline_space.dofs_per_element]
    congr 1
    omega

/-- C7 at element 1 of the quadratic sample space: the DOFs are `1, 2, 3`. -/
theorem dofs_elem_contiguous_witness :
    sample_space_x.dofs_elem 1 = range 1 4 ∧
    (sample_space_x.dofs_elem 1).toList = [1, 2, 3] ∧
    ((sample_space_x.dofs_elem 1).toList.length : Int) = 3 ∧
    (sample_space_x.dofs_elem 1).toList.head? = some (sample_space_x.first_dof 1) ∧
    (sample_space_x.dofs_elem 1).toList.getLast? = some (sample_space_x.last_dof 1) :=
  have h := dofs_elem_contiguous sample_space_x 1 (by decide)
  ⟨h.1, by decide, h.2.2.2.1, h.2.2.2.2.2.2.1, h.2.2.2.2.2.2.2⟩

/-- C8: for every element `e`, `local_index(dof, e) = dof - first_dofs[e]`; on the
DOFs of `dofs(e)` it lies in `[0, degree]`, and `local_index(., e)` is a bijection
from `dofs(e)` onto `{0, ..., degree}` whose inverse is `i -> first_dofs[e] + i`. -/
theorem local_index_bijection (s : bspline_space) (e : Int) :
    (∀ dof : Int, s.local_index dof e = dof - vec_at s.first_dofs_ e) ∧
    (∀ dof : Int, dof ∈ (s.dofs_elem e).toList →
      0 ≤ s.local_index dof e ∧ s.local_index dof e ≤ s.degree) ∧
    Set.BijOn (fun dof => s.local_index dof e)
      {dof | dof ∈ (s.dofs_elem e).toList} (Set.Icc 0 s.degree) ∧
    Set.InvOn (fun i => vec_at s.first_dofs_ e + i) (fun dof => s.local_index dof e)
      {dof | dof ∈ (s.dofs_elem e).toList} (Set.Icc 0 s.degree) := by
  have hmem : ∀ d : Int, d ∈ (s.dofs_elem e).toList ↔
      vec_at s.first_dofs_ e ≤ d ∧ d < vec_at s.first_dofs_ e + (s.degree + 1) := by
    intro d
    rw [mem_range_toList]
    rfl
  refine ⟨fun _ => rfl, ?_, ⟨?_, ?_, ?_⟩, ⟨?_, ?_⟩⟩
  · intro dof hd
    have := (hmem dof).1 hd
    simp only [bspline_space.local_index]
    omega
  · intro dof hd
    have := (hmem dof).1 hd
    simp only [Set.mem_Icc, bspline_space.local_index]
    omega
  · intro a _ b _ hab
    simp only [bspline_space.local_index] at hab
    omega
  · intro i hi
    rw [Set.mem_Icc] at hi
    refine ⟨vec_at s.first_dofs_ e + i, (hmem _).2 (by omega), ?_⟩
    simp only [bspline_space.local_index]
    omega
  · intro dof _
    simp only [bspline_space.local_index]
    omega
  · intro i _
    simp only [bspline_space.local_index]
    omega

/-! ## C4, C5, C6: the DOFs on a facet of a 1D space -/

theorem mem_dofs_elem (s : bspline_space) (e d : Int) :
    d ∈ (s.dofs_elem e).toList ↔
      s.first_dof e ≤ d ∧ d < s.first_dof e + s.dofs_per_element := by
  rw [mem_range_toList]
  rfl

theorem mem_dofs_on_facet (s : bspline_space) (f d : Int) :
    d ∈ (s.dofs_on_facet f).toList ↔
      s.first_dof (max (f - 1) 0) ≤ d ∧
        d < s.first_dof (min f (s.basis_.elements - 1)) + s.dofs_per_element := by
  rw [mem_range_toList]
  rfl

/-- C5: for a 1D space of degree `p >= 0` and an interior facet `f` (`0 < f < E`)
across which the first DOF increases (`first_dofs[f-1] < first_dofs[f]`, as it
does between consecutive elements of a B-spline basis), `dofs_on_facet(f)`
contains every DOF of `dofs(f-1)` and every DOF of `dofs(f)`, contains a DOF that
`dofs(f-1)` lacks, and contains a DOF that `dofs(f)` lacks. -/
theorem dofs_on_facet_strict_superset (s : bspline_space) (f : Int)
    (hf0 : 0 < f) (hfE : f < s.basis_.elements) (hp : 0 ≤ s.degree)
    (hinc : s.first_dof (f - 1) < s.first_dof f) :
    (∀ d : Int, d ∈ (s.dofs_elem (f - 1)).toList → d ∈ (s.dofs_on_facet f).toList) ∧
    (∀ d : Int, d ∈ (s.dofs_elem f).toList → d ∈ (s.dofs_on_facet f).toList) ∧
    (∃ d : Int, d ∈ (s.dofs_on_facet f).toList ∧ d ∉ (s.dofs_elem (f - 1)).toList) ∧
    (∃ d : Int, d ∈ (s.dofs_on_facet f).toList ∧ d ∉ (s.dofs_elem f).toList) := by
  have h1 : max (f - 1) 0 = f - 1 := by omega
  have h2 : min f (s.basis_.elements - 1) = f := by omega
  have hmem : ∀ d : Int, d ∈ (s.dofs_on_facet f).toList ↔
      s.first_dof (f - 1) ≤ d ∧ d < s.first_dof f + (s.degree + 1) := by
    intro d
    rw [mem_dofs_on_facet, h1, h2]
    rfl
  have hl : ∀ d : Int, d ∈ (s.dofs_elem (f - 1)).toList ↔
      s.first_dof (f - 1) ≤ d ∧ d < s.first_dof (f - 1) + (s.degree + 1) :=
    fun d => mem_dofs_elem s (f - 1) d
  have hr : ∀ d : Int, d ∈ (s.dofs_elem f).toList ↔
      s.first_dof f ≤ d ∧ d < s.first_dof f + (s.degree + 1) :=
    fun d => mem_dofs_elem s f d
  refine ⟨?_, ?_, ⟨s.last_dof f, ?_, ?_⟩, ⟨s.first_dof (f - 1), ?_, ?_⟩⟩
  · intro d hd
    have := (hl d).1 hd
    exact (hmem d).2 (by omega)
  · intro d hd
    have := (hr d).1 hd
    exact (hmem d).2 (by omega)
  · refine (hmem _).2 ?_
    simp only [bspline_space.last_dof, bspline_space.dofs_per_element]
    omega
  · intro hd
    have := (hl _).1 hd
    simp only [bspline_space.last_dof, bspline_space.dofs_per_element] at this
    omega
  · exact (hmem _).2 (by omega)
  · intro hd
    have := (hr _).1 hd
    omega

/-- C5 at the interior facet 1 of the quadratic sample space: the facet carries
DOF 3, which element 0 lacks, and DOF 0, which element 1 lacks. -/
theorem dofs_on_facet_strict_superset_witness :
    (∀ d : Int, d ∈ (sample_space_x.dofs_elem (1 - 1)).toList →
      d ∈ (sample_space_x.dofs_on_facet 1).toList) ∧
    (∀ d : Int, d ∈ (sample_space_x.dofs_elem 1).toList →
      d ∈ (sample_space_x.dofs_on_facet 1).toList) ∧
    (∃ d : Int, d ∈ (sample_space_x.dofs_on_facet 1).toList ∧
      d ∉ (sample_space_x.dofs_elem (1 - 1)).toList) ∧
    (∃ d : Int, d ∈ (sample_space_x.dofs_on_facet 1).toList ∧
      d ∉ (sample_space_x.dofs_elem 1).toList) :=
  dofs_on_facet_strict_superset sample_space_x 1 (by decide) (by decide) (by decide)
    (by decide)

/-- C6: for a 1D space with `E >= 1` elements and every facet `f` with
`0 <= f <= E`, `facet_local_index(dof, f) = dof - first_dofs[max(f-1, 0)]`; the
numbering is 0 on the first DOF of the left element, and on the first DOF of the
right element when there is no left element (`f = 0`); it is strictly increasing
in `dof`; and on `dofs_on_facet(f)` it takes exactly the values
`0 .. facet_dof_count(f) - 1`, each once. -/
theorem facet_local_index_numbering (s : bspline_space) (f : Int)
    (_hE : 1 ≤ s.basis_.elements) (hf0 : 0 ≤ f) (_hfE : f ≤ s.basis_.elements) :
    (∀ dof : Int,
      s.facet_local_index dof f = dof - vec_at s.first_dofs_ (max (f - 1) 0)) ∧
    (∀ e : Int, element_left f s.basis_ = some e →
      s.facet_local_index (s.first_dof e) f = 0) ∧
    (element_left f s.basis_ = none → ∀ e : Int, element_right f s.basis_ = some e →
      s.facet_local_index (s.first_dof e) f = 0) ∧
    (∀ d1 d2 : Int, d1 < d2 → s.facet_local_index d1 f < s.facet_local_index d2 f) ∧
    Set.BijOn (fun dof => s.facet_local_index dof f)
      {dof | dof ∈ (s.dofs_on_facet f).toList} (Set.Ico 0 (s.facet_dof_count f)) := by
  have hmem : ∀ d : Int, d ∈ (s.dofs_on_facet f).toList ↔
      vec_at s.first_dofs_ (max (f - 1) 0) ≤ d ∧
        d < vec_at s.first_dofs_ (min f (s.basis_.elements - 1)) + s.dofs_per_element :=
    fun d => mem_dofs_on_facet s f d
  have hcount : s.facet_dof_count f
      = vec_at s.first_dofs_ (min f (s.basis_.elements - 1)) + s.dofs_per_element
        - vec_at s.first_dofs_ (max (f - 1) 0) := rfl
  refine ⟨fun _ => rfl, ?_, ?_, ?_, ⟨?_, ?_, ?_⟩⟩
  · intro e he
    simp only [element_left] at he
    split at he
    · rename_i hpos
      have he2 : f - 1 = e := by simpa using he
      have h1 : max (f - 1) 0 = e := by omega
      simp only [bspline_space.facet_local_index, bspline_space.first_dof, h1, sub_self]
    · exact absurd he (by simp)
  · intro hl e he
    simp only [element_left] at hl
    simp only [element_right] at he
    split at hl
    · exact absurd hl (by simp)
    · rename_i hnot
      split at he
      · have he2 : f = e := by simpa using he
        have h1 : max (f - 1) 0 = e := by omega
        simp only [bspline_space.facet_local_index, bspline_space.first_dof, h1, sub_self]
      · exact absurd he (by simp)
  · intro d1 d2 h
    simp only [bspline_space.facet_local_index]
    omega
  · intro dof hd
    have := (hmem dof).1 hd
    rw [Set.mem_Ico, hcount]
    simp only [bspline_space.facet_local_index]
    omega
  · intro a _ b _ hab
    simp only [bspline_space.facet_local_index] at hab
    omega
  · intro i hi
    rw [Set.mem_Ico, hcount] at hi
    refine ⟨vec_at s.first_dofs_ (max (f - 1) 0) + i, (hmem _).2 (by omega), ?_⟩
    simp only [bspline_space.facet_local_index]
    omega

/-- C6 at the interior facet 2 of the linear sample space: the facet carries the
DOFs `1, 2, 3`, numbered `0, 1, 2`. -/
theorem facet_local_index_numbering_witness :
    (sample_space_y.dofs_on_facet 2).toList = [1, 2, 3] ∧
    sample_space_y.facet_dof_count 2 = 3 ∧
    (sample_space_y.dofs_on_facet 2).toList.map
      (fun dof => sample_space_y.facet_local_index dof 2) = [0, 1, 2] ∧
    Set.BijOn (fun dof => sample_space_y.facet_local_index dof 2)
      {dof | dof ∈ (sample_space_y.dofs_on_facet 2).toList}
      (Set.Ico 0 (sample_space_y.facet_dof_count 2)) :=
  ⟨by decide, by decide, by decide,
    (facet_local_index_numbering sample_space_y 2 (by decide) (by decide)
      (by decide)).2.2.2.2⟩

/-! ## C2, C3: local and facet-local indices of the tensor-product space -/

theorem bijOn_index_range (g : Int × Int → Int) (r : index_range) (nx ny : Int)
    (hnx : 0 ≤ nx)
    (hx : r.rx.past_end = r.rx.start + nx) (hy : r.ry.past_end = r.ry.start + ny)
    (hg : ∀ d, g d = space.linearized (d.1 - r.rx.start, d.2 - r.ry.start) (nx, ny)) :
    Set.BijOn g {d | d ∈ r.toList} (Set.Ico 0 (nx * ny)) := by
  have hset : {d : Int × Int | d ∈ r.toList}
      = {d | (r.rx.start ≤ d.1 ∧ d.1 < r.rx.start + nx) ∧
          (r.ry.start ≤ d.2 ∧ d.2 < r.ry.start + ny)} := by
    ext d
    simp only [Set.mem_setOf_eq, mem_index_range_toList, hx, hy]
  rw [hset]
  exact bijOn_of_shifted_linearized g r.rx.start r.ry.start nx ny hnx hg

theorem length_index_range (r : index_range) (nx ny : Int) (hnx : 0 ≤ nx) (hny : 0 ≤ ny)
    (hx : r.rx.past_end = r.rx.start + nx) (hy : r.ry.past_end = r.ry.start + ny) :
    (r.toList.length : Int) = nx * ny := by
  rw [length_index_range_toList, hx, hy, Nat.cast_mul]
  have h1 : ((r.rx.start + nx - r.rx.start).toNat : Int) = nx := by omega
  have h2 : ((r.ry.start + ny - r.ry.start).toNat : Int) = ny := by omega
  rw [h1, h2]

/-- C2: for every element `e = (ex, ey)` of a tensor-product space with degrees
`px, py >= 0`, `dof_count(e) = (px + 1) * (py + 1)`; `dofs(e)` enumerates that many
pairs without repetition; `local_index(., e)` is a bijection from the pairs of
`dofs(e)` onto `[0, dof_count(e))`; and `local_index((dx, dy), e)` is the
linearization of the offsets `(dx - first_x[ex], dy - first_y[ey])` over the
extents `(px + 1, py + 1)`, the value `global_index` gives to those offsets in any
space with `px + 1` and `py + 1` DOFs per axis. -/
theorem space_local_index_bijection (s : space) (e : Int × Int)
    (hpx : 0 ≤ s.space_x_.degree) (hpy : 0 ≤ s.space_y_.degree) :
    s.dof_count_elem e = (s.space_x_.degree + 1) * (s.space_y_.degree + 1) ∧
    ((s.dofs_elem e).toList.length : Int) = s.dof_count_elem e ∧
    (s.dofs_elem e).toList.Nodup ∧
    Set.BijOn (fun d => s.local_index d e)
      {d | d ∈ (s.dofs_elem e).toList} (Set.Ico 0 (s.dof_count_elem e)) ∧
    (∀ d : Int × Int, s.local_index d e
      = space.linearized
          (d.1 - vec_at s.space_x_.first_dofs_ e.1, d.2 - vec_at s.space_y_.first_dofs_ e.2)
          (s.space_x_.degree + 1, s.space_y_.degree + 1)) ∧
    (∀ (t : space) (d : Int × Int),
      t.space_x_.dof_count = s.space_x_.degree + 1 →
      t.space_y_.dof_count = s.space_y_.degree + 1 →
      s.local_index d e
        = t.global_index
            (d.1 - vec_at s.space_x_.first_dofs_ e.1,
              d.2 - vec_at s.space_y_.first_dofs_ e.2)) := by
  have hcount : s.dof_count_elem e
      = (s.space_x_.degree + 1) * (s.space_y_.degree + 1) := rfl
  have hloc : ∀ d : Int × Int, s.local_index d e
      = space.linearized
          (d.1 - vec_at s.space_x_.first_dofs_ e.1, d.2 - vec_at s.space_y_.first_dofs_ e.2)
          (s.space_x_.degree + 1, s.space_y_.degree + 1) := fun _ => rfl
  refine ⟨hcount, ?_, nodup_index_range_toList _, ?_, hloc, ?_⟩
  · rw [hcount]
    exact length_index_range (s.dofs_elem e) _ _ (by omega) (by omega) rfl rfl
  · rw [hcount]
    exact bijOn_index_range _ (s.dofs_elem e) _ _ (by omega) rfl rfl hloc
  · intro t d htx hty
    rw [hloc]
    simp only [space.global_index, htx, hty]

/-- C2 at element `(1, 2)` of the sample space: 3 x 2 DOFs, numbered `0..5`. -/
theorem space_local_index_bijection_witness :
    sample_space.dof_count_elem (1, 2) = 6 ∧
    (sample_space.dofs_elem (1, 2)).toList
      = [(1, 2), (1, 3), (2, 2), (2, 3), (3, 2), (3, 3)] ∧
    (sample_space.dofs_elem (1, 2)).toList.map (fun d => sample_space.local_index d (1, 2))
      = [0, 1, 2, 3, 4, 5] ∧
    Set.BijOn (fun d => sample_space.local_index d (1, 2))
      {d | d ∈ (sample_space.dofs_elem (1, 2)).toList}
      (Set.Ico 0 (sample_space.dof_count_elem (1, 2))) :=
  ⟨by decide, by decide, by decide,
    (space_local_index_bijection sample_space (1, 2) (by decide) (by decide)).2.2.2.1⟩

/-- On an in-range facet of a 1D space whose first-DOF table is nondecreasing, the
facet carries at least the DOFs of one element. -/
theorem dofs_per_element_le_facet_dof_count (s : bspline_space) (f : Int)
    (hE : 1 ≤ s.basis_.elements) (hf0 : 0 ≤ f) (hfE : f ≤ s.basis_.elements)
    (hmono : ∀ e : Int, 0 ≤ e → e + 1 < s.basis_.elements →
      s.first_dof e ≤ s.first_dof (e + 1)) :
    s.dofs_per_element ≤ s.facet_dof_count f := by
  have hcount : s.facet_dof_count f
      = s.first_dof (min f (s.basis_.elements - 1)) + s.dofs_per_element
        - s.first_dof (max (f - 1) 0) := rfl
  rw [hcount]
  rcases eq_or_lt_of_le hf0 with h0 | hpos
  · subst h0
    have h1 : max ((0 : Int) - 1) 0 = 0 := by omega
    have h2 : min (0 : Int) (s.basis_.elements - 1) = 0 := by omega
    rw [h1, h2]
    omega
  · rcases eq_or_lt_of_le hfE with hlast | hlt
    · have h1 : max (f - 1) 0 = f - 1 := by omega
      have h2 : min f (s.basis_.elements - 1) = f - 1 := by omega
      rw [h1, h2]
      omega
    · have h1 : max (f - 1) 0 = f - 1 := by omega
      have h2 : min f (s.basis_.elements - 1) = f - 1 + 1 := by omega
      have := hmono (f - 1) (by omega) (by omega)
      rw [h1, h2]
      omega

/-- C3: for a tensor-product space with degrees `px, py >= 0`, at least one
element per axis and nondecreasing per-axis first-DOF tables, and for every
in-range facet `f` of either orientation (horizontal: `0 <= ix < Ex`,
`0 <= iy <= Ey`; vertical: `0 <= ix <= Ex`, `0 <= iy < Ey`),
`facet_local_index(., f)` is a bijection from the pairs of `dofs_on_facet(f)` onto
`[0, facet_dof_count(f))`, and `dofs_on_facet(f)` enumerates exactly
`facet_dof_count(f)` pairs, none twice. -/
theorem space_facet_local_index_bijection (s : space) (f : edge_index)
    (hpx : 0 ≤ s.space_x_.degree) (hpy : 0 ≤ s.space_y_.degree)
    (hEx : 1 ≤ s.space_x_.basis_.elements) (hEy : 1 ≤ s.space_y_.basis_.elements)
    (hfx : 0 ≤ f.ix) (hfy : 0 ≤ f.iy)
    (hhor : f.dir = orientation.horizontal →
      f.ix < s.space_x_.basis_.elements ∧ f.iy ≤ s.space_y_.basis_.elements)
    (hver : f.dir = orientation.vertical →
      f.ix ≤ s.space_x_.basis_.elements ∧ f.iy < s.space_y_.basis_.elements)
    (hmx : ∀ e : Int, 0 ≤ e → e + 1 < s.space_x_.basis_.elements →
      s.space_x_.first_dof e ≤ s.space_x_.first_dof (e + 1))
    (hmy : ∀ e : Int, 0 ≤ e → e + 1 < s.space_y_.basis_.elements →
      s.space_y_.first_dof e ≤ s.space_y_.first_dof (e + 1)) :
    Set.BijOn (fun d => s.facet_local_index d f)
      {d | d ∈ (s.dofs_on_facet f).toList} (Set.Ico 0 (s.facet_dof_count f)) ∧
    ((s.dofs_on_facet f).toList.length : Int) = s.facet_dof_count f ∧
    (s.dofs_on_facet f).toList.Nodup := by
  obtain ⟨fx, fy, dir⟩ := f
  simp only at hfx hfy hhor hver
  have hdx : 0 ≤ s.space_x_.dofs_per_element := by
    simp only [bspline_space.dofs_per_element]
    omega
  have hdy : 0 ≤ s.space_y_.dofs_per_element := by
    simp only [bspline_space.dofs_per_element]
    omega
  cases dir
  · have hin := hhor rfl
    have hge := dofs_per_element_le_facet_dof_count s.space_y_ fy hEy hfy hin.2 hmy
    have hcount : s.facet_dof_count ⟨fx, fy, orientation.horizontal⟩
        = s.space_x_.dofs_per_element * s.space_y_.facet_dof_count fy := rfl
    have hry : (s.space_y_.dofs_on_facet fy).past_end
        = (s.space_y_.dofs_on_facet fy).start + s.space_y_.facet_dof_count fy := by
      simp only [bspline_space.facet_dof_count, simple_index_range.distance]
      omega
    refine ⟨?_, ?_, nodup_index_range_toList _⟩
    · rw [hcount]
      exact bijOn_index_range _ (s.dofs_on_facet ⟨fx, fy, orientation.horizontal⟩) _ _ hdx
        rfl hry (fun _ => rfl)
    · rw [hcount]
      exact length_index_range (s.dofs_on_facet ⟨fx, fy, orientation.horizontal⟩) _ _ hdx
        (by omega) rfl hry
  · have hin := hver rfl
    have hge := dofs_per_element_le_facet_dof_count s.space_x_ fx hEx hfx hin.1 hmx
    have hcount : s.facet_dof_count ⟨fx, fy, orientation.vertical⟩
        = s.space_x_.facet_dof_count fx * s.space_y_.dofs_per_element := rfl
    have hrx : (s.space_x_.dofs_on_facet fx).past_end
        = (s.space_x_.dofs_on_facet fx).start + s.space_x_.facet_dof_count fx := by
      simp only [bspline_space.facet_dof_count, simple_index_range.distance]
      omega
    refine ⟨?_, ?_, nodup_index_range_toList _⟩
    · rw [hcount]
      exact bijOn_index_range _ (s.dofs_on_facet ⟨fx, fy, orientation.vertical⟩) _ _
        (by omega) hrx rfl (fun _ => rfl)
    · rw [hcount]
      exact length_index_range (s.dofs_on_facet ⟨fx, fy, orientation.vertical⟩) _ _
        (by omega) hdy hrx rfl

/-- C3 at two facets of the sample space: the interior vertical facet `(1, 1)`
with 4 x 2 DOFs and the top boundary horizontal facet `(0, 3)` with 3 x 2 DOFs. -/
theorem space_facet_local_index_bijection_witness :
    (sample_space.facet_dof_count ⟨1, 1, orientation.vertical⟩ = 8 ∧
      (sample_space.dofs_on_facet ⟨1, 1, orientation.vertical⟩).toList.map
        (fun d => sample_space.facet_local_index d ⟨1, 1, orientation.vertical⟩)
        = [0, 1, 2, 3, 4, 5, 6, 7]) ∧
    (Set.BijOn (fun d => sample_space.facet_local_index d ⟨0, 3, orientation.horizontal⟩)
        {d | d ∈ (sample_space.dofs_on_facet ⟨0, 3, orientation.horizontal⟩).toList}
        (Set.Ico 0 (sample_space.facet_dof_count ⟨0, 3, orientation.horizontal⟩)) ∧
      ((sample_space.dofs_on_facet ⟨0, 3, orientation.horizontal⟩).toList.length : Int)
        = sample_space.facet_dof_count ⟨0, 3, orientation.horizontal⟩ ∧
      (sample_space.dofs_on_facet ⟨0, 3, orientation.horizontal⟩).toList.Nodup) :=
  ⟨⟨by decide, by decide⟩,
    space_facet_local_index_bijection sample_space ⟨0, 3, orientation.horizontal⟩
      (by decide) (by decide) (by decide) (by decide) (by decide) (by decide)
      (fun _ => ⟨by decide, by decide⟩)
      (fun h => absurd h (by decide))
      (by
        intro e h0 h1
        have h2 : e + 1 < 2 := h1
        obtain rfl : e = 0 := by omega
        decide)
      (by
        intro e h0 h1
        have h2 : e + 1 < 3 := h1
        have h3 : e = 0 ∨ e = 1 := by omega
        rcases h3 with rfl | rfl <;> decide)⟩

/-! ## C9, C10: jump and average of a one-sided vertex table -/

/-- C9: for every one-sided vertex table, facet-local DOF `i`, derivative order
`der` and normal `n`, `jump(i, der, n) = n * (left(i, der) - right(i, der))`, where
`left(i, der)` is entry `i` of the left table when the left side is present and
`i <= left_last`, and 0 otherwise, and `right(i, der)` is entry `i - right_first`
of the right table when the right side is present and `i >= right_first`, and 0
otherwise. -/
theorem jump_formula (t : bspline_basis_values_on_vertex) (i der : Int) (n : ℚ) :
    t.jump i der n = n * (t.left i der - t.right i der) ∧
    (∀ l : bspline_basis_values, t.left_ = some l → i ≤ t.left_last_ →
      t.left i der = l.value 0 i der) ∧
    (t.left_ = none ∨ t.left_last_ < i → t.left i der = 0) ∧
    (∀ r : bspline_basis_values, t.right_ = some r → t.right_first_ ≤ i →
      t.right i der = r.value 0 (i - t.right_first_) der) ∧
    (t.right_ = none ∨ i < t.right_first_ → t.right i der = 0) := by
  refine ⟨rfl, ?_, ?_, ?_, ?_⟩
  · intro l hl hi
    simp only [bspline_basis_values_on_vertex.left, hl, if_pos hi]
  · intro h
    rcases h with h | h
    · simp only [bspline_basis_values_on_vertex.left, h]
    · unfold bspline_basis_values_on_vertex.left
      cases t.left_ with
      | none => rfl
      | some l => simp only [if_neg (not_le.mpr h)]
  · intro r hr hi
    simp only [bspline_basis_values_on_vertex.right, hr, ge_iff_le, if_pos hi]
  · intro h
    rcases h with h | h
    · simp only [bspline_basis_values_on_vertex.right, h]
    · unfold bspline_basis_values_on_vertex.right
      cases t.right_ with
      | none => rfl
      | some r => simp only [ge_iff_le, if_neg (not_le.mpr h)]

/-- C9 at the sample vertex table: the shared DOF 1 has value 1 on both sides and
derivative 3 on the left, -3 on the right. -/
theorem jump_formula_witness :
    sample_vertex.left 1 0 = 1 ∧ sample_vertex.right 1 0 = 1 ∧
    sample_vertex.left 1 1 = 3 ∧ sample_vertex.right 1 1 = -3 ∧
    sample_vertex.left 2 0 = 0 ∧ sample_vertex.right 0 0 = 0 ∧
    sample_vertex.jump 1 1 (-1)
      = -1 * (sample_vertex.left 1 1 - sample_vertex.right 1 1) :=
  ⟨by decide, by decide, by decide, by decide, by decide, by decide,
    (jump_formula sample_vertex 1 1 (-1)).1⟩

/-- C10: for every one-sided vertex table, DOF `i` and derivative order `der`:
when both adjacent-element tables are present,
`average(i, der) = (left(i, der) + right(i, der)) / 2`; when only the left one is
present, `average(i, der) = left(i, der)`; when only the right one is present,
`average(i, der) = right(i, der)`. -/
theorem average_cases (t : bspline_basis_values_on_vertex) (i der : Int) :
    (t.left_.isSome → t.right_.isSome →
      t.average i der = (t.left i der + t.right i der) / 2) ∧
    (t.left_.isSome → t.right_ = none → t.average i der = t.left i der) ∧
    (t.left_ = none → t.right_.isSome → t.average i der = t.right i der) := by
  refine ⟨?_, ?_, ?_⟩
  · intro hl hr
    simp only [bspline_basis_values_on_vertex.average, hl, hr, and_self, if_true]
  · intro _ hr
    simp [bspline_basis_values_on_vertex.average, bspline_basis_values_on_vertex.right, hr]
  · intro hl _
    simp [bspline_basis_values_on_vertex.average, bspline_basis_values_on_vertex.left, hl]

/-- C10 at the sample vertex tables: with both sides present the derivative of
the shared DOF averages to 0; with only the left side the average is the left
value. -/
theorem average_cases_witness :
    sample_vertex.average 1 1 = (sample_vertex.left 1 1 + sample_vertex.right 1 1) / 2 ∧
    sample_vertex.average 1 1 = 0 ∧
    sample_vertex_left_only.average 1 1 = sample_vertex_left_only.left 1 1 ∧
    sample_vertex_left_only.average 1 1 = 3 :=
  have hl : sample_vertex.left 1 1 = 3 := by decide
  have hr : sample_vertex.right 1 1 = -3 := by decide
  have hl1 : sample_vertex_left_only.left 1 1 = 3 := by decide
  have h1 := (average_cases sample_vertex 1 1).1 rfl rfl
  have h2 := (average_cases sample_vertex_left_only 1 1).2.1 rfl rfl
  ⟨h1, by rw [h1, hl, hr]; norm_num, h2, by rw [h2, hl1]⟩

/-! ## C18, C19, C20: the interval mesh -/

theorem vec_at_eq_getElem {α : Type} [Zero α] (v : List α) (i : Int) (h0 : 0 ≤ i)
    (h1 : i < (v.length : Int)) :
    v[i.toNat]? = some (vec_at v i) := by
  have hlt : i.toNat < v.length := by omega
  simp only [vec_at, if_pos h0]
  rw [List.getD_eq_getElem v 0 hlt, List.getElem?_eq_getElem hlt]

/-- C19: for a partition with `n + 1` points, `interval_mesh::element_count()` is
`n`, `elements()` yields exactly the `n` indices `0, 1, ..., n-1` in increasing
order, and `facets()` yields exactly the `n + 1` indices `0, ..., n`. -/
theorem interval_mesh_counts (m : interval_mesh) (n : Nat)
    (hlen : m.points_.length = n + 1) :
    m.element_count = (n : Int) ∧
    m.elements.toList = (List.range n).map (fun (k : Nat) => (k : Int)) ∧
    m.elements.toList.length = n ∧
    m.facets.toList = (List.range (n + 1)).map (fun (k : Nat) => (k : Int)) := by
  have hcount : m.element_count = (n : Int) := by
    simp only [interval_mesh.element_count, hlen]
    omega
  have hel : m.elements.toList = (List.range n).map (fun (k : Nat) => (k : Int)) := by
    simp only [interval_mesh.elements, range, simple_index_range.toList, hcount, sub_zero,
      Int.toNat_ofNat, zero_add]
  refine ⟨hcount, hel, ?_, ?_⟩
  · rw [hel, List.length_map, List.length_range]
  · simp only [interval_mesh.facets, range, simple_index_range.toList, hlen, sub_zero,
      Int.toNat_ofNat, zero_add]

/-- C19 at the `y` partition of the sample mesh (4 points, 3 elements). -/
theorem interval_mesh_counts_witness :
    sample_mesh.mesh_y_.element_count = 3 ∧
    sample_mesh.mesh_y_.elements.toList = [0, 1, 2] ∧
    sample_mesh.mesh_y_.elements.toList.length = 3 ∧
    sample_mesh.mesh_y_.facets.toList = [0, 1, 2, 3] :=
  interval_mesh_counts sample_mesh.mesh_y_ 3 rfl

/-- C18: for every interval mesh and every facet index `i` with
`0 <= i < point_count`, `interval_mesh::facet(i)` succeeds and returns the position
`points[i]` and the normal `-1` if `i = 0` and `+1` for every other index,
interior points included. -/
theorem interval_mesh_facet_spec (m : interval_mesh) (i : Int)
    (h0 : 0 ≤ i) (h1 : i < (m.points_.length : Int)) :
    ∃ d : point_data, m.facet i = some d ∧
      m.points_[i.toNat]? = some d.position ∧
      d.normal = (if i = 0 then -1 else 1) ∧
      (i = 0 → d.normal = -1) ∧ (0 < i → d.normal = 1) := by
  refine ⟨⟨vec_at m.points_ i, if i > 0 then 1 else -1⟩, ?_, ?_, ?_, ?_, ?_⟩
  · simp only [interval_mesh.facet, if_pos h1]
  · exact vec_at_eq_getElem m.points_ i h0 h1
  · by_cases hi : i = 0
    · subst hi
      simp
    · have hpos : i > 0 := by omega
      simp only [if_pos hpos, if_neg hi]
  · intro hi
    subst hi
    simp
  · intro hi
    simp only [gt_iff_lt, if_pos hi]

/-- C18 at the `y` partition of the sample mesh: the interior point 2 and the
last point 3 get normal `+1`, the first point gets `-1`. -/
theorem interval_mesh_facet_spec_witness :
    sample_mesh.mesh_y_.facet 0 = some ⟨0, -1⟩ ∧
    sample_mesh.mesh_y_.facet 2 = some ⟨2/3, 1⟩ ∧
    sample_mesh.mesh_y_.facet 3 = some ⟨1, 1⟩ ∧
    (∃ d : point_data, sample_mesh.mesh_y_.facet 2 = some d ∧
      sample_mesh.mesh_y_.points_[(2 : Int).toNat]? = some d.position ∧
      d.normal = (if (2 : Int) = 0 then -1 else 1) ∧
      ((2 : Int) = 0 → d.normal = -1) ∧ ((0 : Int) < 2 → d.normal = 1)) :=
  ⟨rfl, rfl, rfl,
    interval_mesh_facet_spec sample_mesh.mesh_y_ 2 (by decide) (by decide)⟩

/-- C20: `interval_mesh::subinterval(e)` fails its assertion exactly when `e` is
outside `[0, element_count)`; for every `e` inside that range it returns
`(points[e], points[e+1])`, and when the partition is strictly increasing the
result has `left < right` and `length = points[e+1] - points[e] > 0`. -/
theorem subinterval_spec (m : interval_mesh) (e : Int) :
    (m.subinterval e = none ↔ ¬ (0 ≤ e ∧ e < m.element_count)) ∧
    (0 ≤ e → e < m.element_count →
      ∃ a b : ℚ, m.points_[e.toNat]? = some a ∧ m.points_[e.toNat + 1]? = some b ∧
        m.subinterval e = some ⟨a, b⟩ ∧
        (m.points_.Sorted (· < ·) →
          a < b ∧ length ⟨a, b⟩ = b - a ∧ 0 < length ⟨a, b⟩)) := by
  constructor
  · simp only [interval_mesh.subinterval, subinterval, interval_mesh.element_count, ge_iff_le]
    by_cases h : 0 ≤ e ∧ e < (m.points_.length : Int) - 1
    · rw [if_pos h]
      simp only [reduceCtorEq, false_iff, not_not]
      exact h
    · rw [if_neg h]
      simp only [true_iff]
      exact h
  · intro h0 h1
    have h1' : e < (m.points_.length : Int) - 1 := h1
    have ha := vec_at_eq_getElem m.points_ e h0 (by omega)
    have hb := vec_at_eq_getElem m.points_ (e + 1) (by omega) (by omega)
    have hnat : (e + 1).toNat = e.toNat + 1 := by omega
    rw [hnat] at hb
    refine ⟨vec_at m.points_ e, vec_at m.points_ (e + 1), ha, hb, ?_, ?_⟩
    · simp only [interval_mesh.subinterval, subinterval, ge_iff_le]
      rw [if_pos ⟨h0, h1'⟩]
    · intro hs
      have hlt1 : e.toNat < m.points_.length := by omega
      have hlt2 : e.toNat + 1 < m.points_.length := by omega
      have hpair := (List.pairwise_iff_getElem.mp hs) e.toNat (e.toNat + 1) hlt1 hlt2
        (Nat.lt_succ_self _)
      rw [List.getElem?_eq_getElem hlt1] at ha
      rw [List.getElem?_eq_getElem hlt2] at hb
      have ea : m.points_[e.toNat] = vec_at m.points_ e := Option.some.inj ha
      have eb : m.points_[e.toNat + 1] = vec_at m.points_ (e + 1) := Option.some.inj hb
      rw [ea, eb] at hpair
      have hpos : 0 < vec_at m.points_ (e + 1) - vec_at m.points_ e := sub_pos.mpr hpair
      refine ⟨hpair, ?_, ?_⟩
      · simp only [length]
        exact abs_of_pos hpos
      · simp only [length]
        rw [abs_of_pos hpos]
        exact hpos

/-- C20 at the `y` partition of the sample mesh: element 1 is `(1/3, 2/3)`,
elements `-1` and `3` fail the assertion. -/
theorem subinterval_spec_witness :
    sample_mesh.mesh_y_.subinterval 1 = some ⟨1/3, 2/3⟩ ∧
    sample_mesh.mesh_y_.subinterval (-1) = none ∧
    sample_mesh.mesh_y_.subinterval 3 = none ∧
    (sample_mesh.mesh_y_.subinterval 3 = none ↔
      ¬ (0 ≤ (3 : Int) ∧ (3 : Int) < sample_mesh.mesh_y_.element_count)) :=
  ⟨rfl, rfl, rfl, (subinterval_spec sample_mesh.mesh_y_ 3).1⟩

/-! ## C14, C15, C16, C17: the regular mesh -/

theorem length_flatMap_map {α β γ : Type} (l : List α) (l2 : List β) (g : α → β → γ) :
    (l.flatMap fun a => l2.map (g a)).length = l.length * l2.length := by
  induction l with
  | nil => simp
  | cons a t ih =>
    rw [List.flatMap_cons, List.length_append, ih, List.length_map, List.length_cons]
    ring

theorem mem_flatMap_map {α β γ : Type} (l : List α) (l2 : List β) (g : α → β → γ) (c : γ) :
    c ∈ (l.flatMap fun a => l2.map (g a)) ↔ ∃ a, a ∈ l ∧ ∃ b, b ∈ l2 ∧ g a b = c := by
  simp only [List.mem_flatMap, List.mem_map]

theorem nodup_flatMap_map {α β γ : Type} (l : List α) (l2 : List β) (g : α → β → γ)
    (hl : l.Nodup) (hl2 : l2.Nodup)
    (hg : ∀ a a2 b b2, g a b = g a2 b2 → a = a2 ∧ b = b2) :
    (l.flatMap fun a => l2.map (g a)).Nodup := by
  rw [List.nodup_flatMap]
  constructor
  · intro a _
    exact List.Nodup.map (fun b b2 h => (hg a a b b2 h).2) hl2
  · refine List.Pairwise.imp ?_ hl
    intro a a2 hne c hc hc2
    rw [List.mem_map] at hc hc2
    obtain ⟨b, _, rfl⟩ := hc
    obtain ⟨b2, _, h2⟩ := hc2
    exact hne (hg a2 a b2 b h2).1.symm

theorem mem_facets (m : regular_mesh) (e : edge_index) :
    e ∈ m.facets ↔
      (e.dir = orientation.horizontal ∧
        (0 ≤ e.ix ∧ e.ix < m.mesh_x_.element_count) ∧
        (0 ≤ e.iy ∧ e.iy ≤ m.mesh_y_.element_count)) ∨
      (e.dir = orientation.vertical ∧
        (0 ≤ e.ix ∧ e.ix ≤ m.mesh_x_.element_count) ∧
        (0 ≤ e.iy ∧ e.iy < m.mesh_y_.element_count)) := by
  obtain ⟨ix, iy, dir⟩ := e
  simp only [regular_mesh.facets, List.mem_append, mem_flatMap_map, mem_range_toList,
    interval_mesh.elements, interval_mesh.facets, interval_mesh.element_count, range,
    edge_index.mk.injEq]
  constructor
  · rintro (⟨a, ha, b, hb, rfl, rfl, rfl⟩ | ⟨a, ha, b, hb, rfl, rfl, rfl⟩)
    · left
      exact ⟨rfl, ⟨ha.1, ha.2⟩, hb.1, by omega⟩
    · right
      exact ⟨rfl, ⟨ha.1, by omega⟩, hb.1, hb.2⟩
  · rintro (⟨hd, hx, hy⟩ | ⟨hd, hx, hy⟩)
    · left
      exact ⟨ix, hx, iy, ⟨hy.1, by omega⟩, rfl, rfl, hd.symm⟩
    · right
      exact ⟨ix, ⟨hx.1, by omega⟩, iy, hy, rfl, rfl, hd.symm⟩

theorem nodup_facets (m : regular_mesh) : m.facets.Nodup := by
  unfold regular_mesh.facets
  refine List.Nodup.append ?_ ?_ ?_
  · refine nodup_flatMap_map _ _ _ (nodup_range_toList _) (nodup_range_toList _) ?_
    intro a a2 b b2 h
    simp only [edge_index.mk.injEq, and_true] at h
    exact h
  · refine nodup_flatMap_map _ _ _ (nodup_range_toList _) (nodup_range_toList _) ?_
    intro a a2 b b2 h
    simp only [edge_index.mk.injEq, and_true] at h
    exact h
  · intro e h1 h2
    rw [mem_flatMap_map] at h1 h2
    obtain ⟨a, _, b, _, rfl⟩ := h1
    obtain ⟨a2, _, b2, _, h⟩ := h2
    simp only [edge_index.mk.injEq, reduceCtorEq, and_false] at h

/-- C14: for every regular mesh with `nx >= 0` and `ny >= 0` elements per axis
(each partition has at least one point), the list returned by
`regular_mesh::facets()` has length `nx * (ny + 1) + (nx + 1) * ny`. -/
theorem facets_length (m : regular_mesh)
    (hx : 0 ≤ m.mesh_x_.element_count) (hy : 0 ≤ m.mesh_y_.element_count) :
    (m.facets.length : Int)
      = m.mesh_x_.element_count * (m.mesh_y_.element_count + 1)
        + (m.mesh_x_.element_count + 1) * m.mesh_y_.element_count := by
  simp only [interval_mesh.element_count] at hx hy
  simp only [regular_mesh.facets, List.length_append, length_flatMap_map, length_range_toList,
    interval_mesh.elements, interval_mesh.facets, interval_mesh.element_count, range,
    sub_zero, Int.toNat_ofNat, Nat.cast_add, Nat.cast_mul]
  have h1 : (((m.mesh_x_.points_.length : Int) - 1).toNat : Int)
      = (m.mesh_x_.points_.length : Int) - 1 := by omega
  have h2 : (((m.mesh_y_.points_.length : Int) - 1).toNat : Int)
      = (m.mesh_y_.points_.length : Int) - 1 := by omega
  rw [h1, h2]
  ring

/-- C14 at the sample mesh (2 x 3 elements): 2 * 4 + 3 * 3 = 17 facets. -/
theorem facets_length_witness :
    (sample_mesh.facets.length : Int) = 2 * (3 + 1) + (2 + 1) * 3 ∧
    sample_mesh.facets.length = 17 :=
  ⟨facets_length sample_mesh (by decide) (by decide), by decide⟩

/-- C15: `regular_mesh::facets()` contains every valid edge exactly once and
nothing else: a triple `(ix, iy, horizontal)` occurs iff `0 <= ix < nx` and
`0 <= iy <= ny`, a triple `(ix, iy, vertical)` occurs iff `0 <= ix <= nx` and
`0 <= iy < ny`, and no triple occurs twice. -/
theorem facets_complete (m : regular_mesh) :
    (∀ ix iy : Int, (⟨ix, iy, orientation.horizontal⟩ : edge_index) ∈ m.facets ↔
      (0 ≤ ix ∧ ix < m.mesh_x_.element_count) ∧ (0 ≤ iy ∧ iy ≤ m.mesh_y_.element_count)) ∧
    (∀ ix iy : Int, (⟨ix, iy, orientation.vertical⟩ : edge_index) ∈ m.facets ↔
      (0 ≤ ix ∧ ix ≤ m.mesh_x_.element_count) ∧ (0 ≤ iy ∧ iy < m.mesh_y_.element_count)) ∧
    m.facets.Nodup ∧
    (∀ e : edge_index, e ∈ m.facets → m.facets.count e = 1) := by
  refine ⟨?_, ?_, nodup_facets m, ?_⟩
  · intro ix iy
    rw [mem_facets]
    simp only [true_and, reduceCtorEq, false_and, or_false]
  · intro ix iy
    rw [mem_facets]
    simp only [true_and, reduceCtorEq, false_and, false_or]
  · intro e he
    exact List.count_eq_one_of_mem (nodup_facets m) he

/-- C15 at the sample mesh (2 x 3 elements): the top edge `(1, 3)` is a
horizontal facet, `(2, 3)` is not; the right edge `(2, 2)` is a vertical facet. -/
theorem facets_complete_witness :
    (⟨1, 3, orientation.horizontal⟩ : edge_index) ∈ sample_mesh.facets ∧
    (⟨2, 3, orientation.horizontal⟩ : edge_index) ∉ sample_mesh.facets ∧
    (⟨2, 2, orientation.vertical⟩ : edge_index) ∈ sample_mesh.facets ∧
    sample_mesh.facets.Nodup :=
  have h := facets_complete sample_mesh
  ⟨(h.1 1 3).2 (by decide), fun hm => absurd ((h.1 2 3).1 hm) (by decide),
    (h.2.1 2 2).2 (by decide), h.2.2.1⟩

theorem mem_boundary_facets (m : regular_mesh) (e : edge_index) :
    e ∈ m.boundary_facets ↔
      (e.dir = orientation.horizontal ∧
        (e.iy = 0 ∨ e.iy = m.mesh_y_.element_count) ∧
        (0 ≤ e.ix ∧ e.ix < m.mesh_x_.element_count)) ∨
      (e.dir = orientation.vertical ∧
        (e.ix = 0 ∨ e.ix = m.mesh_x_.element_count) ∧
        (0 ≤ e.iy ∧ e.iy < m.mesh_y_.element_count)) := by
  obtain ⟨ix, iy, dir⟩ := e
  simp only [regular_mesh.boundary_facets, List.mem_append, mem_flatMap_map, mem_range_toList,
    interval_mesh.elements, interval_mesh.boundary_facets, interval_mesh.element_count, range,
    edge_index.mk.injEq, List.mem_cons, List.mem_singleton, List.not_mem_nil, or_false]
  constructor
  · rintro (⟨a, ha, b, hb, rfl, rfl, rfl⟩ | ⟨a, ha, b, hb, rfl, rfl, rfl⟩)
    · left
      exact ⟨rfl, ha, hb⟩
    · right
      exact ⟨rfl, ha, hb⟩
  · rintro (⟨hd, hy, hx⟩ | ⟨hd, hx, hy⟩)
    · left
      exact ⟨iy, hy, ix, hx, rfl, rfl, hd.symm⟩
    · right
      exact ⟨ix, hx, iy, hy, rfl, rfl, hd.symm⟩

/-- C16: for every regular mesh with `nx >= 1` and `ny >= 1`,
`regular_mesh::boundary_facets()` consists of exactly the horizontal edges with
`iy` in `{0, ny}` (`ix` over all x-elements) and the vertical edges with `ix` in
`{0, nx}` (`iy` over all y-elements): it has `2 * nx + 2 * ny` entries, no entry
is repeated, and every entry also occurs in `facets()`. -/
theorem boundary_facets_spec (m : regular_mesh)
    (hx : 1 ≤ m.mesh_x_.element_count) (hy : 1 ≤ m.mesh_y_.element_count) :
    (∀ e : edge_index, e ∈ m.boundary_facets ↔
      (e.dir = orientation.horizontal ∧
        (e.iy = 0 ∨ e.iy = m.mesh_y_.element_count) ∧
        (0 ≤ e.ix ∧ e.ix < m.mesh_x_.element_count)) ∨
      (e.dir = orientation.vertical ∧
        (e.ix = 0 ∨ e.ix = m.mesh_x_.element_count) ∧
        (0 ≤ e.iy ∧ e.iy < m.mesh_y_.element_count))) ∧
    (m.boundary_facets.length : Int)
      = 2 * m.mesh_x_.element_count + 2 * m.mesh_y_.element_count ∧
    m.boundary_facets.Nodup ∧
    (∀ e : edge_index, e ∈ m.boundary_facets → e ∈ m.facets) := by
  refine ⟨mem_boundary_facets m, ?_, ?_, ?_⟩
  · simp only [interval_mesh.element_count] at hx hy
    simp only [regular_mesh.boundary_facets, List.length_append, length_flatMap_map,
      length_range_toList, interval_mesh.elements, interval_mesh.boundary_facets,
      interval_mesh.element_count, range, sub_zero, List.length_cons, List.length_nil,
      Nat.cast_add, Nat.cast_mul]
    have h1 : (((m.mesh_x_.points_.length : Int) - 1).toNat : Int)
        = (m.mesh_x_.points_.length : Int) - 1 := by omega
    have h2 : (((m.mesh_y_.points_.length : Int) - 1).toNat : Int)
        = (m.mesh_y_.points_.length : Int) - 1 := by omega
    rw [h1, h2]
    push_cast
    ring
  · have hbx : m.mesh_x_.boundary_facets.Nodup := by
      simp only [interval_mesh.boundary_facets, List.nodup_cons, List.mem_singleton,
        List.not_mem_nil, not_false_eq_true, List.nodup_nil, and_true]
      simp only [interval_mesh.element_count] at hx
      omega
    have hby : m.mesh_y_.boundary_facets.Nodup := by
      simp only [interval_mesh.boundary_facets, List.nodup_cons, List.mem_singleton,
        List.not_mem_nil, not_false_eq_true, List.nodup_nil, and_true]
      simp only [interval_mesh.element_count] at hy
      omega
    unfold regular_mesh.boundary_facets
    refine List.Nodup.append ?_ ?_ ?_
    · refine nodup_flatMap_map _ _ _ hby (nodup_range_toList _) ?_
      intro a a2 b b2 h
      simp only [edge_index.mk.injEq, and_true] at h
      exact ⟨h.2, h.1⟩
    · refine nodup_flatMap_map _ _ _ hbx (nodup_range_toList _) ?_
      intro a a2 b b2 h
      simp only [edge_index.mk.injEq, and_true] at h
      exact h
    · intro e h1 h2
      rw [mem_flatMap_map] at h1 h2
      obtain ⟨a, _, b, _, rfl⟩ := h1
      obtain ⟨a2, _, b2, _, h⟩ := h2
      simp only [edge_index.mk.injEq, reduceCtorEq, and_false] at h
  · intro e he
    rw [mem_boundary_facets] at he
    rw [mem_facets]
    rcases he with ⟨hd, hiy, hix⟩ | ⟨hd, hix, hiy⟩
    · left
      refine ⟨hd, hix, ?_⟩
      rcases hiy with h | h <;> omega
    · right
      refine ⟨hd, ?_, hiy⟩
      rcases hix with h | h <;> omega

/-- C16 at the sample mesh (2 x 3 elements): 10 boundary facets, listed in the
order of the two loops. -/
theorem boundary_facets_spec_witness :
    sample_mesh.boundary_facets
      = [⟨0, 0, orientation.horizontal⟩, ⟨1, 0, orientation.horizontal⟩,
         ⟨0, 3, orientation.horizontal⟩, ⟨1, 3, orientation.horizontal⟩,
         ⟨0, 0, orientation.vertical⟩, ⟨0, 1, orientation.vertical⟩,
         ⟨0, 2, orientation.vertical⟩, ⟨2, 0, orientation.vertical⟩,
         ⟨2, 1, orientation.vertical⟩, ⟨2, 2, orientation.vertical⟩] ∧
    (sample_mesh.boundary_facets.length : Int) = 2 * 2 + 2 * 3 ∧
    sample_mesh.boundary_facets.Nodup ∧
    (∀ e : edge_index, e ∈ sample_mesh.boundary_facets → e ∈ sample_mesh.facets) :=
  have h := boundary_facets_spec sample_mesh (by decide) (by decide)
  ⟨by decide, h.2.1, h.2.2.1, h.2.2.2⟩

theorem facet_horizontal_eq (m : regular_mesh) (ix iy : Int)
    (hx0 : 0 ≤ ix) (hx1 : ix < m.mesh_x_.element_count)
    (hy1 : iy ≤ m.mesh_y_.element_count) :
    m.facet ⟨ix, iy, orientation.horizontal⟩
      = some ⟨⟨vec_at m.mesh_x_.points_ ix, vec_at m.mesh_x_.points_ (ix + 1)⟩,
          vec_at m.mesh_y_.points_ iy, orientation.horizontal,
          (0, if iy > 0 then 1 else -1)⟩ := by
  simp only [interval_mesh.element_count] at hx1 hy1
  have hy : iy < (m.mesh_y_.points_.length : Int) := by omega
  have hx : ix ≥ 0 ∧ ix < (m.mesh_x_.points_.length : Int) - 1 := ⟨hx0, hx1⟩
  simp only [regular_mesh.facet, interval_mesh.facet, interval_mesh.subinterval, subinterval,
    if_pos hy, if_pos hx]
  rfl

theorem facet_vertical_eq (m : regular_mesh) (ix iy : Int)
    (hx1 : ix ≤ m.mesh_x_.element_count)
    (hy0 : 0 ≤ iy) (hy1 : iy < m.mesh_y_.element_count) :
    m.facet ⟨ix, iy, orientation.vertical⟩
      = some ⟨⟨vec_at m.mesh_y_.points_ iy, vec_at m.mesh_y_.points_ (iy + 1)⟩,
          vec_at m.mesh_x_.points_ ix, orientation.vertical,
          (if ix > 0 then 1 else -1, 0)⟩ := by
  simp only [interval_mesh.element_count] at hx1 hy1
  have hx : ix < (m.mesh_x_.points_.length : Int) := by omega
  have hy : iy ≥ 0 ∧ iy < (m.mesh_y_.points_.length : Int) - 1 := ⟨hy0, hy1⟩
  simp only [regular_mesh.facet, interval_mesh.facet, interval_mesh.subinterval, subinterval,
    if_pos hx, if_pos hy]
  rfl

/-- C17: for every edge of a regular mesh (`nx, ny >= 1`), `regular_mesh::facet`
succeeds and returns the span of the free axis, the fixed coordinate of the
orthogonal axis, the orientation, and a normal with exactly one nonzero component,
of absolute value 1: for a horizontal edge `(ix, iy)` the span
`(xs[ix], xs[ix+1])`, the position `ys[iy]` and the normal `(0, n)`; for a vertical
edge the span `(ys[iy], ys[iy+1])`, the position `xs[ix]` and the normal `(n, 0)`.
For every entry of `boundary_facets()` the normal is `(0, -1)` on the row
`iy = 0`, `(0, +1)` on the row `iy = ny`, `(-1, 0)` on the column `ix = 0` and
`(+1, 0)` on the column `ix = nx`: the outward unit normal of the rectangle. -/
theorem regular_mesh_facet_spec (m : regular_mesh)
    (hx : 1 ≤ m.mesh_x_.element_count) (hy : 1 ≤ m.mesh_y_.element_count) :
    (∀ ix iy : Int, 0 ≤ ix → ix < m.mesh_x_.element_count →
      0 ≤ iy → iy ≤ m.mesh_y_.element_count →
      ∃ n : ℚ, |n| = 1 ∧
        m.mesh_x_.subinterval ix
          = some ⟨vec_at m.mesh_x_.points_ ix, vec_at m.mesh_x_.points_ (ix + 1)⟩ ∧
        m.mesh_y_.facet iy = some ⟨vec_at m.mesh_y_.points_ iy, n⟩ ∧
        m.facet ⟨ix, iy, orientation.horizontal⟩
          = some ⟨⟨vec_at m.mesh_x_.points_ ix, vec_at m.mesh_x_.points_ (ix + 1)⟩,
              vec_at m.mesh_y_.points_ iy, orientation.horizontal, (0, n)⟩) ∧
    (∀ ix iy : Int, 0 ≤ ix → ix ≤ m.mesh_x_.element_count →
      0 ≤ iy → iy < m.mesh_y_.element_count →
      ∃ n : ℚ, |n| = 1 ∧
        m.mesh_y_.subinterval iy
          = some ⟨vec_at m.mesh_y_.points_ iy, vec_at m.mesh_y_.points_ (iy + 1)⟩ ∧
        m.mesh_x_.facet ix = some ⟨vec_at m.mesh_x_.points_ ix, n⟩ ∧
        m.facet ⟨ix, iy, orientation.vertical⟩
          = some ⟨⟨vec_at m.mesh_y_.points_ iy, vec_at m.mesh_y_.points_ (iy + 1)⟩,
              vec_at m.mesh_x_.points_ ix, orientation.vertical, (n, 0)⟩) ∧
    (∀ e : edge_index, e ∈ m.boundary_facets →
      ∃ d : edge_data, m.facet e = some d ∧ d.direction = e.dir ∧
        (e.dir = orientation.horizontal → e.iy = 0 → d.normal = (0, -1)) ∧
        (e.dir = orientation.horizontal → e.iy = m.mesh_y_.element_count →
          d.normal = (0, 1)) ∧
        (e.dir = orientation.vertical → e.ix = 0 → d.normal = (-1, 0)) ∧
        (e.dir = orientation.vertical → e.ix = m.mesh_x_.element_count →
          d.normal = (1, 0))) := by
  have habs : ∀ i : Int, |(if i > 0 then (1 : ℚ) else -1)| = 1 := by
    intro i
    by_cases h : i > 0
    · simp only [if_pos h, abs_one]
    · simp only [if_neg h, abs_neg, abs_one]
  refine ⟨?_, ?_, ?_⟩
  · intro ix iy hx0 hx1 hy0 hy1
    refine ⟨if iy > 0 then 1 else -1, habs iy, ?_, ?_, facet_horizontal_eq m ix iy hx0 hx1 hy1⟩
    · have h : ix ≥ 0 ∧ ix < (m.mesh_x_.points_.length : Int) - 1 := ⟨hx0, hx1⟩
      simp only [interval_mesh.subinterval, subinterval, if_pos h]
    · have h : iy < (m.mesh_y_.points_.length : Int) := by
        simp only [interval_mesh.element_count] at hy1
        omega
      simp only [interval_mesh.facet, if_pos h]
  · intro ix iy hx0 hx1 hy0 hy1
    refine ⟨if ix > 0 then 1 else -1, habs ix, ?_, ?_, facet_vertical_eq m ix iy hx1 hy0 hy1⟩
    · have h : iy ≥ 0 ∧ iy < (m.mesh_y_.points_.length : Int) - 1 := ⟨hy0, hy1⟩
      simp only [interval_mesh.subinterval, subinterval, if_pos h]
    · have h : ix < (m.mesh_x_.points_.length : Int) := by
        simp only [interval_mesh.element_count] at hx1
        omega
      simp only [interval_mesh.facet, if_pos h]
  · rintro ⟨ix, iy, dir⟩ he
    rw [mem_boundary_facets] at he
    simp only at he
    rcases he with ⟨hd, hiy, hix⟩ | ⟨hd, hix, hiy⟩
    · subst hd
      have hle : iy ≤ m.mesh_y_.element_count := by rcases hiy with h | h <;> omega
      refine ⟨_, facet_horizontal_eq m ix iy hix.1 hix.2 hle, rfl, ?_, ?_, ?_, ?_⟩
      · intro _ h0
        simp only at h0
        subst h0
        simp
      · intro _ h1
        simp only at h1
        have hpos : iy > 0 := by omega
        simp only [if_pos hpos]
      · intro h
        simp only [reduceCtorEq] at h
      · intro h
        simp only [reduceCtorEq] at h
    · subst hd
      have hle : ix ≤ m.mesh_x_.element_count := by rcases hix with h | h <;> omega
      refine ⟨_, facet_vertical_eq m ix iy hle hiy.1 hiy.2, rfl, ?_, ?_, ?_, ?_⟩
      · intro h
        simp only [reduceCtorEq] at h
      · intro h
        simp only [reduceCtorEq] at h
      · intro _ h0
        simp only at h0
        subst h0
        simp
      · intro _ h1
        simp only at h1
        have hpos : ix > 0 := by omega
        simp only [if_pos hpos]

/-- C17 at the sample mesh (2 x 3 elements): the four sides. -/
theorem regular_mesh_facet_spec_witness :
    sample_mesh.facet ⟨1, 0, orientation.horizontal⟩
      = some ⟨⟨1/2, 1⟩, 0, orientation.horizontal, (0, -1)⟩ ∧
    sample_mesh.facet ⟨1, 3, orientation.horizontal⟩
      = some ⟨⟨1/2, 1⟩, 1, orientation.horizontal, (0, 1)⟩ ∧
    sample_mesh.facet ⟨0, 2, orientation.vertical⟩
      = some ⟨⟨2/3, 1⟩, 0, orientation.vertical, (-1, 0)⟩ ∧
    sample_mesh.facet ⟨2, 2, orientation.vertical⟩
      = some ⟨⟨2/3, 1⟩, 1, orientation.vertical, (1, 0)⟩ ∧
    (∃ d : edge_data, sample_mesh.facet ⟨2, 2, orientation.vertical⟩ = some d ∧
      d.normal = (1, 0)) :=
  have h := (regular_mesh_facet_spec sample_mesh (by decide) (by decide)).2.2
    ⟨2, 2, orientation.vertical⟩ (by decide)
  ⟨rfl, rfl, rfl, rfl,
    h.elim fun d hd => ⟨d, hd.1, hd.2.2.2.2.2 rfl rfl⟩⟩

/-! ## C12, C13: the element and facet evaluators -/

/-- C12: for every element `e = (ex, ey)`, DOF `(dx, dy)` and quadrature point
index `(qx, qy)`, the evaluator built by `dof_evaluator(e, points, ders)` holds the
x-axis table `evaluate_basis(points.xs(), space_x, ders)` and the y-axis table
`evaluate_basis(points.ys(), space_y, ders)`, and returns `value = Bx * By`,
`dx = dBx * By`, `dy = Bx * dBy`, where `Bx`, `dBx` are the x-axis table entries at
point `qx` and local index `dx - first_x[ex]` for derivative orders 0 and 1, and
`By`, `dBy` the y-axis entries at point `qy` and local index `dy - first_y[ey]`.
For a DOF of `dofs(e)` the two local indices lie in `[0, px]` and `[0, py]`. -/
theorem evaluator_call_spec (s : space) (e : Int × Int) (points : tensor_quadrature_points)
    (ders : Int) (dx dy qx qy : Int) :
    (s.dof_evaluator e points ders).vals_x_ = evaluate_basis points.xs s.space_x_ ders ∧
    (s.dof_evaluator e points ders).vals_y_ = evaluate_basis points.ys s.space_y_ ders ∧
    (s.dof_evaluator e points ders).call (dx, dy) (qx, qy)
      = ⟨(evaluate_basis points.xs s.space_x_ ders).value qx
            (dx - vec_at s.space_x_.first_dofs_ e.1) 0
          * (evaluate_basis points.ys s.space_y_ ders).value qy
            (dy - vec_at s.space_y_.first_dofs_ e.2) 0,
        (evaluate_basis points.xs s.space_x_ ders).value qx
            (dx - vec_at s.space_x_.first_dofs_ e.1) 1
          * (evaluate_basis points.ys s.space_y_ ders).value qy
            (dy - vec_at s.space_y_.first_dofs_ e.2) 0,
        (evaluate_basis points.xs s.space_x_ ders).value qx
            (dx - vec_at s.space_x_.first_dofs_ e.1) 0
          * (evaluate_basis points.ys s.space_y_ ders).value qy
            (dy - vec_at s.space_y_.first_dofs_ e.2) 1⟩ ∧
    (∀ ev : space.evaluator, ev.space_ = s → ev.element_ = e →
      (ev.call (dx, dy) (qx, qy)).val
          = ev.vals_x_.value qx (dx - vec_at s.space_x_.first_dofs_ e.1) 0
            * ev.vals_y_.value qy (dy - vec_at s.space_y_.first_dofs_ e.2) 0 ∧
      (ev.call (dx, dy) (qx, qy)).dx
          = ev.vals_x_.value qx (dx - vec_at s.space_x_.first_dofs_ e.1) 1
            * ev.vals_y_.value qy (dy - vec_at s.space_y_.first_dofs_ e.2) 0 ∧
      (ev.call (dx, dy) (qx, qy)).dy
          = ev.vals_x_.value qx (dx - vec_at s.space_x_.first_dofs_ e.1) 0
            * ev.vals_y_.value qy (dy - vec_at s.space_y_.first_dofs_ e.2) 1) ∧
    ((dx, dy) ∈ (s.dofs_elem e).toList →
      (0 ≤ dx - vec_at s.space_x_.first_dofs_ e.1 ∧
        dx - vec_at s.space_x_.first_dofs_ e.1 ≤ s.space_x_.degree) ∧
      (0 ≤ dy - vec_at s.space_y_.first_dofs_ e.2 ∧
        dy - vec_at s.space_y_.first_dofs_ e.2 ≤ s.space_y_.degree)) := by
  refine ⟨rfl, rfl, rfl, ?_, ?_⟩
  · intro ev hs he
    subst hs
    subst he
    exact ⟨rfl, rfl, rfl⟩
  · intro hmem
    rw [mem_index_range_toList] at hmem
    simp only [space.dofs_elem, product_range, bspline_space.dofs_elem, range,
      bspline_space.dofs_per_element] at hmem
    omega

theorem evaluate_basis_facet_interior (s : bspline_space) (f ders : Int)
    (hl : 0 < f) (hr : f < s.basis_.elements) :
    evaluate_basis_facet f s ders
      = some ⟨some (evaluate_basis_at_point (vec_at s.basis_.points f) s ders (s.span (f - 1))),
          some (evaluate_basis_at_point (vec_at s.basis_.points f) s ders (s.span f)),
          s.facet_local_index (s.last_dof (f - 1)) f,
          s.facet_local_index (s.first_dof f) f⟩ := by
  have hl2 : f > 0 := hl
  simp only [evaluate_basis_facet, element_left, element_right, if_pos hl2, if_pos hr,
    bspline_basis_values_on_vertex.create, Option.isSome_some, Bool.or_self, if_true]

theorem evaluate_basis_facet_last (s : bspline_space) (f ders : Int)
    (hl : 0 < f) (hr : ¬ f < s.basis_.elements) :
    evaluate_basis_facet f s ders
      = some ⟨some (evaluate_basis_at_point (vec_at s.basis_.points f) s ders (s.span (f - 1))),
          none, s.facet_local_index (s.last_dof (f - 1)) f, 0⟩ := by
  have hl2 : f > 0 := hl
  simp only [evaluate_basis_facet, element_left, element_right, if_pos hl2, if_neg hr,
    bspline_basis_values_on_vertex.create, Option.isSome_some, Option.isSome_none,
    Bool.or_false, if_true]

theorem evaluate_basis_facet_first (s : bspline_space) (f ders : Int)
    (hl : ¬ 0 < f) (hr : f < s.basis_.elements) :
    evaluate_basis_facet f s ders
      = some ⟨none,
          some (evaluate_basis_at_point (vec_at s.basis_.points f) s ders (s.span f)),
          0, s.facet_local_index (s.first_dof f) f⟩ := by
  have hl2 : ¬ f > 0 := hl
  simp only [evaluate_basis_facet, element_left, element_right, if_neg hl2, if_pos hr,
    bspline_basis_values_on_vertex.create, Option.isSome_some, Option.isSome_none,
    Bool.false_or, if_true]

/-- A facet of a 1D space with at least one element has an adjacent element, so
the vertex evaluation succeeds. -/
theorem evaluate_basis_facet_isSome (s : bspline_space) (f ders : Int)
    (hE : 1 ≤ s.basis_.elements) :
    ∃ t : bspline_basis_values_on_vertex, evaluate_basis_facet f s ders = some t := by
  by_cases hl : 0 < f
  · by_cases hr : f < s.basis_.elements
    · exact ⟨_, evaluate_basis_facet_interior s f ders hl hr⟩
    · exact ⟨_, evaluate_basis_facet_last s f ders hl hr⟩
  · exact ⟨_, evaluate_basis_facet_first s f ders hl (by omega)⟩

/-- C13: the facet evaluator built by `dof_evaluator(f, points, ders)` (spaces with
at least one element per axis) uses the one-sided vertex table on the axis
orthogonal to the facet and the quadrature table on the free axis.  For a
horizontal facet `Bx`, `dBx` are entries of the x quadrature table
`evaluate_basis(points, space_x, ders)` at point `q` and `By`, `dBy` entries of the
y vertex table `evaluate_basis(fy, space_y, ders)`; for a vertical facet `Bx`,
`dBx` are entries of the x vertex table `evaluate_basis(fx, space_x, ders)` and
`By`, `dBy` entries of the y quadrature table at point `q`.  In both cases the
result is `(Bx * By, dBx * By, Bx * dBy)`, and the vertical case is the horizontal
case of the space with the two axes exchanged, with `dx` and `dy` exchanged in the
result. -/
theorem edge_evaluator_call_spec (s : space) (fx fy : Int) (points : edge_quadrature_points)
    (ders : Int) (dx dy q : Int)
    (hEx : 1 ≤ s.space_x_.basis_.elements) (hEy : 1 ≤ s.space_y_.basis_.elements) :
    (∃ (ev : space.edge_evaluator) (ty : bspline_basis_values_on_vertex),
      s.dof_evaluator_facet ⟨fx, fy, orientation.horizontal⟩ points ders = some ev ∧
      evaluate_basis_facet fy s.space_y_ ders = some ty ∧
      ev.vals_interval_ = evaluate_basis points.points s.space_x_ ders ∧
      ev.vals_point_ = ty ∧
      ev.call (dx, dy) q
        = ⟨(evaluate_basis points.points s.space_x_ ders).value q
              (s.space_x_.local_index dx fx) 0
            * ty.value (s.space_y_.facet_local_index dy fy) 0,
          (evaluate_basis points.points s.space_x_ ders).value q
              (s.space_x_.local_index dx fx) 1
            * ty.value (s.space_y_.facet_local_index dy fy) 0,
          (evaluate_basis points.points s.space_x_ ders).value q
              (s.space_x_.local_index dx fx) 0
            * ty.value (s.space_y_.facet_local_index dy fy) 1⟩) ∧
    (∃ (ev : space.edge_evaluator) (tx : bspline_basis_values_on_vertex),
      s.dof_evaluator_facet ⟨fx, fy, orientation.vertical⟩ points ders = some ev ∧
      evaluate_basis_facet fx s.space_x_ ders = some tx ∧
      ev.vals_interval_ = evaluate_basis points.points s.space_y_ ders ∧
      ev.vals_point_ = tx ∧
      ev.call (dx, dy) q
        = ⟨tx.value (s.space_x_.facet_local_index dx fx) 0
            * (evaluate_basis points.points s.space_y_ ders).value q
              (s.space_y_.local_index dy fy) 0,
          tx.value (s.space_x_.facet_local_index dx fx) 1
            * (evaluate_basis points.points s.space_y_ ders).value q
              (s.space_y_.local_index dy fy) 0,
          tx.value (s.space_x_.facet_local_index dx fx) 0
            * (evaluate_basis points.points s.space_y_ ders).value q
              (s.space_y_.local_index dy fy) 1⟩) ∧
    (∃ (ev evt : space.edge_evaluator),
      s.dof_evaluator_facet ⟨fx, fy, orientation.vertical⟩ points ders = some ev ∧
      (⟨⟨s.mesh_.mesh_y_, s.mesh_.mesh_x_⟩, s.space_y_, s.space_x_⟩ : space).dof_evaluator_facet
        ⟨fy, fx, orientation.horizontal⟩ points ders = some evt ∧
      (ev.call (dx, dy) q).val = (evt.call (dy, dx) q).val ∧
      (ev.call (dx, dy) q).dx = (evt.call (dy, dx) q).dy ∧
      (ev.call (dx, dy) q).dy = (evt.call (dy, dx) q).dx) := by
  obtain ⟨ty, hty⟩ := evaluate_basis_facet_isSome s.space_y_ fy ders hEy
  obtain ⟨tx, htx⟩ := evaluate_basis_facet_isSome s.space_x_ fx ders hEx
  have hh : s.dof_evaluator_facet ⟨fx, fy, orientation.horizontal⟩ points ders
      = some ⟨s, ⟨fx, fy, orientation.horizontal⟩, ders,
          evaluate_basis points.points s.space_x_ ders, ty⟩ := by
    simp only [space.dof_evaluator_facet, hty]
    rfl
  have hv : s.dof_evaluator_facet ⟨fx, fy, orientation.vertical⟩ points ders
      = some ⟨s, ⟨fx, fy, orientation.vertical⟩, ders,
          evaluate_basis points.points s.space_y_ ders, tx⟩ := by
    simp only [space.dof_evaluator_facet, htx]
    rfl
  have ht : (⟨⟨s.mesh_.mesh_y_, s.mesh_.mesh_x_⟩, s.space_y_, s.space_x_⟩ :
        space).dof_evaluator_facet ⟨fy, fx, orientation.horizontal⟩ points ders
      = some ⟨⟨⟨s.mesh_.mesh_y_, s.mesh_.mesh_x_⟩, s.space_y_, s.space_x_⟩,
          ⟨fy, fx, orientation.horizontal⟩, ders,
          evaluate_basis points.points s.space_y_ ders, tx⟩ := by
    simp only [space.dof_evaluator_facet, htx]
    rfl
  refine ⟨⟨_, ty, hh, hty, rfl, rfl, rfl⟩, ⟨_, tx, hv, htx, rfl, rfl, rfl⟩,
    ⟨_, _, hv, ht, ?_, ?_, ?_⟩⟩
  · simp only [space.edge_evaluator.call, space.index_on_facet]
    exact mul_comm _ _
  · simp only [space.edge_evaluator.call, space.index_on_facet]
    exact mul_comm _ _
  · simp only [space.edge_evaluator.call, space.index_on_facet]
    exact mul_comm _ _

/-- C13 at the sample space: the horizontal facet `(0, 1)`, DOF `(1, 2)`,
quadrature point 0. -/
theorem edge_evaluator_call_spec_witness :
    (∃ (ev : space.edge_evaluator) (ty : bspline_basis_values_on_vertex),
      sample_space.dof_evaluator_facet ⟨0, 1, orientation.horizontal⟩ sample_edge_points 1
        = some ev ∧
      evaluate_basis_facet 1 sample_space.space_y_ 1 = some ty ∧
      ev.vals_interval_ = evaluate_basis sample_edge_points.points sample_space.space_x_ 1 ∧
      ev.vals_point_ = ty ∧
      ev.call (1, 2) 0
        = ⟨(evaluate_basis sample_edge_points.points sample_space.space_x_ 1).value 0
              (sample_space.space_x_.local_index 1 0) 0
            * ty.value (sample_space.space_y_.facet_local_index 2 1) 0,
          (evaluate_basis sample_edge_points.points sample_space.space_x_ 1).value 0
              (sample_space.space_x_.local_index 1 0) 1
            * ty.value (sample_space.space_y_.facet_local_index 2 1) 0,
          (evaluate_basis sample_edge_points.points sample_space.space_x_ 1).value 0
              (sample_space.space_x_.local_index 1 0) 0
            * ty.value (sample_space.space_y_.facet_local_index 2 1) 1⟩) :=
  (edge_evaluator_call_spec sample_space 0 1 sample_edge_points 1 1 2 0
    (by decide) (by decide)).1

/-! ## C11: continuity across an interior facet -/

theorem vec_at_natCast {α : Type} [Zero α] (v : List α) (k : Nat) :
    vec_at v (k : Int) = (v[k]?).getD 0 := by
  have h0 : (0 : Int) ≤ (k : Int) := Int.natCast_nonneg k
  simp only [vec_at, if_pos h0, Int.toNat_ofNat, List.getD_eq_getElem?_getD]

theorem vec_at_map_range (N : Nat) (f : Nat → Int) (k : Nat) (hk : k < N) :
    vec_at ((List.range N).map f) (k : Int) = f k := by
  rw [vec_at_natCast, List.getElem?_map, List.getElem?_range hk]
  rfl

theorem write_cell_natCast (buf : List ℚ) (k : Nat) (x : ℚ) :
    write_cell buf (k : Int) x = buf.set k x := by
  have h0 : (0 : Int) ≤ (k : Int) := Int.natCast_nonneg k
  simp only [write_cell, if_pos h0, Int.toNat_ofNat]

/-- Writing `g 0, ..., g (n-1)` to the `n` consecutive cells from address `a`. -/
theorem foldl_write_row (n : Nat) (buf : List ℚ) (a : Nat) (row : Int) (hrow : row = (a : Int))
    (g : Nat → ℚ) :
    ((List.range n).foldl (fun b (i : Nat) => write_cell b (row + (i : Int)) (g i)) buf).length
      = buf.length ∧
    ∀ k : Nat,
      ((List.range n).foldl (fun b (i : Nat) => write_cell b (row + (i : Int)) (g i)) buf)[k]?
        = if a ≤ k ∧ k < a + n ∧ k < buf.length then some (g (k - a)) else buf[k]? := by
  subst hrow
  induction n with
  | zero =>
    refine ⟨rfl, fun k => ?_⟩
    have hno : ¬ (a ≤ k ∧ k < a + 0 ∧ k < buf.length) := by omega
    simp only [List.range_zero, List.foldl_nil, if_neg hno]
  | succ n ih =>
    obtain ⟨hlen, hget⟩ := ih
    rw [List.range_succ, List.foldl_append]
    simp only [List.foldl_cons, List.foldl_nil]
    have hcast : ((a : Int) + (n : Int)) = ((a + n : Nat) : Int) := by push_cast; rfl
    rw [hcast, write_cell_natCast]
    refine ⟨by rw [List.length_set, hlen], fun k => ?_⟩
    rw [List.getElem?_set, hget k, hlen]
    by_cases hk : a + n = k
    · subst hk
      by_cases hl : a + n < buf.length
      · have h1 : a ≤ a + n ∧ a + n < a + (n + 1) ∧ a + n < buf.length := by omega
        simp only [if_true, if_pos hl, if_pos h1, Nat.add_sub_cancel_left]
      · have h1 : ¬ (a ≤ a + n ∧ a + n < a + (n + 1) ∧ a + n < buf.length) := by omega
        have h2 : ¬ (a ≤ a + n ∧ a + n < a + n ∧ a + n < buf.length) := by omega
        simp only [if_true, if_neg hl, if_neg h1]
        rw [List.getElem?_eq_none (by omega)]
    · simp only [if_neg hk]
      by_cases h1 : a ≤ k ∧ k < a + n ∧ k < buf.length
      · have h2 : a ≤ k ∧ k < a + (n + 1) ∧ k < buf.length := by omega
        simp only [if_pos h1, if_pos h2]
      · have h2 : ¬ (a ≤ k ∧ k < a + (n + 1) ∧ k < buf.length) := by omega
        simp only [if_neg h1, if_neg h2]

/-- Writing the rows `0, ..., D-1` of `n` cells each, row `d` starting at address
`d * n`: every cell `(d, i)` inside the buffer holds `g d i` afterwards. -/
theorem foldl_write_rows (n D : Nat) (buf : List ℚ) (row : Nat → Int)
    (hrow : ∀ d : Nat, d < D → row d = ((d * n : Nat) : Int)) (g : Nat → Nat → ℚ) :
    ((List.range D).foldl
        (fun b (d : Nat) =>
          (List.range n).foldl (fun b (i : Nat) => write_cell b (row d + (i : Int)) (g d i)) b)
        buf).length = buf.length ∧
    ∀ d i : Nat, d < D → i < n → d * n + i < buf.length →
      ((List.range D).foldl
        (fun b (d : Nat) =>
          (List.range n).foldl (fun b (i : Nat) => write_cell b (row d + (i : Int)) (g d i)) b)
        buf)[d * n + i]? = some (g d i) := by
  induction D with
  | zero =>
    exact ⟨rfl, fun d i hd => absurd hd (Nat.not_lt_zero d)⟩
  | succ D ih =>
    obtain ⟨hlen, hget⟩ := ih (fun d hd => hrow d (Nat.lt_succ_of_lt hd))
    rw [List.range_succ, List.foldl_append]
    simp only [List.foldl_cons, List.foldl_nil]
    obtain ⟨hlen2, hget2⟩ := foldl_write_row n
      ((List.range D).foldl
        (fun b (d : Nat) =>
          (List.range n).foldl (fun b (i : Nat) => write_cell b (row d + (i : Int)) (g d i)) b)
        buf) (D * n) (row D) (hrow D (Nat.lt_succ_self D)) (g D)
    refine ⟨by rw [hlen2, hlen], fun d i hd hi hin => ?_⟩
    rw [hget2, hlen]
    by_cases hdD : d = D
    · subst hdD
      have h1 : d * n ≤ d * n + i ∧ d * n + i < d * n + n ∧ d * n + i < buf.length := by omega
      simp only [if_pos h1, Nat.add_sub_cancel_left]
    · have hlt : d < D := by omega
      have hmul : (d + 1) * n ≤ D * n := Nat.mul_le_mul_right n hlt
      have hexp : (d + 1) * n = d * n + n := by ring
      have h1 : ¬ (D * n ≤ d * n + i ∧ d * n + i < D * n + n ∧ d * n + i < buf.length) := by
        omega
      simp only [if_neg h1]
      exact hget d i hlt hi hin

/-- The table built by `evaluate_basis_at_point` holds, at local DOF `i` and
derivative order `der`, the derivative of order `der` of the basis function number
`span - degree + i`, seen from the given span. -/
theorem evaluate_basis_at_point_value (x : ℚ) (s : bspline_space) (ders span : Int)
    (hp : 0 ≤ s.degree) (hd : 0 ≤ ders) (i der : Nat)
    (hi : (i : Int) ≤ s.degree) (hder : (der : Int) ≤ ders) :
    (evaluate_basis_at_point x s ders span).value 0 (i : Int) (der : Int)
      = basis_function_derivative s.basis_.knot span x der s.degree.toNat
          (span - s.degree + (i : Int)) := by
  have hn : (((s.degree + 1).toNat : Nat) : Int) = s.degree + 1 := by omega
  have hD : (((ders + 1).toNat : Nat) : Int) = ders + 1 := by omega
  have hpd : vec_at ((List.range (1 : Int).toNat).map
      (fun (k : Nat) => (k : Int) * (ders + 1))) 0 = 0 := by
    have h := vec_at_map_range 1 (fun (k : Nat) => (k : Int) * (ders + 1)) 0 (by omega)
    simpa using h
  have hdd : ∀ d : Nat, d < (ders + 1).toNat →
      vec_at ((List.range (1 * (ders + 1)).toNat).map
        (fun (k : Nat) => (k : Int) * s.dofs_per_element)) (0 + (d : Int))
        = ((d * (s.degree + 1).toNat : Nat) : Int) := by
    intro d hdlt
    rw [zero_add, one_mul, vec_at_map_range _ _ d hdlt]
    simp only [bspline_space.dofs_per_element]
    push_cast
    rw [hn]
  obtain ⟨_, hget⟩ := foldl_write_rows (s.degree + 1).toNat (ders + 1).toNat
    (List.replicate (1 * s.dofs_per_element * (ders + 1)).toNat (0 : ℚ))
    (fun d => vec_at ((List.range (1 * (ders + 1)).toNat).map
        (fun (k : Nat) => (k : Int) * s.dofs_per_element)) (0 + (d : Int)))
    hdd
    (fun d k => basis_function_derivative s.basis_.knot span x d s.degree.toNat
      (span - s.degree + (k : Int)))
  have hdlt : der < (ders + 1).toNat := by omega
  have hilt : i < (s.degree + 1).toNat := by omega
  have hlen : der * (s.degree + 1).toNat + i
      < (List.replicate (1 * s.dofs_per_element * (ders + 1)).toNat (0 : ℚ)).length := by
    rw [List.length_replicate]
    have hmul : (der + 1) * (s.degree + 1).toNat ≤ (ders + 1).toNat * (s.degree + 1).toNat :=
      Nat.mul_le_mul_right _ hdlt
    have hexp : (der + 1) * (s.degree + 1).toNat
        = der * (s.degree + 1).toNat + (s.degree + 1).toNat := by ring
    have htot : (1 * s.dofs_per_element * (ders + 1)).toNat
        = (ders + 1).toNat * (s.degree + 1).toNat := by
      have h0 : 0 ≤ (s.degree + 1) * (ders + 1) := mul_nonneg (by omega) (by omega)
      have h1 : ((((ders + 1).toNat * (s.degree + 1).toNat : Nat)) : Int)
          = (s.degree + 1) * (ders + 1) := by
        push_cast
        rw [hn, hD]
        ring
      simp only [bspline_space.dofs_per_element, one_mul]
      omega
    omega
  have hcell := hget der i hdlt hilt hlen
  have haddr : vec_at ((List.range (1 * (ders + 1)).toNat).map
        (fun (k : Nat) => (k : Int) * s.dofs_per_element))
        (vec_at ((List.range (1 : Int).toNat).map
          (fun (k : Nat) => (k : Int) * (ders + 1))) 0 + (der : Int)) + (i : Int)
      = ((der * (s.degree + 1).toNat + i : Nat) : Int) := by
    rw [hpd, hdd der hdlt]
    push_cast
    rfl
  simp only [evaluate_basis_at_point, eval_basis_with_derivatives, bspline_basis_values.value,
    bspline_basis_values.point_buffer, bspline_basis_values.create]
  rw [haddr, vec_at_natCast]
  rw [hpd]
  exact congrArg (fun o => Option.getD o 0) hcell

/-- Outside the indices `span - q, ..., span` the one-sided basis functions of
degree `q` vanish. -/
theorem basis_function_support (knot : List ℚ) (span : Int) (x : ℚ) (q : Nat) :
    ∀ j : Int, j < span - q ∨ span < j → basis_function knot span x q j = 0 := by
  induction q with
  | zero =>
    intro j hj
    have hne : j ≠ span := by omega
    simp only [basis_function, if_neg hne]
  | succ q ih =>
    intro j hj
    have h1 : basis_function knot span x q j = 0 := ih j (by omega)
    have h2 : basis_function knot span x q (j + 1) = 0 := ih (j + 1) (by omega)
    simp only [basis_function, h1, h2, mul_zero, add_zero]

/-- Seen from the span to its left, a knot `x` of multiplicity `m` keeps the whole
mass on the basis function number `k` up to degree `m`. -/
theorem basis_function_left_delta (knot : List ℚ) (k m : Int) (x : ℚ)
    (hx : ∀ i : Int, 1 ≤ i → i ≤ m → vec_at knot (k + i) = x)
    (hk : vec_at knot k ≠ x) (q : Nat) (hq : (q : Int) ≤ m) :
    ∀ j : Int, basis_function knot k x q j = if j = k then 1 else 0 := by
  induction q with
  | zero =>
    intro j
    simp only [basis_function]
  | succ q ih =>
    intro j
    have hq1 : (q : Int) + 1 ≤ m := by push_cast at hq; exact hq
    have ih2 := ih (by omega)
    simp only [basis_function, ih2]
    by_cases hj : j = k
    · subst hj
      have hne : ¬ (j + 1 = j) := by omega
      have hq2 : vec_at knot (j + (q : Int) + 1) = x := by
        have := hx ((q : Int) + 1) (by omega) hq1
        rwa [← add_assoc] at this
      simp only [if_true, if_neg hne, mul_zero, add_zero, mul_one, hq2]
      exact div_self (sub_ne_zero.mpr (Ne.symm hk))
    · by_cases hj1 : j + 1 = k
      · have hq2 : vec_at knot (j + (q : Int) + 2) = x := by
          have := hx ((q : Int) + 1) (by omega) hq1
          have e : k + ((q : Int) + 1) = j + (q : Int) + 2 := by omega
          rwa [e] at this
        simp only [if_neg hj, if_pos hj1, mul_zero, zero_add, mul_one, hq2, sub_self, zero_div]
      · simp only [if_neg hj, if_neg hj1, mul_zero, add_zero]

/-- Seen from the span to its right, a knot `x` of multiplicity `m` moves the
whole mass one basis function to the left per degree, up to degree `m`. -/
theorem basis_function_right_delta (knot : List ℚ) (k m : Int) (x : ℚ)
    (hx : ∀ i : Int, 1 ≤ i → i ≤ m → vec_at knot (k + i) = x)
    (hk : vec_at knot (k + m + 1) ≠ x) (q : Nat) (hq : (q : Int) ≤ m) :
    ∀ j : Int, basis_function knot (k + m) x q j = if j = k + m - q then 1 else 0 := by
  induction q with
  | zero =>
    intro j
    simp only [basis_function, Nat.cast_zero, sub_zero]
  | succ q ih =>
    intro j
    have hq1 : (q : Int) + 1 ≤ m := by push_cast at hq; exact hq
    have ih2 := ih (by omega)
    simp only [basis_function, ih2]
    push_cast
    by_cases hj : j = k + m - ((q : Int) + 1)
    · have hne : ¬ (j = k + m - q) := by omega
      have hj1 : j + 1 = k + m - q := by omega
      have e1 : vec_at knot (j + (q : Int) + 2) = vec_at knot (k + m + 1) := by
        congr 1
        omega
      have e2 : vec_at knot (j + 1) = x := by
        have := hx (m - q) (by omega) (by omega)
        have e : k + (m - (q : Int)) = j + 1 := by omega
        rwa [e] at this
      simp only [if_neg hne, if_pos hj1, if_pos hj, mul_zero, zero_add, mul_one, e1, e2]
      exact div_self (sub_ne_zero.mpr hk)
    · by_cases hj0 : j = k + m - q
      · have hne : ¬ (j + 1 = k + m - q) := by omega
        have e2 : vec_at knot j = x := by
          have := hx (m - q) (by omega) (by omega)
          have e : k + (m - (q : Int)) = j := by omega
          rwa [e] at this
        simp only [if_pos hj0, if_neg hne, if_neg hj, mul_zero, add_zero, mul_one, e2, sub_self,
          zero_div]
      · have hne : ¬ (j + 1 = k + m - q) := by omega
        simp only [if_neg hj0, if_neg hne, if_neg hj, mul_zero, add_zero]

/-- At a knot of multiplicity `m`, the basis functions of every degree `q >= m`
have the same value seen from the left span `k` and from the right span `k + m`. -/
theorem basis_function_continuous (knot : List ℚ) (k m : Int) (x : ℚ) (hm : 0 ≤ m)
    (hx : ∀ i : Int, 1 ≤ i → i ≤ m → vec_at knot (k + i) = x)
    (hkl : vec_at knot k ≠ x) (hkr : vec_at knot (k + m + 1) ≠ x)
    (q : Nat) (hq : m ≤ (q : Int)) :
    ∀ j : Int, basis_function knot k x q j = basis_function knot (k + m) x q j := by
  induction q with
  | zero =>
    intro j
    have hm0 : m = 0 := by
      simp only [Nat.cast_zero] at hq
      omega
    subst hm0
    simp only [add_zero]
  | succ q ih =>
    intro j
    by_cases hlt : m ≤ (q : Int)
    · simp only [basis_function, ih hlt]
    · have hmq : m = ((q + 1 : Nat) : Int) := by
        push_cast at hq ⊢
        omega
      rw [basis_function_left_delta knot k m x hx hkl (q + 1) (le_of_eq hmq.symm) j,
        basis_function_right_delta knot k m x hx hkr (q + 1) (le_of_eq hmq.symm) j]
      have e : k + m - ((q + 1 : Nat) : Int) = k := by omega
      rw [e]

/-- C11: at an interior facet `f` (`0 < f < E`) where the basis has continuity
`>= 0`, that is where the break point `points[f]` is a knot of multiplicity `m`
with `1 <= m <= degree` lying between the span `k` of the left element and the
span `k + m` of the right element (whose first DOFs are `k - degree` and
`k + m - degree`), the table built by `evaluate_basis(f, space, ders)` has
`jump(i, 0, normal) = 0` for every facet-local DOF `i` and every normal: the
left-element and right-element tables agree on the DOFs of the overlap
(`m <= i <= degree`), and a DOF supported on one side only (`i < m` on the left,
`i > degree` on the right) has value 0 in the table of that side. -/
theorem jump_zero_at_continuous_facet (s : bspline_space) (f ders k m : Int)
    (hf0 : 0 < f) (hfE : f < s.basis_.elements) (hders : 0 ≤ ders)
    (hm1 : 1 ≤ m) (hmp : m ≤ s.degree)
    (hsl : s.span (f - 1) = k) (hsr : s.span f = k + m)
    (hfl : s.first_dof (f - 1) = k - s.degree)
    (hfr : s.first_dof f = k + m - s.degree)
    (hx : ∀ i : Int, 1 ≤ i → i ≤ m →
      vec_at s.basis_.knot (k + i) = vec_at s.basis_.points f)
    (hkl : vec_at s.basis_.knot k ≠ vec_at s.basis_.points f)
    (hkr : vec_at s.basis_.knot (k + m + 1) ≠ vec_at s.basis_.points f) :
    ∃ (t : bspline_basis_values_on_vertex) (l r : bspline_basis_values),
      evaluate_basis_facet f s ders = some t ∧
      t.left_ = some l ∧ t.right_ = some r ∧
      t.left_last_ = s.degree ∧ t.right_first_ = m ∧
      s.facet_dof_count f = s.degree + m + 1 ∧
      (∀ i : Int, 0 ≤ i → i < s.facet_dof_count f →
        ∀ normal : ℚ, t.jump i 0 normal = 0) ∧
      (∀ i : Int, m ≤ i → i ≤ s.degree → l.value 0 i 0 = r.value 0 (i - m) 0) ∧
      (∀ i : Int, 0 ≤ i → i < m → l.value 0 i 0 = 0) ∧
      (∀ i : Int, s.degree < i → i < s.facet_dof_count f → r.value 0 (i - m) 0 = 0) := by
  have hp : 0 ≤ s.degree := by omega
  have h1 : max (f - 1) 0 = f - 1 := by omega
  have h2 : min f (s.basis_.elements - 1) = f := by omega
  have hll : s.facet_local_index (s.last_dof (f - 1)) f = s.degree := by
    simp only [bspline_space.facet_local_index, bspline_space.last_dof,
      bspline_space.first_dof, bspline_space.dofs_per_element, h1]
    omega
  have hrf : s.facet_local_index (s.first_dof f) f = m := by
    have e : s.facet_local_index (s.first_dof f) f = s.first_dof f - s.first_dof (f - 1) := by
      simp only [bspline_space.facet_local_index, bspline_space.first_dof, h1]
    rw [e, hfl, hfr]
    omega
  have hcount : s.facet_dof_count f = s.degree + m + 1 := by
    have e : s.facet_dof_count f
        = s.first_dof f + s.dofs_per_element - s.first_dof (f - 1) := by
      simp only [bspline_space.facet_dof_count, bspline_space.dofs_on_facet,
        simple_index_range.distance, range, bspline_space.first_dof, h1, h2]
    rw [e, hfl, hfr]
    simp only [bspline_space.dofs_per_element]
    omega
  have hL : ∀ i : Int, 0 ≤ i → i ≤ s.degree →
      (evaluate_basis_at_point (vec_at s.basis_.points f) s ders k).value 0 i 0
        = basis_function s.basis_.knot k (vec_at s.basis_.points f) s.degree.toNat
            (k - s.degree + i) := by
    intro i hi0 hi1
    have h := evaluate_basis_at_point_value (vec_at s.basis_.points f) s ders k hp hders
      i.toNat 0 (by omega) (by simpa using hders)
    rw [Int.toNat_of_nonneg hi0] at h
    simpa only [Nat.cast_zero, basis_function_derivative] using h
  have hR : ∀ i : Int, 0 ≤ i → i ≤ s.degree →
      (evaluate_basis_at_point (vec_at s.basis_.points f) s ders (k + m)).value 0 i 0
        = basis_function s.basis_.knot (k + m) (vec_at s.basis_.points f) s.degree.toNat
            (k + m - s.degree + i) := by
    intro i hi0 hi1
    have h := evaluate_basis_at_point_value (vec_at s.basis_.points f) s ders (k + m) hp hders
      i.toNat 0 (by omega) (by simpa using hders)
    rw [Int.toNat_of_nonneg hi0] at h
    simpa only [Nat.cast_zero, basis_function_derivative] using h
  have hcont := basis_function_continuous s.basis_.knot k m (vec_at s.basis_.points f)
    (by omega) hx hkl hkr s.degree.toNat (by omega)
  have hsuppL := basis_function_support s.basis_.knot k (vec_at s.basis_.points f)
    s.degree.toNat
  have hsuppR := basis_function_support s.basis_.knot (k + m) (vec_at s.basis_.points f)
    s.degree.toNat
  have hoverlap : ∀ i : Int, m ≤ i → i ≤ s.degree →
      (evaluate_basis_at_point (vec_at s.basis_.points f) s ders k).value 0 i 0
        = (evaluate_basis_at_point (vec_at s.basis_.points f) s ders (k + m)).value 0
            (i - m) 0 := by
    intro i hi0 hi1
    rw [hL i (by omega) hi1, hR (i - m) (by omega) (by omega), hcont]
    congr 1
    omega
  have hleft0 : ∀ i : Int, 0 ≤ i → i < m →
      (evaluate_basis_at_point (vec_at s.basis_.points f) s ders k).value 0 i 0 = 0 := by
    intro i hi0 hi1
    rw [hL i hi0 (by omega), hcont]
    exact hsuppR _ (Or.inl (by omega))
  have hright0 : ∀ i : Int, s.degree < i → i < s.degree + m + 1 →
      (evaluate_basis_at_point (vec_at s.basis_.points f) s ders (k + m)).value 0
        (i - m) 0 = 0 := by
    intro i hi0 hi1
    rw [hR (i - m) (by omega) (by omega), ← hcont]
    exact hsuppL _ (Or.inr (by omega))
  refine ⟨_, evaluate_basis_at_point (vec_at s.basis_.points f) s ders k,
    evaluate_basis_at_point (vec_at s.basis_.points f) s ders (k + m),
    evaluate_basis_facet_interior s f ders hf0 hfE, ?_, ?_, hll, hrf, hcount,
    ?_, ?_, hleft0, ?_⟩
  · rw [hsl]
  · rw [hsr]
  · intro i hi0 hi1 normal
    rw [hcount] at hi1
    have hlr : (if i ≤ s.degree then
          (evaluate_basis_at_point (vec_at s.basis_.points f) s ders k).value 0 i 0 else 0)
        = (if i ≥ m then
          (evaluate_basis_at_point (vec_at s.basis_.points f) s ders (k + m)).value 0
            (i - m) 0 else 0) := by
      by_cases ha : i ≤ s.degree
      · by_cases hb : i ≥ m
        · rw [if_pos ha, if_pos hb]
          exact hoverlap i hb ha
        · rw [if_pos ha, if_neg hb]
          exact hleft0 i hi0 (by omega)
      · have hb : i ≥ m := by omega
        rw [if_neg ha, if_pos hb]
        exact (hright0 i (by omega) hi1).symm
    simp only [bspline_basis_values_on_vertex.jump, bspline_basis_values_on_vertex.left,
      bspline_basis_values_on_vertex.right, hll, hrf, hsl, hsr]
    rw [hlr, sub_self, mul_zero]
  · exact hoverlap
  · intro i hi0 hi1
    rw [hcount] at hi1
    exact hright0 i hi0 hi1

/-- C11 at the interior facet 1 of the quadratic sample space (knots
`0,0,0,1/2,1,1,1`, break point `1/2` of multiplicity 1 between the spans 2 and 3):
the four facet-local DOFs have jump 0. -/
theorem jump_zero_at_continuous_facet_witness :
    ∃ t : bspline_basis_values_on_vertex,
      evaluate_basis_facet 1 sample_space_x 1 = some t ∧
      sample_space_x.facet_dof_count 1 = 4 ∧
      ∀ i : Int, 0 ≤ i → i < sample_space_x.facet_dof_count 1 →
        ∀ normal : ℚ, t.jump i 0 normal = 0 :=
  have h := jump_zero_at_continuous_facet sample_space_x 1 1 2 1
    (by decide) (by decide) (by decide) (by decide) (by decide) (by decide) (by decide)
    (by decide) (by decide)
    (by
      intro i h1 h2
      obtain rfl : i = 1 := by omega
      rfl)
    (by
      show (0 : ℚ) ≠ 1 / 2
      norm_num)
    (by
      show (1 : ℚ) ≠ 1 / 2
      norm_num)
  h.elim fun t ht => ht.elim fun _ hl => hl.elim fun _ hr =>
    ⟨t, hr.1, by decide, hr.2.2.2.2.2.2.1⟩

/-! ## C28: the spans of the elements -/

/-- The list built by the loop of `spans_for_elements`. -/
theorem spans_loop_eq_filter (knot : List ℚ) (n : Nat) :
    (List.range n).foldl
      (fun (spans : List Int) (i : Nat) =>
        if vec_at knot (i : Int) ≠ vec_at knot ((i : Int) + 1) then spans ++ [(i : Int)]
        else spans)
      []
    = ((List.range n).filter
        (fun (i : Nat) => decide (vec_at knot (i : Int) ≠ vec_at knot ((i : Int) + 1)))).map
        (fun (i : Nat) => (i : Int)) := by
  induction n with
  | zero => rfl
  | succ n ih =>
    rw [List.range_succ, List.foldl_append, ih, List.filter_append, List.map_append]
    by_cases h : vec_at knot (n : Int) ≠ vec_at knot ((n : Int) + 1)
    · simp only [List.foldl_cons, List.foldl_nil, if_pos h, List.filter_cons, List.filter_nil,
        decide_eq_true_eq, List.map_cons, List.map_nil]
    · simp only [List.foldl_cons, List.foldl_nil, if_neg h, List.filter_cons, List.filter_nil,
        decide_eq_true_eq, List.map_nil, List.append_nil]

/-- C28: for every knot vector, the list `spans` built by `spans_for_elements` is
strictly increasing and contains an index `i` iff `0 <= i`, `i + 1 < knot_size` and
`knot[i] != knot[i+1]`; the function returns that list when its length equals
`basis.elements()` and fails its assertion otherwise; and for a nondecreasing knot
vector every span `s` of the list has `knot[s] < knot[s+1]`. -/
theorem spans_for_elements_spec (b : bspline.basis) :
    ∃ spans : List Int,
      spans.Sorted (· < ·) ∧
      (∀ i : Int, i ∈ spans ↔
        0 ≤ i ∧ i + 1 < b.knot_size ∧ vec_at b.knot i ≠ vec_at b.knot (i + 1)) ∧
      ((spans.length : Int) = b.elements → spans_for_elements b = some spans) ∧
      ((spans.length : Int) ≠ b.elements → spans_for_elements b = none) ∧
      (∀ r : List Int, spans_for_elements b = some r →
        r = spans ∧ (r.length : Int) = b.elements) ∧
      (b.knot.Sorted (· ≤ ·) →
        ∀ i : Int, i ∈ spans → vec_at b.knot i < vec_at b.knot (i + 1)) := by
  have hmem : ∀ i : Int,
      i ∈ ((List.range (b.knot_size - 1).toNat).filter
        (fun (i : Nat) =>
          decide (vec_at b.knot (i : Int) ≠ vec_at b.knot ((i : Int) + 1)))).map
        (fun (i : Nat) => (i : Int)) ↔
      0 ≤ i ∧ i + 1 < b.knot_size ∧ vec_at b.knot i ≠ vec_at b.knot (i + 1) := by
    intro i
    simp only [List.mem_map, List.mem_filter, List.mem_range, decide_eq_true_eq]
    constructor
    · rintro ⟨k, ⟨hk, hne⟩, rfl⟩
      exact ⟨by omega, by omega, hne⟩
    · rintro ⟨h0, h1, hne⟩
      refine ⟨i.toNat, ⟨by omega, ?_⟩, by omega⟩
      rw [Int.toNat_of_nonneg h0]
      exact hne
  have hdef : spans_for_elements b
      = if ((((List.range (b.knot_size - 1).toNat).filter
          (fun (i : Nat) =>
            decide (vec_at b.knot (i : Int) ≠ vec_at b.knot ((i : Int) + 1)))).map
          (fun (i : Nat) => (i : Int))).length : Int) = b.elements
        then some (((List.range (b.knot_size - 1).toNat).filter
          (fun (i : Nat) =>
            decide (vec_at b.knot (i : Int) ≠ vec_at b.knot ((i : Int) + 1)))).map
          (fun (i : Nat) => (i : Int)))
        else none := by
    simp only [spans_for_elements, spans_loop_eq_filter]
  refine ⟨_, ?_, hmem, ?_, ?_, ?_, ?_⟩
  · refine List.Pairwise.map _ ?_ (List.Pairwise.filter _ (List.pairwise_lt_range _))
    intro a c hac
    exact Int.ofNat_lt.mpr hac
  · intro h
    rw [hdef, if_pos h]
  · intro h
    rw [hdef, if_neg h]
  · intro r hr
    rw [hdef] at hr
    split at hr
    · rename_i h
      exact ⟨(Option.some.inj hr).symm, by rw [← Option.some.inj hr]; exact h⟩
    · exact absurd hr (by simp)
  · intro hs i hi
    obtain ⟨h0, h1, hne⟩ := (hmem i).1 hi
    simp only [bspline.basis.knot_size] at h1
    have hlt1 : i.toNat < b.knot.length := by omega
    have hlt2 : i.toNat + 1 < b.knot.length := by omega
    have hle := (List.pairwise_iff_getElem.mp hs) i.toNat (i.toNat + 1) hlt1 hlt2
      (Nat.lt_succ_self _)
    have ha := vec_at_eq_getElem b.knot i h0 (by omega)
    have hb := vec_at_eq_getElem b.knot (i + 1) (by omega) (by omega)
    have hnat : (i + 1).toNat = i.toNat + 1 := by omega
    rw [hnat] at hb
    rw [List.getElem?_eq_getElem hlt1] at ha
    rw [List.getElem?_eq_getElem hlt2] at hb
    rw [Option.some.inj ha, Option.some.inj hb] at hle
    exact lt_of_le_of_ne hle hne

/-- C28 at the quadratic basis with knots `0,0,0,1,2,2,2`: the spans are `2, 3`. -/
theorem spans_for_elements_spec_witness :
    spans_for_elements sample_basis_int = some [2, 3] ∧
    (∃ spans : List Int, spans.Sorted (· < ·) ∧
      (∀ i : Int, i ∈ spans ↔
        0 ≤ i ∧ i + 1 < sample_basis_int.knot_size ∧
          vec_at sample_basis_int.knot i ≠ vec_at sample_basis_int.knot (i + 1)) ∧
      spans_for_elements sample_basis_int = some spans) :=
  ⟨by decide,
    (spans_for_elements_spec sample_basis_int).elim fun spans h =>
      ⟨spans, h.1, h.2.1,
        h.2.2.1 (((h.2.2.2.2.1 [2, 3] (by decide)).1) ▸ (by decide))⟩⟩

/-! ## C21, C23: quadrature points on an interval and on a facet -/

theorem vec_at_map_range_of {α : Type} [Zero α] (N : Nat) (f : Nat → α) (i : Int)
    (h0 : 0 ≤ i) (h1 : i < (N : Int)) :
    vec_at ((List.range N).map f) i = f i.toNat := by
  have hlt : i.toNat < N := by omega
  have h := vec_at_natCast ((List.range N).map f) i.toNat
  rw [Int.toNat_of_nonneg h0] at h
  rw [h, List.getElem?_map, List.getElem?_range hlt]
  rfl

theorem lerp_eq (t a b : ℚ) : lerp t ⟨a, b⟩ = a + t * (b - a) := by
  simp only [lerp]
  ring

theorem data_for_interval_coords (G : gauss_tables) (qd : quadrature) (target : interval)
    (i : Int) (hi0 : 0 ≤ i) (hi1 : i < qd.point_count_) :
    (qd.data_for_interval G target).coords i
      = some (lerp ((vec_at (G.Xs qd.point_count_) i + 1) / 2) target) := by
  have hlen : ((qd.transform_points G target).length : Int) = qd.point_count_ := by
    simp only [quadrature.transform_points, List.length_map, List.length_range]
    omega
  have hin : i ≥ 0 ∧ i < ((qd.transform_points G target).length : Int) := ⟨hi0, by omega⟩
  simp only [quadrature.data_for_interval, interval_quadrature_points.coords, if_pos hin]
  simp only [quadrature.transform_points]
  rw [vec_at_map_range_of _ _ i hi0 (by omega), Int.toNat_of_nonneg hi0]

theorem data_for_interval_weight (G : gauss_tables) (qd : quadrature) (target : interval)
    (i : Int) (hi0 : 0 ≤ i) (hi1 : i < qd.point_count_) :
    (qd.data_for_interval G target).weight i
      = some (vec_at (G.Ws qd.point_count_) i * (length target / 2)) := by
  have hlen : ((qd.transform_points G target).length : Int) = qd.point_count_ := by
    simp only [quadrature.transform_points, List.length_map, List.length_range]
    omega
  have hin : i ≥ 0 ∧ i < ((qd.transform_points G target).length : Int) := ⟨hi0, by omega⟩
  simp only [quadrature.data_for_interval, interval_quadrature_points.weight, if_pos hin]

/-- C21: for every target interval `[a, b]` with `a < b` and every canonical node
`t_i` with weight `w_i` (`0 <= i < point_count`), the point set of
`quadrature::data_for_interval` has the point
`x_i = lerp((t_i + 1)/2, [a, b]) = a + (t_i + 1)/2 * (b - a)` and the weight
`w_i * (b - a)/2`; `t_i = -1` gives `a`, `t_i = 1` gives `b`, and a node with
`-1 < t_i < 1` gives a point strictly inside `(a, b)`. -/
theorem data_for_interval_spec (G : gauss_tables) (qd : quadrature) (a b : ℚ) (hab : a < b)
    (i : Int) (hi0 : 0 ≤ i) (hi1 : i < qd.point_count_) :
    (qd.data_for_interval G ⟨a, b⟩).coords i
      = some (lerp ((vec_at (G.Xs qd.point_count_) i + 1) / 2) ⟨a, b⟩) ∧
    lerp ((vec_at (G.Xs qd.point_count_) i + 1) / 2) ⟨a, b⟩
      = a + (vec_at (G.Xs qd.point_count_) i + 1) / 2 * (b - a) ∧
    (qd.data_for_interval G ⟨a, b⟩).weight i
      = some (vec_at (G.Ws qd.point_count_) i * ((b - a) / 2)) ∧
    (vec_at (G.Xs qd.point_count_) i = -1 →
      (qd.data_for_interval G ⟨a, b⟩).coords i = some a) ∧
    (vec_at (G.Xs qd.point_count_) i = 1 →
      (qd.data_for_interval G ⟨a, b⟩).coords i = some b) ∧
    (-1 < vec_at (G.Xs qd.point_count_) i → vec_at (G.Xs qd.point_count_) i < 1 →
      a < lerp ((vec_at (G.Xs qd.point_count_) i + 1) / 2) ⟨a, b⟩ ∧
      lerp ((vec_at (G.Xs qd.point_count_) i + 1) / 2) ⟨a, b⟩ < b) := by
  have hc := data_for_interval_coords G qd ⟨a, b⟩ i hi0 hi1
  have hw := data_for_interval_weight G qd ⟨a, b⟩ i hi0 hi1
  have hpos : 0 < b - a := sub_pos.mpr hab
  refine ⟨hc, lerp_eq _ a b, ?_, ?_, ?_, ?_⟩
  · rw [hw]
    simp only [length]
    rw [abs_of_pos hpos]
  · intro ht
    rw [hc, ht, lerp_eq]
    norm_num
  · intro ht
    rw [hc, ht, lerp_eq]
    norm_num
  · intro h1 h2
    rw [lerp_eq]
    constructor
    · have : 0 < (vec_at (G.Xs qd.point_count_) i + 1) / 2 * (b - a) :=
        mul_pos (by linarith) hpos
      linarith
    · have : (vec_at (G.Xs qd.point_count_) i + 1) / 2 * (b - a) < 1 * (b - a) :=
        mul_lt_mul_of_pos_right (by linarith) hpos
      linarith

/-- C21 at the three-point sample rule on `[1/3, 2/3]`: the nodes `-1, 0, 1` map
to `1/3, 1/2, 2/3` and the middle weight `4/3` to `4/3 * (1/3)/2`. -/
theorem data_for_interval_spec_witness :
    (sample_quadrature.data_for_interval sample_gauss ⟨1/3, 2/3⟩).coords 0 = some (1/3) ∧
    (sample_quadrature.data_for_interval sample_gauss ⟨1/3, 2/3⟩).coords 2 = some (2/3) ∧
    (1/3 : ℚ) < lerp ((vec_at (sample_gauss.Xs sample_quadrature.point_count_) 1 + 1) / 2)
        ⟨1/3, 2/3⟩ ∧
    (sample_quadrature.data_for_interval sample_gauss ⟨1/3, 2/3⟩).weight 1
      = some (vec_at (sample_gauss.Ws sample_quadrature.point_count_) 1
          * ((2/3 - 1/3) / 2)) :=
  have h0 := data_for_interval_spec sample_gauss sample_quadrature (1/3) (2/3) (by norm_num)
    0 (by decide) (by decide)
  have h1 := data_for_interval_spec sample_gauss sample_quadrature (1/3) (2/3) (by norm_num)
    1 (by decide) (by decide)
  have h2 := data_for_interval_spec sample_gauss sample_quadrature (1/3) (2/3) (by norm_num)
    2 (by decide) (by decide)
  have ht1 : vec_at (sample_gauss.Xs sample_quadrature.point_count_) 1 = 0 := by decide
  ⟨h0.2.2.2.1 (by decide), h2.2.2.2.2.1 (by decide),
    (h1.2.2.2.2.2 (by rw [ht1]; norm_num) (by rw [ht1]; norm_num)).1, h1.2.2.1⟩

theorem lerp_mem_span (t : ℚ) (sp : interval) (ht0 : -1 ≤ t) (ht1 : t ≤ 1)
    (hsp : sp.left ≤ sp.right) :
    sp.left ≤ lerp ((t + 1) / 2) sp ∧ lerp ((t + 1) / 2) sp ≤ sp.right := by
  obtain ⟨a, b⟩ := sp
  simp only at hsp
  rw [lerp_eq]
  have hd : 0 ≤ b - a := sub_nonneg.mpr hsp
  constructor
  · have : 0 ≤ (t + 1) / 2 * (b - a) := mul_nonneg (by linarith) hd
    linarith
  · have : (t + 1) / 2 * (b - a) ≤ 1 * (b - a) :=
      mul_le_mul_of_nonneg_right (by linarith) hd
    linarith

/-- C23: for every in-range facet `f` of the mesh (horizontal: `0 <= ix < nx`,
`0 <= iy <= ny`; vertical: `0 <= ix <= nx`, `0 <= iy < ny`) and every quadrature
index `q` with `0 <= q < point_count`, `quadrature::coordinates(f)` succeeds and its
point set has `coords(q) = (s_q, position)` for a horizontal facet and
`(position, s_q)` for a vertical facet, where `position` is the fixed coordinate
returned by `regular_mesh::facet(f)` and `s_q` is the `q`-th point of
`data_for_interval` on the facet's span; its weight is the 1D weight of `s_q`; and
when the canonical node lies in `[-1, 1]` and the span is not reversed, `s_q` lies
in the span, so the point lies on the edge. -/
theorem coordinates_facet_spec (G : gauss_tables) (qd : quadrature) (f : edge_index) (q : Int)
    (hfx : 0 ≤ f.ix) (hfy : 0 ≤ f.iy)
    (hhor : f.dir = orientation.horizontal →
      f.ix < qd.mesh_.mesh_x_.element_count ∧ f.iy ≤ qd.mesh_.mesh_y_.element_count)
    (hver : f.dir = orientation.vertical →
      f.ix ≤ qd.mesh_.mesh_x_.element_count ∧ f.iy < qd.mesh_.mesh_y_.element_count)
    (hq0 : 0 ≤ q) (hq1 : q < qd.point_count_) :
    ∃ (edge : edge_data) (pts : edge_quadrature_points) (s w : ℚ),
      qd.mesh_.facet f = some edge ∧
      qd.coordinates_facet G f = some pts ∧
      (qd.data_for_interval G edge.span).coords q = some s ∧
      (qd.data_for_interval G edge.span).weight q = some w ∧
      s = lerp ((vec_at (G.Xs qd.point_count_) q + 1) / 2) edge.span ∧
      pts.position = edge.position ∧
      pts.weight q = some w ∧
      (f.dir = orientation.horizontal → pts.coords q = some (s, edge.position)) ∧
      (f.dir = orientation.vertical → pts.coords q = some (edge.position, s)) ∧
      (-1 ≤ vec_at (G.Xs qd.point_count_) q → vec_at (G.Xs qd.point_count_) q ≤ 1 →
        edge.span.left ≤ edge.span.right →
        edge.span.left ≤ s ∧ s ≤ edge.span.right) := by
  obtain ⟨ix, iy, dir⟩ := f
  simp only at hfx hfy hhor hver
  cases dir
  · have hin := hhor rfl
    have hfacet := facet_horizontal_eq qd.mesh_ ix iy hfx hin.1 hin.2
    have hc := data_for_interval_coords G qd
      ⟨vec_at qd.mesh_.mesh_x_.points_ ix, vec_at qd.mesh_.mesh_x_.points_ (ix + 1)⟩ q hq0 hq1
    have hw := data_for_interval_weight G qd
      ⟨vec_at qd.mesh_.mesh_x_.points_ ix, vec_at qd.mesh_.mesh_x_.points_ (ix + 1)⟩ q hq0 hq1
    refine ⟨_, ⟨qd.data_for_interval G
        ⟨vec_at qd.mesh_.mesh_x_.points_ ix, vec_at qd.mesh_.mesh_x_.points_ (ix + 1)⟩,
        vec_at qd.mesh_.mesh_y_.points_ iy, orientation.horizontal⟩, _, _,
      hfacet, ?_, hc, hw, rfl, rfl, hw, ?_, ?_, ?_⟩
    · simp only [quadrature.coordinates_facet, hfacet]
      rfl
    · intro _
      simp only [edge_quadrature_points.coords, hc]
      rfl
    · intro h
      simp only [reduceCtorEq] at h
    · intro h0 h1 hsp
      exact lerp_mem_span _ _ h0 h1 hsp
  · have hin := hver rfl
    have hfacet := facet_vertical_eq qd.mesh_ ix iy hin.1 hfy hin.2
    have hc := data_for_interval_coords G qd
      ⟨vec_at qd.mesh_.mesh_y_.points_ iy, vec_at qd.mesh_.mesh_y_.points_ (iy + 1)⟩ q hq0 hq1
    have hw := data_for_interval_weight G qd
      ⟨vec_at qd.mesh_.mesh_y_.points_ iy, vec_at qd.mesh_.mesh_y_.points_ (iy + 1)⟩ q hq0 hq1
    refine ⟨_, ⟨qd.data_for_interval G
        ⟨vec_at qd.mesh_.mesh_y_.points_ iy, vec_at qd.mesh_.mesh_y_.points_ (iy + 1)⟩,
        vec_at qd.mesh_.mesh_x_.points_ ix, orientation.vertical⟩, _, _,
      hfacet, ?_, hc, hw, rfl, rfl, hw, ?_, ?_, ?_⟩
    · simp only [quadrature.coordinates_facet, hfacet]
      rfl
    · intro h
      simp only [reduceCtorEq] at h
    · intro _
      simp only [edge_quadrature_points.coords, hc]
      rfl
    · intro h0 h1 hsp
      exact lerp_mem_span _ _ h0 h1 hsp

/-- C23 at the vertical facet `(2, 1)` of the sample mesh (the right side,
`x = 1`, span `[1/3, 2/3]`), quadrature point 1. -/
theorem coordinates_facet_spec_witness :
    ∃ (pts : edge_quadrature_points) (s : ℚ),
      sample_quadrature.coordinates_facet sample_gauss ⟨2, 1, orientation.vertical⟩ = some pts ∧
      pts.position = 1 ∧
      pts.coords 1 = some (1, s) ∧
      s = lerp ((vec_at (sample_gauss.Xs sample_quadrature.point_count_) 1 + 1) / 2)
        ⟨1/3, 2/3⟩ :=
  (coordinates_facet_spec sample_gauss sample_quadrature ⟨2, 1, orientation.vertical⟩ 1
    (by decide) (by decide) (fun h => absurd h (by decide))
    (fun _ => ⟨by decide, by decide⟩) (by decide) (by decide)).elim
    fun edge h1 => h1.elim fun pts h2 => h2.elim fun s h3 => h3.elim fun _ h =>
      have he : edge = ⟨⟨1/3, 2/3⟩, 1, orientation.vertical, (1, 0)⟩ :=
        Option.some.inj (h.1.symm.trans rfl)
      ⟨pts, s, h.2.1, by rw [h.2.2.2.2.2.1, he], by
        have := h.2.2.2.2.2.2.2.2.1 rfl
        rw [he] at this
        exact this, by rw [h.2.2.2.2.1, he]⟩

/-! ## C22: exactness of the mapped rule -/

/-- At the field `ℚ` the point set of `data_for_interval` over a field is the point
set of `quadrature::data_for_interval`. -/
theorem scalar_data_for_interval_rat (G : gauss_tables) (qd : quadrature) (a b : ℚ) :
    (scalar.data_for_interval ⟨G.Xs, G.Ws⟩ qd ⟨a, b⟩).points_
        = (qd.data_for_interval G ⟨a, b⟩).points_ ∧
    (scalar.data_for_interval ⟨G.Xs, G.Ws⟩ qd ⟨a, b⟩).weights_
        = (qd.data_for_interval G ⟨a, b⟩).weights_ ∧
    (scalar.data_for_interval ⟨G.Xs, G.Ws⟩ qd ⟨a, b⟩).scale_
        = (qd.data_for_interval G ⟨a, b⟩).scale_ ∧
    (∀ q : Int, (scalar.data_for_interval ⟨G.Xs, G.Ws⟩ qd ⟨a, b⟩).coords q
        = (qd.data_for_interval G ⟨a, b⟩).coords q) ∧
    (∀ q : Int, (scalar.data_for_interval ⟨G.Xs, G.Ws⟩ qd ⟨a, b⟩).weight q
        = (qd.data_for_interval G ⟨a, b⟩).weight q) :=
  ⟨rfl, rfl, rfl, fun _ => rfl, fun _ => rfl⟩

theorem scalar_sum_over_eq_some {K : Type} [LinearOrderedField K] (l : List Int)
    (term : Int → Option K) (g : Int → K)
    (h : ∀ q : Int, q ∈ l → term q = some (g q)) :
    scalar.sum_over l term = some (l.map g).sum := by
  induction l with
  | nil => rfl
  | cons q t ih =>
    have hq := h q (List.mem_cons_self q t)
    have ht := ih (fun r hr => h r (List.mem_cons_of_mem q hr))
    simp only [scalar.sum_over, hq, ht, List.map_cons, List.sum_cons]
    rfl

theorem scalar_vec_at_map_range {K : Type} [Zero K] (N : Nat) (f : Nat → K) (i : Nat)
    (hi : i < N) : vec_at ((List.range N).map f) (i : Int) = f i := by
  rw [vec_at_natCast, List.getElem?_map, List.getElem?_range hi]
  rfl

/-- The value of the rule of `data_for_interval` on a function, as a sum over the
canonical nodes. -/
theorem scalar_data_for_interval_rule_sum {K : Type} [LinearOrderedField K]
    (G : scalar.gauss_tables K) (qd : quadrature) (target : scalar.interval K) (f : K → K) :
    (scalar.data_for_interval G qd target).rule_sum f
      = some ((List.range qd.point_count_.toNat).map
          (fun (i : Nat) =>
            vec_at (G.Ws qd.point_count_) (i : Int) * (scalar.length target / 2)
              * f (scalar.lerp ((vec_at (G.Xs qd.point_count_) (i : Int) + 1) / 2)
                    target))).sum := by
  have hlen : ((scalar.data_for_interval G qd target).points_.length : Int)
      = (qd.point_count_.toNat : Int) := by
    simp only [scalar.data_for_interval, scalar.transform_points, List.length_map,
      List.length_range]
  have hidx : (scalar.data_for_interval G qd target).indices.toList
      = (List.range qd.point_count_.toNat).map (fun (i : Nat) => (i : Int)) := by
    simp only [scalar.interval_quadrature_points.indices, range, simple_index_range.toList,
      hlen, sub_zero, Int.toNat_ofNat, zero_add]
  have hterm : ∀ q : Int, q ∈ (scalar.data_for_interval G qd target).indices.toList →
      (do
        let x ← (scalar.data_for_interval G qd target).coords q
        let w ← (scalar.data_for_interval G qd target).weight q
        pure (w * f x) : Option K)
      = some (vec_at (G.Ws qd.point_count_) q * (scalar.length target / 2)
          * f (scalar.lerp ((vec_at (G.Xs qd.point_count_) q + 1) / 2) target)) := by
    intro q hq
    rw [hidx, List.mem_map] at hq
    obtain ⟨i, hi, rfl⟩ := hq
    rw [List.mem_range] at hi
    have hin : (i : Int) ≥ 0 ∧ (i : Int)
        < ((scalar.data_for_interval G qd target).points_.length : Int) := by
      rw [hlen]
      omega
    have hc : (scalar.data_for_interval G qd target).coords (i : Int)
        = some (scalar.lerp ((vec_at (G.Xs qd.point_count_) (i : Int) + 1) / 2) target) := by
      simp only [scalar.interval_quadrature_points.coords, if_pos hin]
      simp only [scalar.data_for_interval, scalar.transform_points]
      rw [scalar_vec_at_map_range _ _ i hi]
    have hw : (scalar.data_for_interval G qd target).weight (i : Int)
        = some (vec_at (G.Ws qd.point_count_) (i : Int) * (scalar.length target / 2)) := by
      simp only [scalar.interval_quadrature_points.weight, if_pos hin]
      rfl
    rw [hc, hw]
    rfl
  unfold scalar.interval_quadrature_points.rule_sum
  rw [scalar_sum_over_eq_some _ _ _ hterm, hidx, List.map_map]
  rfl

/-- C22: quadrature exactness is preserved by the mapping, over the reals.  If the
canonical rule (nodes `Xs[k]`, weights `Ws[k]`, `k = point_count`) integrates every
polynomial of degree `<= d` exactly over `[-1, 1]`, then for every interval
`[a, b]` with `a < b` the rule of `quadrature::data_for_interval`, the sum over `q`
of `weight(q) * f(coords(q))`, equals the integral of `f` over `[a, b]` for every
polynomial `f` of degree `<= d`; in particular for `d = 2k - 1`. -/
theorem mapped_rule_exact (G : scalar.gauss_tables ℝ) (qd : quadrature) (d : Nat) (a b : ℝ)
    (hab : a < b)
    (hcanon : ∀ g : Polynomial ℝ, g.natDegree ≤ d →
      ((List.range qd.point_count_.toNat).map
          (fun (i : Nat) =>
            vec_at (G.Ws qd.point_count_) (i : Int)
              * g.eval (vec_at (G.Xs qd.point_count_) (i : Int)))).sum
        = ∫ t in (-1 : ℝ)..1, g.eval t)
    (f : Polynomial ℝ) (hf : f.natDegree ≤ d) :
    ∃ v : ℝ,
      (scalar.data_for_interval G qd ⟨a, b⟩).rule_sum (fun x => f.eval x) = some v ∧
      v = ∫ x in a..b, f.eval x := by
  refine ⟨_, scalar_data_for_interval_rule_sum G qd ⟨a, b⟩ (fun x => f.eval x), ?_⟩
  have hpos : 0 < b - a := sub_pos.mpr hab
  have hlen : scalar.length (⟨a, b⟩ : scalar.interval ℝ) = b - a := by
    simp only [scalar.length]
    exact abs_of_pos hpos
  have hg : (f.comp (Polynomial.C ((b - a) / 2) * Polynomial.X
      + Polynomial.C ((a + b) / 2))).natDegree ≤ d := by
    refine le_trans Polynomial.natDegree_comp_le ?_
    have h1 : (Polynomial.C ((b - a) / 2) * Polynomial.X
        + Polynomial.C ((a + b) / 2) : Polynomial ℝ).natDegree ≤ 1 :=
      Polynomial.natDegree_linear_le
    calc f.natDegree * _ ≤ f.natDegree * 1 := Nat.mul_le_mul_left _ h1
      _ = f.natDegree := Nat.mul_one _
      _ ≤ d := hf
  have hsum : ((List.range qd.point_count_.toNat).map
      (fun (i : Nat) =>
        vec_at (G.Ws qd.point_count_) (i : Int) * (scalar.length (⟨a, b⟩ : scalar.interval ℝ) / 2)
          * (fun x => f.eval x)
              (scalar.lerp ((vec_at (G.Xs qd.point_count_) (i : Int) + 1) / 2) ⟨a, b⟩))).sum
      = (b - a) / 2 * ((List.range qd.point_count_.toNat).map
          (fun (i : Nat) =>
            vec_at (G.Ws qd.point_count_) (i : Int)
              * (f.comp (Polynomial.C ((b - a) / 2) * Polynomial.X
                  + Polynomial.C ((a + b) / 2))).eval
                  (vec_at (G.Xs qd.point_count_) (i : Int)))).sum := by
    rw [← List.sum_map_mul_left]
    congr 1
    refine List.map_congr_left ?_
    intro i _
    have hx : scalar.lerp ((vec_at (G.Xs qd.point_count_) (i : Int) + 1) / 2)
        (⟨a, b⟩ : scalar.interval ℝ)
        = (b - a) / 2 * vec_at (G.Xs qd.point_count_) (i : Int) + (a + b) / 2 := by
      simp only [scalar.lerp]
      ring
    simp only [hlen, hx, Polynomial.eval_comp, Polynomial.eval_add, Polynomial.eval_mul,
      Polynomial.eval_C, Polynomial.eval_X]
    ring
  rw [hsum, hcanon _ hg]
  have hm : (b - a) / 2 ≠ 0 := ne_of_gt (by linarith)
  have hcomp : ∀ t : ℝ,
      (f.comp (Polynomial.C ((b - a) / 2) * Polynomial.X + Polynomial.C ((a + b) / 2))).eval t
      = (fun x : ℝ => f.eval x) ((a + b) / 2 + (b - a) / 2 * t) := by
    intro t
    simp only [Polynomial.eval_comp, Polynomial.eval_add, Polynomial.eval_mul,
      Polynomial.eval_C, Polynomial.eval_X]
    ring_nf
  simp only [hcomp]
  rw [intervalIntegral.integral_comp_add_mul (fun x : ℝ => f.eval x) hm]
  have e1 : (a + b) / 2 + (b - a) / 2 * (-1) = a := by ring
  have e2 : (a + b) / 2 + (b - a) / 2 * 1 = b := by ring
  rw [e1, e2, smul_eq_mul, ← mul_assoc, mul_inv_cancel₀ hm, one_mul]

/-- The two-point rule with nodes `-s`, `s`, `s * s = 1/3`, and weights `1`, `1`
integrates every real polynomial of degree at most `3 = 2 * 2 - 1` exactly over
`[-1, 1]`: it is the two-point Gauss rule. -/
theorem two_point_rule_exact (s : ℝ) (hs : s * s = 1 / 3) (g : Polynomial ℝ)
    (hg : g.natDegree ≤ 3) :
    ((List.range sample_quadrature_2.point_count_.toNat).map
        (fun (i : Nat) =>
          vec_at ((two_point_rule s).Ws sample_quadrature_2.point_count_) (i : Int)
            * g.eval (vec_at ((two_point_rule s).Xs sample_quadrature_2.point_count_)
                (i : Int)))).sum
      = ∫ t in (-1 : ℝ)..1, g.eval t := by
  have hr : List.range sample_quadrature_2.point_count_.toNat = [0, 1] := by decide
  have hsum : ((List.range sample_quadrature_2.point_count_.toNat).map
        (fun (i : Nat) =>
          vec_at ((two_point_rule s).Ws sample_quadrature_2.point_count_) (i : Int)
            * g.eval (vec_at ((two_point_rule s).Xs sample_quadrature_2.point_count_)
                (i : Int)))).sum
      = g.eval (-s) + g.eval s := by
    rw [hr]
    simp [two_point_rule, vec_at]
  rw [hsum]
  have hrep : g = ∑ i ∈ Finset.range 4, Polynomial.monomial i (g.coeff i) :=
    Polynomial.as_sum_range' g 4 (by omega)
  have heval : ∀ t : ℝ, g.eval t
      = g.coeff 0 + g.coeff 1 * t + g.coeff 2 * t ^ 2 + g.coeff 3 * t ^ 3 := by
    intro t
    conv_lhs => rw [hrep]
    simp only [Polynomial.eval_finset_sum, Polynomial.eval_mul, Polynomial.eval_C,
      Polynomial.eval_pow, Polynomial.eval_X, Finset.sum_range_succ, Finset.sum_range_zero,
      zero_add, pow_zero, mul_one, pow_one, Polynomial.eval_add, Polynomial.eval_monomial]
  simp only [heval]
  have hint : ∫ t in (-1 : ℝ)..1,
      (g.coeff 0 + g.coeff 1 * t + g.coeff 2 * t ^ 2 + g.coeff 3 * t ^ 3)
      = 2 * g.coeff 0 + 2 / 3 * g.coeff 2 := by
    have hderiv : ∀ t ∈ Set.uIcc (-1 : ℝ) 1,
        HasDerivAt (fun t : ℝ => g.coeff 0 * t + g.coeff 1 * t ^ 2 / 2
            + g.coeff 2 * t ^ 3 / 3 + g.coeff 3 * t ^ 4 / 4)
          (g.coeff 0 + g.coeff 1 * t + g.coeff 2 * t ^ 2 + g.coeff 3 * t ^ 3) t := by
      intro t _
      have h1 : HasDerivAt (fun t : ℝ => g.coeff 0 * t) (g.coeff 0 * 1) t :=
        (hasDerivAt_id t).const_mul _
      have h2 : HasDerivAt (fun t : ℝ => g.coeff 1 * t ^ 2 / 2)
          (g.coeff 1 * ((2 : ℕ) * t ^ (2 - 1)) / 2) t :=
        ((hasDerivAt_pow 2 t).const_mul _).div_const _
      have h3 : HasDerivAt (fun t : ℝ => g.coeff 2 * t ^ 3 / 3)
          (g.coeff 2 * ((3 : ℕ) * t ^ (3 - 1)) / 3) t :=
        ((hasDerivAt_pow 3 t).const_mul _).div_const _
      have h4 : HasDerivAt (fun t : ℝ => g.coeff 3 * t ^ 4 / 4)
          (g.coeff 3 * ((4 : ℕ) * t ^ (4 - 1)) / 4) t :=
        ((hasDerivAt_pow 4 t).const_mul _).div_const _
      have h := ((h1.add h2).add h3).add h4
      convert h using 1
      push_cast
      ring
    have hcont : Continuous (fun t : ℝ =>
        g.coeff 0 + g.coeff 1 * t + g.coeff 2 * t ^ 2 + g.coeff 3 * t ^ 3) :=
      (((continuous_const.add (continuous_const.mul continuous_id)).add
        (continuous_const.mul (continuous_id.pow 2))).add
        (continuous_const.mul (continuous_id.pow 3)))
    rw [intervalIntegral.integral_eq_sub_of_hasDerivAt hderiv (hcont.intervalIntegrable _ _)]
    ring
  rw [hint]
  have hs2 : s ^ 2 = 1 / 3 := by rw [pow_two]; exact hs
  have hs3 : s ^ 3 = 1 / 3 * s := by rw [pow_succ, hs2]
  have hn2 : (-s) ^ 2 = 1 / 3 := by rw [neg_pow_two]; exact hs2
  have hn3 : (-s) ^ 3 = -(1 / 3 * s) := by
    rw [show (-s) ^ 3 = -(s ^ 3) by ring, hs3]
  rw [hs2, hs3, hn2, hn3]
  ring

/-- C22 at the two-point Gauss rule (nodes `-1/sqrt 3`, `1/sqrt 3`, weights `1`,
`1`, exact to degree `2 * 2 - 1 = 3`), the interval `[0, 1]` and the polynomial
`X ^ 3`. -/
theorem mapped_rule_exact_witness :
    ∃ v : ℝ,
      (scalar.data_for_interval (two_point_rule (Real.sqrt 3)⁻¹) sample_quadrature_2
          ⟨0, 1⟩).rule_sum (fun x => (Polynomial.X ^ 3 : Polynomial ℝ).eval x) = some v ∧
      v = ∫ x in (0 : ℝ)..1, (Polynomial.X ^ 3 : Polynomial ℝ).eval x :=
  mapped_rule_exact (two_point_rule (Real.sqrt 3)⁻¹) sample_quadrature_2 (2 * 2 - 1) 0 1
    (by norm_num)
    (fun g hg => two_point_rule_exact (Real.sqrt 3)⁻¹
      (by
        rw [← mul_inv, Real.mul_self_sqrt (by norm_num)]
        norm_num)
      g hg)
    (Polynomial.X ^ 3) (le_of_eq (Polynomial.natDegree_X_pow 3))

/-! ## C29: the knot vector of `create_basis` -/

/-- The first loop of `create_basis`: `P` cells from the left get `a`, `P` cells
from the right get `b`. -/
theorem foldl_write_ends (P : Nat) (buf : List ℚ) (size : Int) (a b : ℚ)
    (hsize : size = (buf.length : Int)) (hP : 2 * P ≤ buf.length) :
    ((List.range P).foldl
      (fun (knot : List ℚ) (i : Nat) =>
        write_cell (write_cell knot (i : Int) a) (size - (i : Int) - 1) b) buf).length
      = buf.length ∧
    ∀ k : Nat,
      ((List.range P).foldl
        (fun (knot : List ℚ) (i : Nat) =>
          write_cell (write_cell knot (i : Int) a) (size - (i : Int) - 1) b) buf)[k]?
        = if k < P then some a
          else if buf.length - P ≤ k ∧ k < buf.length then some b else buf[k]? := by
  subst hsize
  induction P with
  | zero =>
    refine ⟨rfl, fun k => ?_⟩
    have h1 : ¬ (k < 0) := by omega
    have h2 : ¬ (buf.length - 0 ≤ k ∧ k < buf.length) := by omega
    simp only [List.range_zero, List.foldl_nil, if_neg h1, if_neg h2]
  | succ P ih =>
    obtain ⟨hlen, hget⟩ := ih (by omega)
    rw [List.range_succ, List.foldl_append]
    simp only [List.foldl_cons, List.foldl_nil]
    have hcast : ((buf.length : Int) - (P : Int) - 1) = ((buf.length - P - 1 : Nat) : Int) := by
      omega
    rw [hcast, write_cell_natCast, write_cell_natCast]
    refine ⟨by rw [List.length_set, List.length_set, hlen], fun k => ?_⟩
    rw [List.getElem?_set, List.length_set, List.getElem?_set, hget k, hlen]
    by_cases hk1 : buf.length - P - 1 = k
    · have c1 : buf.length - P - 1 < buf.length := by omega
      have c2 : ¬ (k < P + 1) := by omega
      have c3 : buf.length - (P + 1) ≤ k ∧ k < buf.length := by omega
      simp only [if_pos hk1, if_pos c1, if_neg c2, if_pos c3]
    · simp only [if_neg hk1]
      by_cases hk2 : P = k
      · have c1 : P < buf.length := by omega
        have c2 : k < P + 1 := by omega
        simp only [if_pos hk2, if_pos c1, if_pos c2]
      · simp only [if_neg hk2]
        by_cases hk3 : k < P
        · have c2 : k < P + 1 := by omega
          simp only [if_pos hk3, if_pos c2]
        · have c2 : ¬ (k < P + 1) := by omega
          simp only [if_neg hk3, if_neg c2]
          by_cases hk4 : buf.length - P ≤ k ∧ k < buf.length
          · have c3 : buf.length - (P + 1) ≤ k ∧ k < buf.length := by omega
            simp only [if_pos hk4, if_pos c3]
          · have c3 : ¬ (buf.length - (P + 1) ≤ k ∧ k < buf.length) := by omega
            simp only [if_neg hk4, if_neg c3]

/-- The second loop of `create_basis`: `D` consecutive blocks of `R` cells from
address `P`, block `d` filled with `g d`. -/
theorem foldl_write_blocks (D R P : Nat) (buf : List ℚ) (row : Nat → Int)
    (hrow : ∀ d : Nat, row d = ((P + d * R : Nat) : Int)) (g : Nat → ℚ) :
    ((List.range D).foldl
      (fun (knot : List ℚ) (d : Nat) =>
        (List.range R).foldl
          (fun (knot : List ℚ) (j : Nat) => write_cell knot (row d + (j : Int)) (g d)) knot)
      buf).length = buf.length ∧
    ∀ k : Nat,
      ((List.range D).foldl
        (fun (knot : List ℚ) (d : Nat) =>
          (List.range R).foldl
            (fun (knot : List ℚ) (j : Nat) => write_cell knot (row d + (j : Int)) (g d)) knot)
        buf)[k]?
        = if P ≤ k ∧ k < P + D * R ∧ k < buf.length then some (g ((k - P) / R))
          else buf[k]? := by
  induction D with
  | zero =>
    refine ⟨rfl, fun k => ?_⟩
    have h1 : ¬ (P ≤ k ∧ k < P + 0 * R ∧ k < buf.length) := by omega
    simp only [List.range_zero, List.foldl_nil, if_neg h1]
  | succ D ih =>
    obtain ⟨hlen, hget⟩ := ih
    rw [List.range_succ, List.foldl_append]
    simp only [List.foldl_cons, List.foldl_nil]
    obtain ⟨hlen2, hget2⟩ := foldl_write_row R
      ((List.range D).foldl
        (fun (knot : List ℚ) (d : Nat) =>
          (List.range R).foldl
            (fun (knot : List ℚ) (j : Nat) => write_cell knot (row d + (j : Int)) (g d)) knot)
        buf) (P + D * R) (row D) (hrow D) (fun _ => g D)
    refine ⟨by rw [hlen2, hlen], fun k => ?_⟩
    rw [hget2 k, hlen, hget k]
    have hmul : (D + 1) * R = D * R + R := by ring
    by_cases h1 : P + D * R ≤ k ∧ k < P + D * R + R ∧ k < buf.length
    · have c1 : P ≤ k ∧ k < P + (D + 1) * R ∧ k < buf.length := by omega
      have hdiv : (k - P) / R = D := by
        apply Nat.div_eq_of_lt_le
        · omega
        · rw [hmul]; omega
      simp only [if_pos h1, if_pos c1, hdiv]
    · simp only [if_neg h1]
      by_cases h2 : P ≤ k ∧ k < P + D * R ∧ k < buf.length
      · have c1 : P ≤ k ∧ k < P + (D + 1) * R ∧ k < buf.length := by omega
        simp only [if_pos h2, if_pos c1]
      · have c1 : ¬ (P ≤ k ∧ k < P + (D + 1) * R ∧ k < buf.length) := by omega
        simp only [if_neg h2, if_neg c1]

/-- The length of `D` consecutive blocks of `R` copies each. -/
theorem length_flatMap_replicate (D R : Nat) (g : Nat → ℚ) :
    ((List.range D).flatMap (fun (d : Nat) => List.replicate R (g d))).length = D * R := by
  induction D with
  | zero => simp
  | succ D ih2 =>
    rw [List.range_succ, List.flatMap_append, List.length_append, ih2]
    simp only [List.flatMap_cons, List.flatMap_nil, List.append_nil, List.length_replicate]
    ring

/-- The cells of `D` consecutive blocks of `R` copies each. -/
theorem getElem?_flatMap_replicate (D R : Nat) (g : Nat → ℚ) (k : Nat) :
    ((List.range D).flatMap (fun (d : Nat) => List.replicate R (g d)))[k]?
      = if k < D * R then some (g (k / R)) else none := by
  induction D generalizing k with
  | zero =>
    have h1 : ¬ (k < 0 * R) := by omega
    simp only [List.range_zero, List.flatMap_nil, List.getElem?_nil, if_neg h1]
  | succ D ih =>
    have hlenF := length_flatMap_replicate D R g
    have hmul : (D + 1) * R = D * R + R := by ring
    rw [List.range_succ, List.flatMap_append]
    simp only [List.flatMap_cons, List.flatMap_nil, List.append_nil]
    by_cases hk : k < D * R
    · rw [List.getElem?_append_left (by rw [hlenF]; exact hk), ih k]
      have c1 : k < (D + 1) * R := by omega
      simp only [if_pos hk, if_pos c1]
    · rw [List.getElem?_append_right (by rw [hlenF]; omega), hlenF]
      by_cases hk2 : k < (D + 1) * R
      · have hdiv : k / R = D := by
          apply Nat.div_eq_of_lt_le
          · omega
          · rw [hmul]; omega
        have c1 : k - D * R < R := by omega
        rw [if_pos hk2, hdiv, List.getElem?_replicate, if_pos c1]
      · have c1 : ¬ (k - D * R < R) := by omega
        rw [if_neg hk2, List.getElem?_replicate, if_neg c1]

/-- Every cell of the vector after the two loops of `create_basis`. -/
theorem fill_knots_getElem? (L : lerp_overloads) (knot0 : List ℚ) (a b : ℚ)
    (p elements repeated_nodes : Int) (P D R : Nat)
    (hP : p + 1 = (P : Int)) (hD : elements - 1 = (D : Int))
    (hR : repeated_nodes + 1 = (R : Int)) (hlen : knot0.length = 2 * P + D * R) (k : Nat) :
    (erikkson.fill_knots L knot0 a b p elements repeated_nodes)[k]?
      = if k < P then some a
        else if k < P + D * R then
          some (erikkson.interior_knot L a b elements (1 + (((k - P) / R : Nat) : Int)))
        else if k < 2 * P + D * R then some b else none := by
  have t1 : (p + 1).toNat = P := by omega
  have t2 : (elements + 1 - 1 - 1).toNat = D := by omega
  have t3 : (repeated_nodes + 1).toNat = R := by omega
  have hsize : 2 * (p + 1) + (elements + 1 - 2) * (repeated_nodes + 1)
      = (knot0.length : Int) := by
    rw [show elements + 1 - 2 = (D : Int) by omega, hP, hR, hlen]
    push_cast
    ring
  have hrow : ∀ d : Nat, (fun (d : Nat) => p + 1 + (1 + (d : Int) - 1) * (repeated_nodes + 1)) d
      = ((P + d * R : Nat) : Int) := by
    intro d
    show p + 1 + (1 + (d : Int) - 1) * (repeated_nodes + 1) = ((P + d * R : Nat) : Int)
    rw [hP, hR]
    push_cast
    ring
  obtain ⟨hl1, hg1⟩ := foldl_write_ends P knot0
    (2 * (p + 1) + (elements + 1 - 2) * (repeated_nodes + 1)) a b hsize (by omega)
  obtain ⟨_, hg2⟩ := foldl_write_blocks D R P
    ((List.range P).foldl
      (fun (knot : List ℚ) (i : Nat) =>
        write_cell (write_cell knot (i : Int) a)
          (2 * (p + 1) + (elements + 1 - 2) * (repeated_nodes + 1) - (i : Int) - 1) b) knot0)
    (fun (d : Nat) => p + 1 + (1 + (d : Int) - 1) * (repeated_nodes + 1)) hrow
    (fun (d : Nat) => erikkson.interior_knot L a b elements (1 + (d : Int)))
  have hfill : erikkson.fill_knots L knot0 a b p elements repeated_nodes
      = (List.range D).foldl
          (fun (knot : List ℚ) (d : Nat) =>
            (List.range R).foldl
              (fun (knot : List ℚ) (j : Nat) =>
                write_cell knot
                  ((fun (d : Nat) => p + 1 + (1 + (d : Int) - 1) * (repeated_nodes + 1)) d
                    + (j : Int))
                  ((fun (d : Nat) => erikkson.interior_knot L a b elements (1 + (d : Int))) d))
              knot)
          ((List.range P).foldl
            (fun (knot : List ℚ) (i : Nat) =>
              write_cell (write_cell knot (i : Int) a)
                (2 * (p + 1) + (elements + 1 - 2) * (repeated_nodes + 1) - (i : Int) - 1) b)
            knot0) := by
    simp only [erikkson.fill_knots, erikkson.interior_knot, t1, t2, t3]
  rw [hfill, hg2 k, hl1, hg1 k, hlen]
  by_cases c1 : k < P
  · have c2 : ¬ (P ≤ k ∧ k < P + D * R ∧ k < 2 * P + D * R) := by omega
    simp only [if_pos c1, if_neg c2]
  · by_cases c2 : k < P + D * R
    · have c3 : P ≤ k ∧ k < P + D * R ∧ k < 2 * P + D * R := by omega
      simp only [if_neg c1, if_pos c2, if_pos c3]
    · have c3 : ¬ (P ≤ k ∧ k < P + D * R ∧ k < 2 * P + D * R) := by omega
      simp only [if_neg c1, if_neg c2, if_neg c3]
      by_cases c4 : k < 2 * P + D * R
      · have c5 : 2 * P + D * R - P ≤ k ∧ k < 2 * P + D * R := by omega
        simp only [if_pos c4, if_pos c5]
      · have c5 : ¬ (2 * P + D * R - P ≤ k ∧ k < 2 * P + D * R) := by omega
        simp only [if_neg c4, if_neg c5]
        rw [List.getElem?_eq_none (by omega)]

/-- The vector after the two loops of `create_basis`, as a list: `P` copies of `a`,
then `R` copies of each interior knot, then `P` copies of `b`. -/
theorem fill_knots_eq (L : lerp_overloads) (knot0 : List ℚ) (a b : ℚ)
    (p elements repeated_nodes : Int) (P D R : Nat)
    (hP : p + 1 = (P : Int)) (hD : elements - 1 = (D : Int))
    (hR : repeated_nodes + 1 = (R : Int)) (hlen : knot0.length = 2 * P + D * R) :
    erikkson.fill_knots L knot0 a b p elements repeated_nodes
      = List.replicate P a
        ++ ((List.range D).flatMap (fun (d : Nat) =>
              List.replicate R (erikkson.interior_knot L a b elements (1 + (d : Int))))
          ++ List.replicate P b) := by
  have hlenF := length_flatMap_replicate D R
    (fun (d : Nat) => erikkson.interior_knot L a b elements (1 + (d : Int)))
  apply List.ext_getElem?
  intro k
  rw [fill_knots_getElem? L knot0 a b p elements repeated_nodes P D R hP hD hR hlen k]
  by_cases c1 : k < P
  · rw [List.getElem?_append_left (by rw [List.length_replicate]; exact c1),
      List.getElem?_replicate]
    simp only [if_pos c1]
  · rw [List.getElem?_append_right (by rw [List.length_replicate]; omega),
      List.length_replicate]
    by_cases c2 : k < P + D * R
    · rw [List.getElem?_append_left (by rw [hlenF]; omega),
        getElem?_flatMap_replicate D R
          (fun (d : Nat) => erikkson.interior_knot L a b elements (1 + (d : Int))) (k - P)]
      have c3 : k - P < D * R := by omega
      simp only [if_neg c1, if_pos c2, if_pos c3]
    · rw [List.getElem?_append_right (by rw [hlenF]; omega), hlenF, List.getElem?_replicate]
      by_cases c4 : k < 2 * P + D * R
      · have c5 : k - P - D * R < P := by omega
        simp only [if_neg c1, if_neg c2, if_pos c4, if_pos c5]
      · have c5 : ¬ (k - P - D * R < P) := by omega
        simp only [if_neg c1, if_neg c2, if_neg c4, if_neg c5]

/-- The map `t ↦ s` of `create_basis` is piecewise linear with slopes `9/5` and
`1/5`. -/
theorem knot_param_eq (t : ℚ) :
    (if t < (1 / 2 : ℚ) then t / (1 / 2) * (9 / 10)
      else (t - 1 / 2) / (1 - 1 / 2) * (1 - 9 / 10) + 9 / 10)
      = if t < (1 / 2 : ℚ) then 9 / 5 * t else 1 / 5 * t + 4 / 5 := by
  split_ifs <;> ring

/-- The interior knot number `i`, for the usual linear interpolation. -/
theorem interior_knot_eq (L : lerp_overloads)
    (hv : ∀ t a b : ℚ, L.value t a b = (1 - t) * a + t * b)
    (hi : ∀ (i n : Int) (a b : ℚ), L.indexed i n a b = L.value ((i : ℚ) / (n : ℚ)) a b)
    (a b : ℚ) (elements i : Int) :
    erikkson.interior_knot L a b elements i
      = a + (if (i : ℚ) / (elements : ℚ) < (1 / 2 : ℚ) then 9 / 5 * ((i : ℚ) / (elements : ℚ))
              else 1 / 5 * ((i : ℚ) / (elements : ℚ)) + 4 / 5) * (b - a) := by
  have ht : (1 - (i : ℚ) / (elements : ℚ)) * 0 + (i : ℚ) / (elements : ℚ) * 1
      = (i : ℚ) / (elements : ℚ) := by ring
  simp only [erikkson.interior_knot, hi, hv]
  rw [ht, knot_param_eq]
  ring

/-- The interior knots increase strictly with the point number. -/
theorem interior_knot_lt (L : lerp_overloads)
    (hv : ∀ t a b : ℚ, L.value t a b = (1 - t) * a + t * b)
    (hi : ∀ (i n : Int) (a b : ℚ), L.indexed i n a b = L.value ((i : ℚ) / (n : ℚ)) a b)
    (a b : ℚ) (hab : a < b) (elements : Int) (he : 1 ≤ elements) (i j : Int) (hij : i < j) :
    erikkson.interior_knot L a b elements i < erikkson.interior_knot L a b elements j := by
  rw [interior_knot_eq L hv hi, interior_knot_eq L hv hi]
  have hn : (0 : ℚ) < (elements : ℚ) := by exact_mod_cast (by omega : (0 : Int) < elements)
  have hq : (i : ℚ) < (j : ℚ) := by exact_mod_cast hij
  have ht : (i : ℚ) / (elements : ℚ) < (j : ℚ) / (elements : ℚ) :=
    div_lt_div_of_pos_right hq hn
  have hs : (if (i : ℚ) / (elements : ℚ) < (1 / 2 : ℚ) then 9 / 5 * ((i : ℚ) / (elements : ℚ))
              else 1 / 5 * ((i : ℚ) / (elements : ℚ)) + 4 / 5)
      < (if (j : ℚ) / (elements : ℚ) < (1 / 2 : ℚ) then 9 / 5 * ((j : ℚ) / (elements : ℚ))
              else 1 / 5 * ((j : ℚ) / (elements : ℚ)) + 4 / 5) := by
    split_ifs <;> linarith
  have hba : 0 < b - a := sub_pos.2 hab
  have := mul_lt_mul_of_pos_right hs hba
  linarith

/-- The interior knots of the points `1, ..., elements - 1` lie strictly between the
two ends. -/
theorem interior_knot_mem (L : lerp_overloads)
    (hv : ∀ t a b : ℚ, L.value t a b = (1 - t) * a + t * b)
    (hi : ∀ (i n : Int) (a b : ℚ), L.indexed i n a b = L.value ((i : ℚ) / (n : ℚ)) a b)
    (a b : ℚ) (hab : a < b) (elements : Int) (i : Int) (h1 : 1 ≤ i) (h2 : i ≤ elements - 1) :
    a < erikkson.interior_knot L a b elements i ∧
      erikkson.interior_knot L a b elements i < b := by
  rw [interior_knot_eq L hv hi]
  have hn : (0 : ℚ) < (elements : ℚ) := by exact_mod_cast (by omega : (0 : Int) < elements)
  have hq0 : (0 : ℚ) < (i : ℚ) := by exact_mod_cast (by omega : (0 : Int) < i)
  have hq1 : (i : ℚ) < (elements : ℚ) := by exact_mod_cast (by omega : i < elements)
  have ht0 : 0 < (i : ℚ) / (elements : ℚ) := div_pos hq0 hn
  have ht1 : (i : ℚ) / (elements : ℚ) < 1 := (div_lt_one hn).2 hq1
  have hs : 0 < (if (i : ℚ) / (elements : ℚ) < (1 / 2 : ℚ) then 9 / 5 * ((i : ℚ) / (elements : ℚ))
              else 1 / 5 * ((i : ℚ) / (elements : ℚ)) + 4 / 5) ∧
      (if (i : ℚ) / (elements : ℚ) < (1 / 2 : ℚ) then 9 / 5 * ((i : ℚ) / (elements : ℚ))
              else 1 / 5 * ((i : ℚ) / (elements : ℚ)) + 4 / 5) < 1 := by
    split_ifs <;> constructor <;> linarith
  have hba : 0 < b - a := sub_pos.2 hab
  have e1 := mul_pos hs.1 hba
  have e2 := mul_lt_mul_of_pos_right hs.2 hba
  constructor <;> linarith

/-- In `D` blocks of `R` copies of pairwise distinct values, each value occurs `R`
times. -/
theorem count_flatMap_replicate (D R : Nat) (g : Nat → ℚ)
    (hinj : ∀ d e : Nat, d < D → e < D → g d = g e → d = e) (d0 : Nat) (hd0 : d0 < D) :
    ((List.range D).flatMap (fun (d : Nat) => List.replicate R (g d))).count (g d0) = R := by
  induction D with
  | zero => exact absurd hd0 (Nat.not_lt_zero d0)
  | succ D ih =>
    rw [List.range_succ, List.flatMap_append, List.count_append]
    simp only [List.flatMap_cons, List.flatMap_nil, List.append_nil]
    by_cases h : d0 = D
    · subst h
      have hzero : ((List.range d0).flatMap (fun (d : Nat) => List.replicate R (g d))).count
          (g d0) = 0 := by
        rw [List.count_eq_zero]
        intro hmem
        rw [List.mem_flatMap] at hmem
        obtain ⟨d, hd, hx⟩ := hmem
        rw [List.mem_range] at hd
        have hgd := (List.mem_replicate.1 hx).2
        have := hinj d0 d (by omega) (by omega) hgd
        omega
      rw [hzero, List.count_replicate_self, zero_add]
    · have hlt : d0 < D := by omega
      rw [ih (fun d e hd he => hinj d e (by omega) (by omega)) hlt]
      have hne : ¬ (g D = g d0) := by
        intro hg
        have := hinj D d0 (by omega) (by omega) hg
        omega
      rw [List.count_replicate, if_neg (by simpa using hne), add_zero]

/-- A value outside every block does not occur in the blocks. -/
theorem count_flatMap_replicate_zero (D R : Nat) (g : Nat → ℚ) (x : ℚ)
    (hx : ∀ d : Nat, d < D → g d ≠ x) :
    ((List.range D).flatMap (fun (d : Nat) => List.replicate R (g d))).count x = 0 := by
  rw [List.count_eq_zero]
  intro hmem
  rw [List.mem_flatMap] at hmem
  obtain ⟨d, hd, hxd⟩ := hmem
  rw [List.mem_range] at hd
  exact hx d hd (List.mem_replicate.1 hxd).2.symm

/-- C29: for `a < b`, `p ≥ 0`, `elements ≥ 1` and `repeated_nodes ≥ 0` (and the two
external `lerp` overloads being linear interpolation), the knot vector of
`create_basis` has length `2 * (p + 1) + (elements - 1) * (repeated_nodes + 1)`;
every entry is assigned (the two loops give the same vector whatever the vector
held before); the first `p + 1` entries are `a` and the last `p + 1` are `b`; the
interior knot of each point `i = 1, ..., elements - 1` fills the block of
`repeated_nodes + 1` cells from `p + 1 + (i - 1) * (repeated_nodes + 1)`, lies
strictly between `a` and `b`, and occurs exactly `repeated_nodes + 1` times; and
the interior knots of different points differ (they increase with `i`). -/
theorem create_basis_knot_spec (L : lerp_overloads)
    (hv : ∀ t a b : ℚ, L.value t a b = (1 - t) * a + t * b)
    (hi : ∀ (i n : Int) (a b : ℚ), L.indexed i n a b = L.value ((i : ℚ) / (n : ℚ)) a b)
    (a b : ℚ) (hab : a < b) (p elements repeated_nodes : Int)
    (hp : 0 ≤ p) (he : 1 ≤ elements) (hr : 0 ≤ repeated_nodes) :
    ((erikkson.create_basis_knot L a b p elements repeated_nodes).length : Int)
        = 2 * (p + 1) + (elements - 1) * (repeated_nodes + 1) ∧
    (∀ knot0 : List ℚ,
      (knot0.length : Int) = 2 * (p + 1) + (elements - 1) * (repeated_nodes + 1) →
      erikkson.fill_knots L knot0 a b p elements repeated_nodes
        = erikkson.create_basis_knot L a b p elements repeated_nodes) ∧
    (∀ i : Int, 0 ≤ i → i ≤ p →
      vec_at (erikkson.create_basis_knot L a b p elements repeated_nodes) i = a ∧
      vec_at (erikkson.create_basis_knot L a b p elements repeated_nodes)
        (2 * (p + 1) + (elements - 1) * (repeated_nodes + 1) - i - 1) = b) ∧
    (∀ i : Int, 1 ≤ i → i ≤ elements - 1 →
      (∀ j : Int, 0 ≤ j → j ≤ repeated_nodes →
        vec_at (erikkson.create_basis_knot L a b p elements repeated_nodes)
            (p + 1 + (i - 1) * (repeated_nodes + 1) + j)
          = erikkson.interior_knot L a b elements i) ∧
      a < erikkson.interior_knot L a b elements i ∧
      erikkson.interior_knot L a b elements i < b ∧
      (((erikkson.create_basis_knot L a b p elements repeated_nodes).count
          (erikkson.interior_knot L a b elements i) : Nat) : Int) = repeated_nodes + 1) ∧
    (∀ i j : Int, 1 ≤ i → i < j → j ≤ elements - 1 →
      erikkson.interior_knot L a b elements i < erikkson.interior_knot L a b elements j) := by
  obtain ⟨P, hP⟩ : ∃ P : Nat, p + 1 = (P : Int) := ⟨(p + 1).toNat, by omega⟩
  obtain ⟨D, hD⟩ : ∃ D : Nat, elements - 1 = (D : Int) := ⟨(elements - 1).toNat, by omega⟩
  obtain ⟨R, hR⟩ : ∃ R : Nat, repeated_nodes + 1 = (R : Int) :=
    ⟨(repeated_nodes + 1).toNat, by omega⟩
  have hsz : 2 * (p + 1) + (elements - 1) * (repeated_nodes + 1) = ((2 * P + D * R : Nat) : Int) := by
    rw [hP, hD, hR]
    push_cast
    ring
  have hfill : ∀ knot0 : List ℚ, knot0.length = 2 * P + D * R →
      erikkson.fill_knots L knot0 a b p elements repeated_nodes
        = List.replicate P a
          ++ ((List.range D).flatMap (fun (d : Nat) =>
                List.replicate R (erikkson.interior_knot L a b elements (1 + (d : Int))))
            ++ List.replicate P b) :=
    fun knot0 h0 => fill_knots_eq L knot0 a b p elements repeated_nodes P D R hP hD hR h0
  have hknot : erikkson.create_basis_knot L a b p elements repeated_nodes
      = List.replicate P a
        ++ ((List.range D).flatMap (fun (d : Nat) =>
              List.replicate R (erikkson.interior_knot L a b elements (1 + (d : Int))))
          ++ List.replicate P b) := by
    have h0 : (List.replicate
        (2 * (p + 1) + (elements + 1 - 2) * (repeated_nodes + 1)).toNat (0 : ℚ)).length
        = 2 * P + D * R := by
      rw [List.length_replicate,
        show elements + 1 - 2 = elements - 1 by ring, hsz, Int.toNat_ofNat]
    exact hfill _ h0
  have hget : ∀ k : Nat,
      (erikkson.create_basis_knot L a b p elements repeated_nodes)[k]?
        = if k < P then some a
          else if k < P + D * R then
            some (erikkson.interior_knot L a b elements (1 + (((k - P) / R : Nat) : Int)))
          else if k < 2 * P + D * R then some b else none := by
    intro k
    have h0 : (List.replicate
        (2 * (p + 1) + (elements + 1 - 2) * (repeated_nodes + 1)).toNat (0 : ℚ)).length
        = 2 * P + D * R := by
      rw [List.length_replicate,
        show elements + 1 - 2 = elements - 1 by ring, hsz, Int.toNat_ofNat]
    exact fill_knots_getElem? L _ a b p elements repeated_nodes P D R hP hD hR h0 k
  have hlenF := length_flatMap_replicate D R
    (fun (d : Nat) => erikkson.interior_knot L a b elements (1 + (d : Int)))
  have hinj : ∀ d e : Nat, d < D → e < D →
      (fun (d : Nat) => erikkson.interior_knot L a b elements (1 + (d : Int))) d
        = (fun (d : Nat) => erikkson.interior_knot L a b elements (1 + (d : Int))) e →
      d = e := by
    intro d e _ _ hde
    rcases Nat.lt_trichotomy d e with h | h | h
    · have := interior_knot_lt L hv hi a b hab elements he (1 + (d : Int)) (1 + (e : Int))
        (by omega)
      exact absurd hde (ne_of_lt this)
    · exact h
    · have := interior_knot_lt L hv hi a b hab elements he (1 + (e : Int)) (1 + (d : Int))
        (by omega)
      exact absurd hde.symm (ne_of_lt this)
  refine ⟨?_, ?_, ?_, ?_, ?_⟩
  · rw [hknot, hsz]
    simp only [List.length_append, List.length_replicate, hlenF]
    push_cast
    ring
  · intro knot0 h0
    rw [hknot]
    exact hfill knot0 (by rw [hsz] at h0; exact_mod_cast h0)
  · intro i hi0 hip
    obtain ⟨k, rfl⟩ : ∃ k : Nat, i = (k : Int) := ⟨i.toNat, by omega⟩
    have hDR : 0 ≤ D * R := Nat.zero_le _
    constructor
    · rw [vec_at_natCast, hget k, if_pos (by omega)]
      rfl
    · have hcast : 2 * (p + 1) + (elements - 1) * (repeated_nodes + 1) - (k : Int) - 1
          = ((2 * P + D * R - k - 1 : Nat) : Int) := by
        rw [hsz]
        omega
      rw [hcast, vec_at_natCast, hget, if_neg (by omega), if_neg (by omega), if_pos (by omega)]
      rfl
  · intro i hi1 hie
    obtain ⟨d, hd⟩ : ∃ d : Nat, i = 1 + (d : Int) := ⟨(i - 1).toNat, by omega⟩
    have hdD : d < D := by omega
    refine ⟨?_, (interior_knot_mem L hv hi a b hab elements i hi1 hie).1,
      (interior_knot_mem L hv hi a b hab elements i hi1 hie).2, ?_⟩
    · intro j hj0 hjr
      obtain ⟨m, rfl⟩ : ∃ m : Nat, j = (m : Int) := ⟨j.toNat, by omega⟩
      have hmR : m < R := by omega
      have hcast : p + 1 + (i - 1) * (repeated_nodes + 1) + (m : Int)
          = ((P + d * R + m : Nat) : Int) := by
        rw [hP, hR, hd]
        push_cast
        ring
      have hlt : d * R + m < D * R := by
        have : (d + 1) * R ≤ D * R := Nat.mul_le_mul_right R hdD
        have e : (d + 1) * R = d * R + R := by ring
        omega
      have hdiv : (P + d * R + m - P) / R = d := by
        apply Nat.div_eq_of_lt_le
        · omega
        · have e : (d + 1) * R = d * R + R := by ring
          rw [e]
          omega
      rw [hcast, vec_at_natCast, hget, if_neg (by omega), if_pos (by omega), hdiv, hd]
      rfl
    · rw [hknot, List.count_append, List.count_append, hd]
      have c1 : (List.replicate P a).count
          (erikkson.interior_knot L a b elements (1 + (d : Int))) = 0 := by
        rw [List.count_eq_zero]
        intro hmem
        have := (List.mem_replicate.1 hmem).2
        have hlt := (interior_knot_mem L hv hi a b hab elements (1 + (d : Int))
          (by omega) (by omega)).1
        exact absurd this.symm (ne_of_lt hlt)
      have c2 : (List.replicate P b).count
          (erikkson.interior_knot L a b elements (1 + (d : Int))) = 0 := by
        rw [List.count_eq_zero]
        intro hmem
        have := (List.mem_replicate.1 hmem).2
        have hlt := (interior_knot_mem L hv hi a b hab elements (1 + (d : Int))
          (by omega) (by omega)).2
        exact absurd this (ne_of_lt hlt)
      have c3 := count_flatMap_replicate D R
        (fun (d : Nat) => erikkson.interior_knot L a b elements (1 + (d : Int))) hinj d hdD
      simp only at c3
      rw [c1, c2, c3, hR]
      simp
  · intro i j _ hij _
    exact interior_knot_lt L hv hi a b hab elements he i j hij

/-- C29 at the interval `[0, 1]`, `p = 1`, `elements = 3` and `repeated_nodes = 1`
with linear interpolation. -/
theorem create_basis_knot_spec_witness :
    ((erikkson.create_basis_knot linear_lerp 0 1 1 3 1).length : Int)
        = 2 * (1 + 1) + (3 - 1) * (1 + 1) ∧
    (erikkson.create_basis_knot linear_lerp 0 1 1 3 1).count
        (erikkson.interior_knot linear_lerp 0 1 3 1) = 2 :=
  ⟨(create_basis_knot_spec linear_lerp (fun _ _ _ => rfl) (fun _ _ _ _ => rfl) 0 1
      (by norm_num) 1 3 1 (by decide) (by decide) (by decide)).1,
   by
    have h := ((create_basis_knot_spec linear_lerp (fun _ _ _ => rfl) (fun _ _ _ _ => rfl) 0 1
      (by norm_num) 1 3 1 (by decide) (by decide) (by decide)).2.2.2.1 1
      (by decide) (by decide)).2.2.2
    exact_mod_cast h⟩

/-! ## C30: the validation of the erikkson driver -/

/-- C30: the erikkson driver with a wrong argument count writes the usage line and
exits with status 1; with seven arguments and the trial basis having more DOFs
than the test basis it writes the dimension message and exits with status 1, and
the simulation is neither constructed nor run; with seven arguments and the trial
DOF count at most the test DOF count it constructs the simulation and runs it. -/
theorem main_spec (L : lerp_overloads) (make : List ℚ → Int → bspline.basis)
    (bspline_create_basis : ℚ → ℚ → Int → Int → Int → bspline.basis)
    (argc : Int) (argv : Int → Int) :
    (argc ≠ 7 →
      erikkson.main L make bspline_create_basis argc argv
        = [erikkson.event.usage_message, erikkson.event.exit_with 1]) ∧
    (argc = 7 → erikkson.trial_dim L make argv > erikkson.test_dim L make argv →
      erikkson.main L make bspline_create_basis argc argv
        = [erikkson.event.dimension_message (erikkson.trial_dim L make argv)
            (erikkson.test_dim L make argv), erikkson.event.exit_with 1] ∧
      ∀ e ∈ erikkson.main L make bspline_create_basis argc argv, e.touches_sim = false) ∧
    (argc = 7 → erikkson.trial_dim L make argv ≤ erikkson.test_dim L make argv →
      erikkson.main L make bspline_create_basis argc argv
        = [erikkson.event.construct_sim
            ⟨erikkson.create_basis L make 0 1 (argv 2) (argv 1) (argv 2 - 1 - argv 3),
              max (argv 2) (argv 4) + 1, 1⟩
            ⟨bspline_create_basis 0 1 (argv 2) (argv 1) (argv 2 - 1 - argv 3),
              max (argv 2) (argv 4) + 1, 1⟩
            ⟨erikkson.create_basis L make 0 1 (argv 4) (argv 1) (argv 4 - 1 - argv 5),
              max (argv 2) (argv 4) + 1, 1⟩
            ⟨bspline_create_basis 0 1 (argv 4) (argv 1) (argv 4 - 1 - argv 5),
              max (argv 2) (argv 4) + 1, 1⟩
            ⟨argv 6, 1 / 2 * (1 / 100)⟩,
           erikkson.event.run_sim]) := by
  refine ⟨?_, ?_, ?_⟩
  · intro hargc
    simp only [erikkson.main, if_pos hargc]
  · intro hargc hgt
    have hnot : ¬ (argc ≠ 7) := fun h => h hargc
    have hmain : erikkson.main L make bspline_create_basis argc argv
        = [erikkson.event.dimension_message (erikkson.trial_dim L make argv)
            (erikkson.test_dim L make argv), erikkson.event.exit_with 1] := by
      simp only [erikkson.trial_dim, erikkson.test_dim] at hgt
      simp only [erikkson.main, if_neg hnot, if_pos hgt, erikkson.trial_dim, erikkson.test_dim]
    refine ⟨hmain, ?_⟩
    intro e he
    rw [hmain] at he
    simp only [List.mem_cons, List.mem_singleton, List.mem_nil_iff, or_false] at he
    rcases he with rfl | rfl <;> rfl
  · intro hargc hle
    have hnot : ¬ (argc ≠ 7) := fun h => h hargc
    have hle2 : ¬ (erikkson.trial_dim L make argv > erikkson.test_dim L make argv) :=
      not_lt.2 hle
    simp only [erikkson.trial_dim, erikkson.test_dim] at hle2
    simp only [erikkson.main, if_neg hnot, if_neg hle2]

/-- C30 at three runs: two arguments; the arguments `3 2 0 1 0 5` (7 trial DOFs
against 4 test DOFs); the arguments `3 1 0 2 0 5` (4 against 7). -/
theorem main_spec_witness :
    erikkson.main linear_lerp sample_make sample_bspline_create_basis 3 sample_argv_rejected
        = [erikkson.event.usage_message, erikkson.event.exit_with 1] ∧
    erikkson.main linear_lerp sample_make sample_bspline_create_basis 7 sample_argv_rejected
        = [erikkson.event.dimension_message
            (erikkson.trial_dim linear_lerp sample_make sample_argv_rejected)
            (erikkson.test_dim linear_lerp sample_make sample_argv_rejected),
           erikkson.event.exit_with 1] ∧
    erikkson.trial_dim linear_lerp sample_make sample_argv_rejected = 7 ∧
    erikkson.test_dim linear_lerp sample_make sample_argv_rejected = 4 ∧
    (erikkson.main linear_lerp sample_make sample_bspline_create_basis 7
        sample_argv_accepted).getLast? = some erikkson.event.run_sim :=
  ⟨(main_spec linear_lerp sample_make sample_bspline_create_basis 3 sample_argv_rejected).1
      (by decide),
   ((main_spec linear_lerp sample_make sample_bspline_create_basis 7 sample_argv_rejected).2.1
      rfl (by decide)).1,
   by decide, by decide,
   by
    rw [(main_spec linear_lerp sample_make sample_bspline_create_basis 7
      sample_argv_accepted).2.2 rfl (by decide)]
    rfl⟩

/-! ## C24, C25, C26: the matrix assembly -/

theorem foldl_add_at_cells {α : Type} (l : List α) (r c : α → Int) (v : α → ℚ)
    (M : lin.tensor2) (a b : Int) :
    (l.foldl (fun (M : lin.tensor2) (x : α) => M.add_at (r x) (c x) (v x)) M).cells a b
      = M.cells a b + (l.map (fun x => if a = r x ∧ b = c x then v x else 0)).sum := by
  induction l generalizing M with
  | nil => simp
  | cons x t ih =>
    rw [List.foldl_cons, ih, List.map_cons, List.sum_cons]
    simp only [lin.tensor2.add_at]
    split_ifs <;> ring

theorem foldl_foldl_add_at_cells {α β : Type} (l : List α) (l2 : List β) (r c : α → β → Int)
    (v : α → β → ℚ) (M : lin.tensor2) (a b : Int) :
    (l.foldl
        (fun (M : lin.tensor2) (i : α) =>
          l2.foldl (fun (M : lin.tensor2) (j : β) => M.add_at (r i j) (c i j) (v i j)) M)
        M).cells a b
      = M.cells a b
        + (l.map (fun i =>
            (l2.map (fun j => if a = r i j ∧ b = c i j then v i j else 0)).sum)).sum := by
  induction l generalizing M with
  | nil => simp
  | cons x t ih =>
    rw [List.foldl_cons, ih, foldl_add_at_cells, List.map_cons, List.sum_cons]
    ring

/-- The sizes of a local matrix are not changed by the accumulation. -/
theorem foldl_foldl_add_at_sizes {α β : Type} (l : List α) (l2 : List β) (r c : α → β → Int)
    (v : α → β → ℚ) (M : lin.tensor2) :
    (l.foldl
        (fun (M : lin.tensor2) (i : α) =>
          l2.foldl (fun (M : lin.tensor2) (j : β) => M.add_at (r i j) (c i j) (v i j)) M)
        M).sizes = M.sizes := by
  have inner : ∀ (i : α) (M : lin.tensor2),
      (l2.foldl (fun (M : lin.tensor2) (j : β) => M.add_at (r i j) (c i j) (v i j)) M).sizes
        = M.sizes := by
    intro i M
    induction l2 generalizing M with
    | nil => rfl
    | cons y t ih => rw [List.foldl_cons, ih]; rfl
  induction l generalizing M with
  | nil => rfl
  | cons x t ih => rw [List.foldl_cons, ih, inner]

/-- Two nested sums over lists can be exchanged. -/
theorem sum_map_sum_comm {α β : Type} (l : List α) (l2 : List β) (f : α → β → ℚ) :
    (l.map (fun i => (l2.map (fun j => f i j)).sum)).sum
      = (l2.map (fun j => (l.map (fun i => f i j)).sum)).sum := by
  induction l with
  | nil => simp
  | cons x t ih =>
    simp only [List.map_cons, List.sum_cons]
    rw [ih, ← List.sum_map_add]

/-- The contribution of one quadrature point to the local matrix is symmetric when
the form is. -/
theorem point_sum_symm {α : Type} (l : List α) (loc : α → Int) (F : α → α → ℚ)
    (hF : ∀ i j, F i j = F j i) (a b : Int) :
    (l.map (fun i => (l.map (fun j => if a = loc j ∧ b = loc i then F i j else 0)).sum)).sum
      = (l.map (fun i =>
          (l.map (fun j => if b = loc j ∧ a = loc i then F i j else 0)).sum)).sum := by
  rw [sum_map_sum_comm]
  congr 1
  apply List.map_congr_left
  intro j _
  congr 1
  apply List.map_congr_left
  intro i _
  rw [hF i j]
  by_cases h : a = loc j ∧ b = loc i
  · rw [if_pos h, if_pos ⟨h.2, h.1⟩]
  · rw [if_neg h, if_neg (fun h2 => h ⟨h2.2, h2.1⟩)]

/-- A property kept by every successful step of a loop holds after the loop. -/
theorem foldlM_option_invariant {σ α : Type} (P : σ → Prop) (step : σ → α → Option σ)
    (l : List α)
    (hstep : ∀ (s : σ) (x : α) (s2 : σ), x ∈ l → P s → step s x = some s2 → P s2)
    (s s2 : σ) (hs : P s) (h : l.foldlM step s = some s2) : P s2 := by
  induction l generalizing s with
  | nil =>
    simp only [List.foldlM_nil, Option.pure_def, Option.some.injEq] at h
    exact h ▸ hs
  | cons x t ih =>
    rw [List.foldlM_cons] at h
    cases hx : step s x with
    | none => rw [hx] at h; simp at h
    | some s1 =>
      rw [hx] at h
      exact ih (fun s x s2 hm => hstep s x s2 (List.mem_cons_of_mem _ hm)) s1
        (hstep s x s1 (List.mem_cons_self _ _) hs hx) h

/-- A loop all of whose steps succeed succeeds. -/
theorem foldlM_option_isSome {σ α : Type} (step : σ → α → Option σ) (l : List α)
    (hstep : ∀ (s : σ) (x : α), x ∈ l → ∃ s2, step s x = some s2) (s : σ) :
    ∃ s2, l.foldlM step s = some s2 := by
  induction l generalizing s with
  | nil => exact ⟨s, rfl⟩
  | cons x t ih =>
    obtain ⟨s1, h1⟩ := hstep s x (List.mem_cons_self _ _)
    obtain ⟨s2, h2⟩ := ih (fun s x hm => hstep s x (List.mem_cons_of_mem _ hm)) s1
    refine ⟨s2, ?_⟩
    rw [List.foldlM_cons, h1]
    exact h2

/-- At every index of `indices()`, `tensor_quadrature_points::data` succeeds. -/
theorem tensor_data_isSome (p : tensor_quadrature_points) (q : Int × Int)
    (hq : q ∈ p.indices.toList) : ∃ xw, p.data q = some xw := by
  rw [mem_index_range_toList] at hq
  simp only [tensor_quadrature_points.indices, product_range, interval_quadrature_points.indices,
    range] at hq
  obtain ⟨⟨h1, h2⟩, h3, h4⟩ := hq
  have c1 : q.1 ≥ 0 ∧ q.1 < (p.ptx_.points_.length : Int) := ⟨h1, h2⟩
  have c2 : q.2 ≥ 0 ∧ q.2 < (p.pty_.points_.length : Int) := ⟨h3, h4⟩
  rw [← Option.isSome_iff_exists]
  simp only [tensor_quadrature_points.data, tensor_quadrature_points.coords,
    tensor_quadrature_points.weight, interval_quadrature_points.coords,
    interval_quadrature_points.weight, if_pos c1, if_pos c2, Option.bind_eq_bind,
    Option.some_bind, Option.pure_def, Option.isSome_some]

/-- At every index of `indices()`, `edge_quadrature_points::data` succeeds. -/
theorem edge_data_isSome (p : edge_quadrature_points) (q : Int)
    (hq : q ∈ p.indices.toList) : ∃ xw, p.data q = some xw := by
  rw [mem_range_toList] at hq
  simp only [edge_quadrature_points.indices, interval_quadrature_points.indices, range] at hq
  have c1 : q ≥ 0 ∧ q < (p.points_.points_.length : Int) := hq
  cases hdir : p.direction_ <;>
  · rw [← Option.isSome_iff_exists]
    simp only [edge_quadrature_points.data, edge_quadrature_points.coords,
      edge_quadrature_points.weight, interval_quadrature_points.coords,
      interval_quadrature_points.weight, if_pos c1, Option.bind_eq_bind,
      Option.some_bind, Option.pure_def, hdir, Option.isSome_some]

/-- Every element of the mesh of the quadrature has quadrature points. -/
theorem coordinates_isSome (G : gauss_tables) (quad : quadrature) (e : Int × Int)
    (he : e ∈ quad.mesh_.elements.toList) :
    ∃ points, quad.coordinates G e = some points := by
  rw [mem_index_range_toList] at he
  simp only [regular_mesh.elements, product_range, interval_mesh.elements, range] at he
  obtain ⟨⟨h1, h2⟩, h3, h4⟩ := he
  have c1 : e.1 ≥ 0 ∧ e.1 < (quad.mesh_.mesh_x_.points_.length : Int) - 1 := ⟨h1, h2⟩
  have c2 : e.2 ≥ 0 ∧ e.2 < (quad.mesh_.mesh_y_.points_.length : Int) - 1 := ⟨h3, h4⟩
  rw [← Option.isSome_iff_exists]
  simp only [quadrature.coordinates, regular_mesh.element, interval_mesh.subinterval,
    subinterval, if_pos c1, if_pos c2, Option.bind_eq_bind, Option.some_bind, Option.pure_def,
    Option.isSome_some]

/-- The local matrix of an element of the mesh is computed. -/
theorem element_matrix_isSome (G : gauss_tables) (sp : space) (quad : quadrature)
    (e : Int × Int) (he : e ∈ quad.mesh_.elements.toList) :
    ∃ M, laplace.element_matrix G sp quad e = some M := by
  obtain ⟨points, hpts⟩ := coordinates_isSome G quad e he
  simp only [laplace.element_matrix, hpts, Option.bind_eq_bind, Option.some_bind]
  apply foldlM_option_isSome
  intro M q hq
  obtain ⟨xw, hxw⟩ := tensor_data_isSome points q hq
  rw [hxw]
  exact ⟨_, rfl⟩

/-- The local matrix of an element is symmetric. -/
theorem element_matrix_symm (G : gauss_tables) (sp : space) (quad : quadrature)
    (e : Int × Int) (M : lin.tensor2) (hM : laplace.element_matrix G sp quad e = some M)
    (a b : Int) : M.cells a b = M.cells b a := by
  cases hpts : quad.coordinates G e with
  | none =>
    simp only [laplace.element_matrix, hpts, Option.bind_eq_bind, Option.none_bind,
      reduceCtorEq] at hM
  | some points =>
    simp only [laplace.element_matrix, hpts, Option.bind_eq_bind, Option.some_bind] at hM
    refine foldlM_option_invariant (fun (M : lin.tensor2) => ∀ a b, M.cells a b = M.cells b a)
      _ _ ?_ _ M (fun _ _ => rfl) hM a b
    intro s q s2 _ hs hstep a b
    cases hxw : points.data q with
    | none => rw [hxw] at hstep; simp at hstep
    | some xw =>
      rw [hxw] at hstep
      simp only [Option.some_bind, Option.pure_def, Option.some.injEq] at hstep
      subst hstep
      have key := fun a b => foldl_foldl_add_at_cells (sp.dofs_elem e).toList
        (sp.dofs_elem e).toList
        (fun (_ j : Int × Int) => sp.local_index j e)
        (fun (i _ : Int × Int) => sp.local_index i e)
        (fun (i j : Int × Int) =>
          laplace.element_form ((sp.dof_evaluator e points 1).call i q)
            ((sp.dof_evaluator e points 1).call j q) * xw.2) s a b
      simp only at key
      rw [key a b, key b a, hs a b]
      congr 1
      exact point_sum_symm (sp.dofs_elem e).toList (fun i => sp.local_index i e)
        (fun (i j : Int × Int) =>
          laplace.element_form ((sp.dof_evaluator e points 1).call i q)
            ((sp.dof_evaluator e points 1).call j q) * xw.2)
        (fun i j => by simp only [laplace.element_form]; ring) a b

/-- Every boundary facet of a mesh with at least one element per axis has facet
data. -/
theorem boundary_facet_isSome (m : regular_mesh) (f : edge_index)
    (hf : f ∈ m.boundary_facets)
    (hx : 1 ≤ m.mesh_x_.element_count) (hy : 1 ≤ m.mesh_y_.element_count) :
    ∃ d, m.facet f = some d := by
  rw [mem_boundary_facets] at hf
  obtain ⟨ix, iy, dir⟩ := f
  rcases hf with ⟨hdir, hiy, hix0, hix1⟩ | ⟨hdir, hix, hiy0, hiy1⟩
  · simp only at hdir hiy hix0 hix1
    subst hdir
    exact ⟨_, facet_horizontal_eq m ix iy hix0 hix1 (by omega)⟩
  · simp only at hdir hix hiy0 hiy1
    subst hdir
    exact ⟨_, facet_vertical_eq m ix iy (by omega) hiy0 hiy1⟩

/-- The local matrix of a boundary facet is computed. -/
theorem boundary_matrix_isSome (G : gauss_tables) (mesh : regular_mesh) (sp : space)
    (quad : quadrature) (eta : ℚ) (f : edge_index) (hmesh : quad.mesh_ = mesh)
    (hf : f ∈ mesh.boundary_facets)
    (hx : 1 ≤ mesh.mesh_x_.element_count) (hy : 1 ≤ mesh.mesh_y_.element_count)
    (hEx : 1 ≤ sp.space_x_.basis_.elements) (hEy : 1 ≤ sp.space_y_.basis_.elements) :
    ∃ M, laplace.boundary_matrix G mesh sp quad eta f = some M := by
  obtain ⟨d, hd⟩ := boundary_facet_isSome mesh f hf hx hy
  have hpts : quad.coordinates_facet G f
      = some ⟨quad.data_for_interval G d.span, d.position, d.direction⟩ := by
    simp only [quadrature.coordinates_facet, hmesh, hd, Option.bind_eq_bind, Option.some_bind,
      Option.pure_def]
  have hev : ∃ ev, sp.dof_evaluator_facet f
      ⟨quad.data_for_interval G d.span, d.position, d.direction⟩ 1 = some ev := by
    rw [← Option.isSome_iff_exists]
    cases hdir : f.dir with
    | horizontal =>
      obtain ⟨t, ht⟩ := evaluate_basis_facet_isSome sp.space_y_ f.iy 1 hEy
      simp only [space.dof_evaluator_facet, hdir, ht, Option.bind_eq_bind, Option.some_bind,
        Option.pure_def, Option.isSome_some]
    | vertical =>
      obtain ⟨t, ht⟩ := evaluate_basis_facet_isSome sp.space_x_ f.ix 1 hEx
      simp only [space.dof_evaluator_facet, hdir, ht, Option.bind_eq_bind, Option.some_bind,
        Option.pure_def, Option.isSome_some]
  obtain ⟨ev, hev⟩ := hev
  simp only [laplace.boundary_matrix, hd, hpts, hev, Option.bind_eq_bind, Option.some_bind]
  apply foldlM_option_isSome
  intro M q hq
  obtain ⟨xw, hxw⟩ := edge_data_isSome _ q hq
  rw [hxw]
  exact ⟨_, rfl⟩

/-- The local matrix of a boundary facet is symmetric. -/
theorem boundary_matrix_symm (G : gauss_tables) (mesh : regular_mesh) (sp : space)
    (quad : quadrature) (eta : ℚ) (f : edge_index) (M : lin.tensor2)
    (hM : laplace.boundary_matrix G mesh sp quad eta f = some M)
    (a b : Int) : M.cells a b = M.cells b a := by
  cases hd : mesh.facet f with
  | none =>
    simp only [laplace.boundary_matrix, hd, Option.bind_eq_bind, Option.none_bind,
      reduceCtorEq] at hM
  | some d =>
    cases hpts : quad.coordinates_facet G f with
    | none =>
      simp only [laplace.boundary_matrix, hd, hpts, Option.bind_eq_bind, Option.none_bind,
        Option.some_bind, reduceCtorEq] at hM
    | some points =>
      cases hev : sp.dof_evaluator_facet f points 1 with
      | none =>
        simp only [laplace.boundary_matrix, hd, hpts, hev, Option.bind_eq_bind,
          Option.none_bind, Option.some_bind, reduceCtorEq] at hM
      | some ev =>
        simp only [laplace.boundary_matrix, hd, hpts, hev, Option.bind_eq_bind,
          Option.some_bind] at hM
        refine foldlM_option_invariant
          (fun (M : lin.tensor2) => ∀ a b, M.cells a b = M.cells b a)
          _ _ ?_ _ M (fun _ _ => rfl) hM a b
        intro s q s2 _ hs hstep a b
        cases hxw : points.data q with
        | none => rw [hxw] at hstep; simp at hstep
        | some xw =>
          rw [hxw] at hstep
          simp only [Option.some_bind, Option.pure_def, Option.some.injEq] at hstep
          subst hstep
          have key := fun a b => foldl_foldl_add_at_cells (sp.dofs_on_facet f).toList
            (sp.dofs_on_facet f).toList
            (fun (_ j : Int × Int) => sp.facet_local_index j f)
            (fun (i _ : Int × Int) => sp.facet_local_index i f)
            (fun (i j : Int × Int) =>
              laplace.boundary_form eta d.normal.1 d.normal.2 (ev.call i q) (ev.call j q)
                * xw.2) s a b
          simp only at key
          rw [key a b, key b a, hs a b]
          congr 1
          exact point_sum_symm (sp.dofs_on_facet f).toList (fun i => sp.facet_local_index i f)
            (fun (i j : Int × Int) =>
              laplace.boundary_form eta d.normal.1 d.normal.2 (ev.call i q) (ev.call j q)
                * xw.2)
            (fun i j => by simp only [laplace.boundary_form]; ring) a b

/-- Two nested loops each pass of which appends a list of triplets append the
lists of all pairs, in the order of the loops. -/
theorem foldl_foldl_entries {α β : Type} (l : List α) (l2 : List β)
    (step : mumps.problem → α → β → mumps.problem) (g : α → β → List (Int × Int × ℚ))
    (hstep : ∀ pr i j, (step pr i j).entries = pr.entries ++ g i j)
    (pr : mumps.problem) :
    (l.foldl (fun (pr : mumps.problem) (i : α) =>
        l2.foldl (fun (pr : mumps.problem) (j : β) => step pr i j) pr) pr).entries
      = pr.entries ++ (List.product l l2).flatMap (fun ij => g ij.1 ij.2) := by
  have inner : ∀ (i : α) (pr : mumps.problem),
      (l2.foldl (fun (pr : mumps.problem) (j : β) => step pr i j) pr).entries
        = pr.entries ++ (l2.map (Prod.mk i)).flatMap (fun ij => g ij.1 ij.2) := by
    intro i pr
    induction l2 generalizing pr with
    | nil => simp
    | cons y t ih =>
      rw [List.foldl_cons, ih, hstep, List.map_cons, List.flatMap_cons, List.append_assoc]
  induction l generalizing pr with
  | nil => simp
  | cons x t ih =>
    have hp : List.product (x :: t) l2 = l2.map (Prod.mk x) ++ List.product t l2 :=
      List.product_cons x t l2
    rw [List.foldl_cons, ih, inner, hp, List.flatMap_append, List.append_assoc]

/-- A list of singletons flattens to the list of their members. -/
theorem flatMap_singleton_eq_map {α β : Type} (l : List α) (f : α → β) :
    l.flatMap (fun x => [f x]) = l.map f := by
  induction l with
  | nil => rfl
  | cons x t ih => rw [List.flatMap_cons, ih, List.map_cons, List.singleton_append]

/-- Keeping the member of each singleton under a condition is filtering. -/
theorem flatMap_ite_eq_map_filter {α β : Type} (l : List α) (c : α → Prop) [DecidablePred c]
    (f : α → β) :
    l.flatMap (fun x => if c x then [f x] else []) = (l.filter (fun x => decide (c x))).map f := by
  induction l with
  | nil => rfl
  | cons x t ih =>
    rw [List.flatMap_cons, ih]
    by_cases h : c x
    · rw [if_pos h, List.filter_cons_of_pos (by simpa using h), List.map_cons,
        List.singleton_append]
    · rw [if_neg h, List.filter_cons_of_neg (by simpa using h), List.nil_append]

/-- The triplets added by the element scatter: one per pair of DOFs of the
element, in the order of the loops. -/
theorem element_scatter_entries (sp : space) (e : Int × Int) (M : lin.tensor2)
    (problem : mumps.problem) :
    (laplace.element_scatter sp e M problem).entries
      = problem.entries
        ++ (List.product (sp.dofs_elem e).toList (sp.dofs_elem e).toList).map
            (laplace.element_triplet sp e M) := by
  rw [← flatMap_singleton_eq_map]
  exact foldl_foldl_entries (sp.dofs_elem e).toList (sp.dofs_elem e).toList
    (fun (pr : mumps.problem) (i j : Int × Int) =>
      pr.add (sp.global_index j + 1) (sp.global_index i + 1)
        (M.cells (sp.local_index j e) (sp.local_index i e)))
    (fun (i j : Int × Int) => [laplace.element_triplet sp e M (i, j)])
    (fun _ _ _ => rfl) problem

/-- The triplets added by the boundary scatter: one per pair of DOFs of the facet
whose entry is not zero, in the order of the loops. -/
theorem boundary_scatter_entries (sp : space) (f : edge_index) (M : lin.tensor2)
    (problem : mumps.problem) :
    (laplace.boundary_scatter sp f M problem).entries
      = problem.entries
        ++ ((List.product (sp.dofs_on_facet f).toList (sp.dofs_on_facet f).toList).filter
              (fun ij => decide ((laplace.boundary_triplet sp f M ij).2.2 ≠ 0))).map
            (laplace.boundary_triplet sp f M) := by
  rw [← flatMap_ite_eq_map_filter]
  refine foldl_foldl_entries (sp.dofs_on_facet f).toList (sp.dofs_on_facet f).toList
    (fun (pr : mumps.problem) (i j : Int × Int) =>
      if M.cells (sp.facet_local_index j f) (sp.facet_local_index i f) ≠ 0 then
        pr.add (sp.global_index j + 1) (sp.global_index i + 1)
          (M.cells (sp.facet_local_index j f) (sp.facet_local_index i f))
      else pr)
    (fun (i j : Int × Int) =>
      if (laplace.boundary_triplet sp f M (i, j)).2.2 ≠ 0 then
        [laplace.boundary_triplet sp f M (i, j)] else [])
    ?_ problem
  intro pr i j
  beta_reduce
  by_cases h : M.cells (sp.facet_local_index j f) (sp.facet_local_index i f) ≠ 0
  · have h2 : (laplace.boundary_triplet sp f M (i, j)).2.2 ≠ 0 := h
    rw [if_pos h, if_pos h2]
    rfl
  · have h2 : ¬ (laplace.boundary_triplet sp f M (i, j)).2.2 ≠ 0 := h
    rw [if_neg h, if_neg h2, List.append_nil]

/-- A list of pairs without repetition that is closed under exchanging the two
members is a rearrangement of its exchanged copy. -/
theorem perm_map_swap {α : Type} (l : List (α × α)) (hnd : l.Nodup)
    (hsym : ∀ x, x ∈ l → x.swap ∈ l) : (l.map Prod.swap).Perm l := by
  rw [List.perm_ext_iff_of_nodup (hnd.map Prod.swap_injective) hnd]
  intro x
  rw [List.mem_map]
  constructor
  · rintro ⟨y, hy, rfl⟩
    exact hsym y hy
  · intro hx
    exact ⟨x.swap, hsym x hx, Prod.swap_swap x⟩

/-- The triplets of a symmetric local matrix with row and column exchanged are a
rearrangement of the triplets. -/
theorem transpose_triplets_perm (l : List ((Int × Int) × (Int × Int))) (hnd : l.Nodup)
    (hsym : ∀ x, x ∈ l → x.swap ∈ l)
    (T : (Int × Int) × (Int × Int) → Int × Int × ℚ)
    (hT : ∀ x, laplace.transpose_triplet (T x) = T x.swap) :
    ((l.map T).map laplace.transpose_triplet).Perm (l.map T) := by
  have h1 : (l.map T).map laplace.transpose_triplet = (l.map Prod.swap).map T := by
    rw [List.map_map, List.map_map]
    apply List.map_congr_left
    intro x _
    exact hT x
  rw [h1]
  exact (perm_map_swap l hnd hsym).map T

/-- On the DOFs of the space, `global_index` lies in `[0, dof_count())`. -/
theorem global_index_mem (sp : space) (d : Int × Int) (hd : d ∈ sp.dofs.toList) :
    0 ≤ sp.global_index d ∧ sp.global_index d < sp.dof_count := by
  rw [mem_index_range_toList] at hd
  obtain ⟨⟨h1, h2⟩, h3, h4⟩ := hd
  exact linearized_bounds sp.space_x_.dof_count sp.space_y_.dof_count d.1 d.2 h1 h2 h3 h4

/-- On the DOFs of the space, `global_index` takes different values at different
DOFs. -/
theorem global_index_inj (sp : space) (d d2 : Int × Int) (hd : d ∈ sp.dofs.toList)
    (hd2 : d2 ∈ sp.dofs.toList) (h : sp.global_index d = sp.global_index d2) : d = d2 := by
  rw [mem_index_range_toList] at hd hd2
  obtain ⟨_, h3, h4⟩ := hd
  obtain ⟨_, k3, k4⟩ := hd2
  obtain ⟨e1, e2⟩ := linearized_inj sp.space_x_.dof_count sp.space_y_.dof_count
    d.1 d.2 d2.1 d2.2 h3 h4 k3 k4 h
  exact Prod.ext e1 e2

/-- C24: for every element `e` of the mesh the element loop computes a local matrix
`M` and its scatter adds, to the triplets already sent, exactly the list of
`(global_index(j) + 1, global_index(i) + 1, M(local_index(j), local_index(i)))`
over the pairs `(i, j)` of `dofs(e) x dofs(e)` in loop order: the pairs are
enumerated without repetition, there are `dof_count(e)^2` of them, the test index
`j` gives the row and the trial index `i` the column, both 1-based; and when the
DOFs of the element are DOFs of the space, rows and columns lie in
`[1, dof_count()]` and different pairs give different positions. -/
theorem element_scatter_spec (G : gauss_tables) (sp : space) (quad : quadrature)
    (e : Int × Int) (problem : mumps.problem)
    (he : e ∈ quad.mesh_.elements.toList)
    (hpx : 0 ≤ sp.space_x_.degree) (hpy : 0 ≤ sp.space_y_.degree) :
    ∃ M : lin.tensor2,
      laplace.element_matrix G sp quad e = some M ∧
      laplace.element_step G sp quad problem e
        = some (laplace.element_scatter sp e M problem) ∧
      (laplace.element_scatter sp e M problem).entries
        = problem.entries
          ++ (List.product (sp.dofs_elem e).toList (sp.dofs_elem e).toList).map
              (laplace.element_triplet sp e M) ∧
      (List.product (sp.dofs_elem e).toList (sp.dofs_elem e).toList).Nodup ∧
      ((List.product (sp.dofs_elem e).toList (sp.dofs_elem e).toList).length : Int)
        = sp.dof_count_elem e * sp.dof_count_elem e ∧
      (∀ i j : Int × Int, i ∈ (sp.dofs_elem e).toList → j ∈ (sp.dofs_elem e).toList →
        (i, j) ∈ List.product (sp.dofs_elem e).toList (sp.dofs_elem e).toList ∧
        laplace.element_triplet sp e M (i, j)
          = (sp.global_index j + 1, sp.global_index i + 1,
              M.cells (sp.local_index j e) (sp.local_index i e))) ∧
      ((∀ d ∈ (sp.dofs_elem e).toList, d ∈ sp.dofs.toList) →
        (∀ t ∈ (List.product (sp.dofs_elem e).toList (sp.dofs_elem e).toList).map
              (laplace.element_triplet sp e M),
          (1 ≤ t.1 ∧ t.1 ≤ sp.dof_count) ∧ (1 ≤ t.2.1 ∧ t.2.1 ≤ sp.dof_count)) ∧
        (((List.product (sp.dofs_elem e).toList (sp.dofs_elem e).toList).map
              (laplace.element_triplet sp e M)).map (fun t => (t.1, t.2.1))).Nodup) := by
  obtain ⟨M, hM⟩ := element_matrix_isSome G sp quad e he
  have hnd : (List.product (sp.dofs_elem e).toList (sp.dofs_elem e).toList).Nodup :=
    List.Nodup.product (nodup_index_range_toList _) (nodup_index_range_toList _)
  have hlen1 : ((sp.dofs_elem e).toList.length : Int) = sp.dof_count_elem e :=
    length_index_range (sp.dofs_elem e) (sp.space_x_.degree + 1) (sp.space_y_.degree + 1)
      (by omega) (by omega) rfl rfl
  refine ⟨M, hM, ?_, element_scatter_entries sp e M problem, hnd, ?_, ?_, ?_⟩
  · simp only [laplace.element_step, hM, Option.bind_eq_bind, Option.some_bind, Option.pure_def]
  · have hl : (List.product (sp.dofs_elem e).toList (sp.dofs_elem e).toList).length
        = (sp.dofs_elem e).toList.length * (sp.dofs_elem e).toList.length :=
      List.length_product _ _
    rw [hl, Nat.cast_mul, hlen1]
  · intro i j hi hj
    exact ⟨List.mem_product.2 ⟨hi, hj⟩, rfl⟩
  · intro hvalid
    constructor
    · intro t ht
      rw [List.mem_map] at ht
      obtain ⟨⟨i, j⟩, hij, rfl⟩ := ht
      have hmem : i ∈ (sp.dofs_elem e).toList ∧ j ∈ (sp.dofs_elem e).toList :=
        List.mem_product.1 hij
      have hi := global_index_mem sp i (hvalid i hmem.1)
      have hj := global_index_mem sp j (hvalid j hmem.2)
      simp only [laplace.element_triplet]
      omega
    · rw [List.map_map]
      apply List.Nodup.map_on _ hnd
      rintro ⟨i, j⟩ hij ⟨i2, j2⟩ hij2 heq
      have hmem : i ∈ (sp.dofs_elem e).toList ∧ j ∈ (sp.dofs_elem e).toList :=
        List.mem_product.1 hij
      have hmem2 : i2 ∈ (sp.dofs_elem e).toList ∧ j2 ∈ (sp.dofs_elem e).toList :=
        List.mem_product.1 hij2
      simp only [Function.comp, laplace.element_triplet, Prod.mk.injEq] at heq
      have e1 : j = j2 := global_index_inj sp j j2 (hvalid j hmem.2) (hvalid j2 hmem2.2)
        (by omega)
      have e2 : i = i2 := global_index_inj sp i i2 (hvalid i hmem.1) (hvalid i2 hmem2.1)
        (by omega)
      rw [e1, e2]

/-- C24 at element `(1, 2)` of the sample space with the three-point sample rule. -/
theorem element_scatter_spec_witness :
    ∃ M : lin.tensor2,
      laplace.element_matrix sample_gauss sample_space sample_quadrature (1, 2) = some M ∧
      laplace.element_step sample_gauss sample_space sample_quadrature ⟨16, []⟩ (1, 2)
        = some (laplace.element_scatter sample_space (1, 2) M ⟨16, []⟩) ∧
      (laplace.element_scatter sample_space (1, 2) M ⟨16, []⟩).entries
        = [] ++ (List.product (sample_space.dofs_elem (1, 2)).toList
                  (sample_space.dofs_elem (1, 2)).toList).map
              (laplace.element_triplet sample_space (1, 2) M) :=
  (element_scatter_spec sample_gauss sample_space sample_quadrature (1, 2) ⟨16, []⟩
    (by decide) (by decide) (by decide)).imp (fun _ h => ⟨h.1, h.2.1, h.2.2.1⟩)

/-- C25: for every boundary facet `f` (mesh and spaces with at least one element per
axis) the boundary loop computes a local matrix `M` and its scatter adds, to the
triplets already sent, the list of
`(global_index(j) + 1, global_index(i) + 1, M(jloc, iloc))` over those pairs
`(i, j)` of `dofs_on_facet(f) x dofs_on_facet(f)`, in loop order, whose entry
`M(jloc, iloc)` is not zero: the contributing pairs are listed without repetition,
a pair contributes iff its entry is nonzero, the triplet of a pair is among the
added ones iff its entry is nonzero, and no added triplet has the value 0. -/
theorem boundary_scatter_spec (G : gauss_tables) (mesh : regular_mesh) (sp : space)
    (quad : quadrature) (eta : ℚ) (f : edge_index) (problem : mumps.problem)
    (hmesh : quad.mesh_ = mesh) (hf : f ∈ mesh.boundary_facets)
    (hx : 1 ≤ mesh.mesh_x_.element_count) (hy : 1 ≤ mesh.mesh_y_.element_count)
    (hEx : 1 ≤ sp.space_x_.basis_.elements) (hEy : 1 ≤ sp.space_y_.basis_.elements) :
    ∃ M : lin.tensor2,
      laplace.boundary_matrix G mesh sp quad eta f = some M ∧
      laplace.boundary_step G mesh sp quad eta problem f
        = some (laplace.boundary_scatter sp f M problem) ∧
      (laplace.boundary_scatter sp f M problem).entries
        = problem.entries
          ++ ((List.product (sp.dofs_on_facet f).toList (sp.dofs_on_facet f).toList).filter
                (fun ij => decide ((laplace.boundary_triplet sp f M ij).2.2 ≠ 0))).map
              (laplace.boundary_triplet sp f M) ∧
      (∀ i j : Int × Int, i ∈ (sp.dofs_on_facet f).toList → j ∈ (sp.dofs_on_facet f).toList →
        laplace.boundary_triplet sp f M (i, j)
          = (sp.global_index j + 1, sp.global_index i + 1,
              M.cells (sp.facet_local_index j f) (sp.facet_local_index i f)) ∧
        ((i, j) ∈ (List.product (sp.dofs_on_facet f).toList (sp.dofs_on_facet f).toList).filter
            (fun ij => decide ((laplace.boundary_triplet sp f M ij).2.2 ≠ 0))
          ↔ M.cells (sp.facet_local_index j f) (sp.facet_local_index i f) ≠ 0) ∧
        (laplace.boundary_triplet sp f M (i, j)
            ∈ ((List.product (sp.dofs_on_facet f).toList (sp.dofs_on_facet f).toList).filter
                (fun ij => decide ((laplace.boundary_triplet sp f M ij).2.2 ≠ 0))).map
              (laplace.boundary_triplet sp f M)
          ↔ M.cells (sp.facet_local_index j f) (sp.facet_local_index i f) ≠ 0)) ∧
      ((List.product (sp.dofs_on_facet f).toList (sp.dofs_on_facet f).toList).filter
          (fun ij => decide ((laplace.boundary_triplet sp f M ij).2.2 ≠ 0))).Nodup ∧
      (∀ t ∈ ((List.product (sp.dofs_on_facet f).toList (sp.dofs_on_facet f).toList).filter
                (fun ij => decide ((laplace.boundary_triplet sp f M ij).2.2 ≠ 0))).map
              (laplace.boundary_triplet sp f M),
        t.2.2 ≠ 0) := by
  obtain ⟨M, hM⟩ := boundary_matrix_isSome G mesh sp quad eta f hmesh hf hx hy hEx hEy
  have hnd : (List.product (sp.dofs_on_facet f).toList (sp.dofs_on_facet f).toList).Nodup :=
    List.Nodup.product (nodup_index_range_toList _) (nodup_index_range_toList _)
  have hval : ∀ t ∈ ((List.product (sp.dofs_on_facet f).toList
        (sp.dofs_on_facet f).toList).filter
          (fun ij => decide ((laplace.boundary_triplet sp f M ij).2.2 ≠ 0))).map
        (laplace.boundary_triplet sp f M), t.2.2 ≠ 0 := by
    intro t ht
    rw [List.mem_map] at ht
    obtain ⟨ij, hij, rfl⟩ := ht
    rw [List.mem_filter] at hij
    exact of_decide_eq_true hij.2
  refine ⟨M, hM, ?_, boundary_scatter_entries sp f M problem, ?_, hnd.filter _, hval⟩
  · simp only [laplace.boundary_step, hM, Option.bind_eq_bind, Option.some_bind,
      Option.pure_def]
  · intro i j hi hj
    have hmem : (i, j) ∈ List.product (sp.dofs_on_facet f).toList (sp.dofs_on_facet f).toList :=
      List.mem_product.2 ⟨hi, hj⟩
    refine ⟨rfl, ?_, ?_⟩
    · rw [List.mem_filter]
      constructor
      · rintro ⟨_, h2⟩
        exact of_decide_eq_true h2
      · intro h
        exact ⟨hmem, decide_eq_true h⟩
    · constructor
      · intro hin
        exact hval _ hin
      · intro h
        rw [List.mem_map]
        refine ⟨(i, j), ?_, rfl⟩
        rw [List.mem_filter]
        exact ⟨hmem, decide_eq_true h⟩

/-- C25 at the bottom facet `(1, 0)` of the sample space with the three-point sample
rule and `eta = 1000`. -/
theorem boundary_scatter_spec_witness :
    ∃ M : lin.tensor2,
      laplace.boundary_matrix sample_gauss sample_mesh sample_space sample_quadrature 1000
        ⟨1, 0, orientation.horizontal⟩ = some M ∧
      laplace.boundary_step sample_gauss sample_mesh sample_space sample_quadrature 1000
          ⟨16, []⟩ ⟨1, 0, orientation.horizontal⟩
        = some (laplace.boundary_scatter sample_space ⟨1, 0, orientation.horizontal⟩ M
            ⟨16, []⟩) ∧
      (∀ t ∈ (laplace.boundary_scatter sample_space ⟨1, 0, orientation.horizontal⟩ M
            ⟨16, []⟩).entries, t.2.2 ≠ 0) :=
  (boundary_scatter_spec sample_gauss sample_mesh sample_space sample_quadrature 1000
    ⟨1, 0, orientation.horizontal⟩ ⟨16, []⟩ rfl (by decide) (by decide) (by decide)
    (by decide) (by decide)).imp
    (fun _ h => ⟨h.1, h.2.1, fun t ht => h.2.2.2.2.2 t (by rw [h.2.2.1] at ht; exact ht)⟩)

/-- The triplets of an element with a symmetric local matrix, with row and column
exchanged, are a rearrangement of the triplets. -/
theorem element_triplets_perm (sp : space) (e : Int × Int) (M : lin.tensor2)
    (hsym : ∀ a b, M.cells a b = M.cells b a) :
    (((List.product (sp.dofs_elem e).toList (sp.dofs_elem e).toList).map
        (laplace.element_triplet sp e M)).map laplace.transpose_triplet).Perm
      ((List.product (sp.dofs_elem e).toList (sp.dofs_elem e).toList).map
        (laplace.element_triplet sp e M)) := by
  apply transpose_triplets_perm
  · exact List.Nodup.product (nodup_index_range_toList _) (nodup_index_range_toList _)
  · rintro ⟨i, j⟩ hx
    have h := List.mem_product.1 hx
    exact List.mem_product.2 ⟨h.2, h.1⟩
  · rintro ⟨i, j⟩
    simp only [laplace.transpose_triplet, laplace.element_triplet, Prod.swap_prod_mk,
      Prod.mk.injEq, true_and]
    exact hsym _ _

/-- The triplets of a boundary facet with a symmetric local matrix, with row and
column exchanged, are a rearrangement of the triplets. -/
theorem boundary_triplets_perm (sp : space) (f : edge_index) (M : lin.tensor2)
    (hsym : ∀ a b, M.cells a b = M.cells b a) :
    ((((List.product (sp.dofs_on_facet f).toList (sp.dofs_on_facet f).toList).filter
          (fun ij => decide ((laplace.boundary_triplet sp f M ij).2.2 ≠ 0))).map
        (laplace.boundary_triplet sp f M)).map laplace.transpose_triplet).Perm
      (((List.product (sp.dofs_on_facet f).toList (sp.dofs_on_facet f).toList).filter
          (fun ij => decide ((laplace.boundary_triplet sp f M ij).2.2 ≠ 0))).map
        (laplace.boundary_triplet sp f M)) := by
  apply transpose_triplets_perm
  · exact (List.Nodup.product (nodup_index_range_toList _) (nodup_index_range_toList _)).filter _
  · rintro ⟨i, j⟩ hx
    rw [List.mem_filter] at hx ⊢
    have h := List.mem_product.1 hx.1
    refine ⟨List.mem_product.2 ⟨h.2, h.1⟩, ?_⟩
    have h2 : (laplace.boundary_triplet sp f M (i, j)).2.2 ≠ 0 := of_decide_eq_true hx.2
    apply decide_eq_true
    simp only [laplace.boundary_triplet, Prod.swap_prod_mk] at h2 ⊢
    rw [hsym]
    exact h2
  · rintro ⟨i, j⟩
    simp only [laplace.transpose_triplet, laplace.boundary_triplet, Prod.swap_prod_mk,
      Prod.mk.injEq, true_and]
    exact hsym _ _

/-- The triplets added by the element loop, with row and column exchanged, are a
rearrangement of the triplets added. -/
theorem assemble_elements_perm (G : gauss_tables) (mesh : regular_mesh) (sp : space)
    (quad : quadrature) (pr pr2 : mumps.problem)
    (h : laplace.assemble_elements G mesh sp quad pr = some pr2) :
    ∃ added : List (Int × Int × ℚ), pr2.entries = pr.entries ++ added ∧
      (added.map laplace.transpose_triplet).Perm added := by
  refine foldlM_option_invariant
    (fun (p : mumps.problem) => ∃ added : List (Int × Int × ℚ),
      p.entries = pr.entries ++ added ∧ (added.map laplace.transpose_triplet).Perm added)
    (laplace.element_step G sp quad) mesh.elements.toList ?_ pr pr2
    ⟨[], by simp, List.Perm.refl _⟩ h
  rintro p e p2 _ ⟨added, hadd, hperm⟩ hstep
  cases hM : laplace.element_matrix G sp quad e with
  | none =>
    simp only [laplace.element_step, hM, Option.bind_eq_bind, Option.none_bind,
      reduceCtorEq] at hstep
  | some M =>
    simp only [laplace.element_step, hM, Option.bind_eq_bind, Option.some_bind,
      Option.pure_def, Option.some.injEq] at hstep
    subst hstep
    refine ⟨added ++ (List.product (sp.dofs_elem e).toList (sp.dofs_elem e).toList).map
      (laplace.element_triplet sp e M), ?_, ?_⟩
    · rw [element_scatter_entries, hadd, List.append_assoc]
    · rw [List.map_append]
      exact hperm.append (element_triplets_perm sp e M (element_matrix_symm G sp quad e M hM))

/-- The triplets added by the boundary loop, with row and column exchanged, are a
rearrangement of the triplets added. -/
theorem assemble_boundary_perm (G : gauss_tables) (mesh : regular_mesh) (sp : space)
    (quad : quadrature) (eta : ℚ) (pr pr2 : mumps.problem)
    (h : laplace.assemble_boundary G mesh sp quad eta pr = some pr2) :
    ∃ added : List (Int × Int × ℚ), pr2.entries = pr.entries ++ added ∧
      (added.map laplace.transpose_triplet).Perm added := by
  refine foldlM_option_invariant
    (fun (p : mumps.problem) => ∃ added : List (Int × Int × ℚ),
      p.entries = pr.entries ++ added ∧ (added.map laplace.transpose_triplet).Perm added)
    (laplace.boundary_step G mesh sp quad eta) mesh.boundary_facets ?_ pr pr2
    ⟨[], by simp, List.Perm.refl _⟩ h
  rintro p f p2 _ ⟨added, hadd, hperm⟩ hstep
  cases hM : laplace.boundary_matrix G mesh sp quad eta f with
  | none =>
    simp only [laplace.boundary_step, hM, Option.bind_eq_bind, Option.none_bind,
      reduceCtorEq] at hstep
  | some M =>
    simp only [laplace.boundary_step, hM, Option.bind_eq_bind, Option.some_bind,
      Option.pure_def, Option.some.injEq] at hstep
    subst hstep
    refine ⟨added ++ ((List.product (sp.dofs_on_facet f).toList
        (sp.dofs_on_facet f).toList).filter
          (fun ij => decide ((laplace.boundary_triplet sp f M ij).2.2 ≠ 0))).map
        (laplace.boundary_triplet sp f M), ?_, ?_⟩
    · rw [boundary_scatter_entries, hadd, List.append_assoc]
    · rw [List.map_append]
      exact hperm.append
        (boundary_triplets_perm sp f M (boundary_matrix_symm G mesh sp quad eta f M hM))

/-- The two matrix loops run to the end. -/
theorem assemble_matrix_isSome (G : gauss_tables) (mesh : regular_mesh) (sp : space)
    (quad : quadrature) (eta : ℚ) (problem : mumps.problem) (hmesh : quad.mesh_ = mesh)
    (hx : 1 ≤ mesh.mesh_x_.element_count) (hy : 1 ≤ mesh.mesh_y_.element_count)
    (hEx : 1 ≤ sp.space_x_.basis_.elements) (hEy : 1 ≤ sp.space_y_.basis_.elements) :
    ∃ pr1 pr2, laplace.assemble_elements G mesh sp quad problem = some pr1 ∧
      laplace.assemble_boundary G mesh sp quad eta pr1 = some pr2 ∧
      laplace.assemble_matrix G mesh sp quad eta problem = some pr2 := by
  obtain ⟨pr1, h1⟩ : ∃ pr1, laplace.assemble_elements G mesh sp quad problem = some pr1 := by
    apply foldlM_option_isSome
    intro p e he
    obtain ⟨M, hM⟩ := element_matrix_isSome G sp quad e (by rw [hmesh]; exact he)
    refine ⟨laplace.element_scatter sp e M p, ?_⟩
    simp only [laplace.element_step, hM, Option.bind_eq_bind, Option.some_bind,
      Option.pure_def]
  obtain ⟨pr2, h2⟩ : ∃ pr2, laplace.assemble_boundary G mesh sp quad eta pr1 = some pr2 := by
    apply foldlM_option_isSome
    intro p f hf
    obtain ⟨M, hM⟩ := boundary_matrix_isSome G mesh sp quad eta f hmesh hf hx hy hEx hEy
    refine ⟨laplace.boundary_scatter sp f M p, ?_⟩
    simp only [laplace.boundary_step, hM, Option.bind_eq_bind, Option.some_bind,
      Option.pure_def]
  refine ⟨pr1, pr2, h1, h2, ?_⟩
  simp only [laplace.assemble_matrix, h1, Option.bind_eq_bind, Option.some_bind, h2]

/-- C26: the element form and the boundary form keep their value when `u` and `v`
are exchanged; on a mesh and spaces with at least one element per axis the local
matrix accumulated for every element and for every boundary facet is computed and
satisfies `M(a, b) = M(b, a)`; and the two matrix loops run to the end and the
list of triplets they send to the solver is, with row and column exchanged in
every triplet, a rearrangement of itself (the same multiset). -/
theorem assembly_symmetric (G : gauss_tables) (mesh : regular_mesh) (sp : space)
    (quad : quadrature) (eta : ℚ) (problem : mumps.problem) (hmesh : quad.mesh_ = mesh)
    (hx : 1 ≤ mesh.mesh_x_.element_count) (hy : 1 ≤ mesh.mesh_y_.element_count)
    (hEx : 1 ≤ sp.space_x_.basis_.elements) (hEy : 1 ≤ sp.space_y_.basis_.elements) :
    (∀ u v : value_type, laplace.element_form u v = laplace.element_form v u) ∧
    (∀ (nx ny : ℚ) (u v : value_type),
      laplace.boundary_form eta nx ny u v = laplace.boundary_form eta nx ny v u) ∧
    (∀ e ∈ mesh.elements.toList, ∃ M : lin.tensor2,
      laplace.element_matrix G sp quad e = some M ∧ ∀ a b : Int, M.cells a b = M.cells b a) ∧
    (∀ f ∈ mesh.boundary_facets, ∃ M : lin.tensor2,
      laplace.boundary_matrix G mesh sp quad eta f = some M ∧
      ∀ a b : Int, M.cells a b = M.cells b a) ∧
    (∃ (pr2 : mumps.problem) (added : List (Int × Int × ℚ)),
      laplace.assemble_matrix G mesh sp quad eta problem = some pr2 ∧
      pr2.entries = problem.entries ++ added ∧
      (added.map laplace.transpose_triplet).Perm added) := by
  refine ⟨?_, ?_, ?_, ?_, ?_⟩
  · intro u v
    simp only [laplace.element_form]
    ring
  · intro nx ny u v
    simp only [laplace.boundary_form]
    ring
  · intro e he
    obtain ⟨M, hM⟩ := element_matrix_isSome G sp quad e (by rw [hmesh]; exact he)
    exact ⟨M, hM, element_matrix_symm G sp quad e M hM⟩
  · intro f hf
    obtain ⟨M, hM⟩ := boundary_matrix_isSome G mesh sp quad eta f hmesh hf hx hy hEx hEy
    exact ⟨M, hM, boundary_matrix_symm G mesh sp quad eta f M hM⟩
  · obtain ⟨pr1, pr2, h1, h2, h3⟩ :=
      assemble_matrix_isSome G mesh sp quad eta problem hmesh hx hy hEx hEy
    obtain ⟨add1, e1, p1⟩ := assemble_elements_perm G mesh sp quad problem pr1 h1
    obtain ⟨add2, e2, p2⟩ := assemble_boundary_perm G mesh sp quad eta pr1 pr2 h2
    refine ⟨pr2, add1 ++ add2, h3, ?_, ?_⟩
    · rw [e2, e1, List.append_assoc]
    · rw [List.map_append]
      exact p1.append p2

/-- C26 at the sample mesh and space with the three-point sample rule and
`eta = 1000`. -/
theorem assembly_symmetric_witness :
    ∃ (pr2 : mumps.problem) (added : List (Int × Int × ℚ)),
      laplace.assemble_matrix sample_gauss sample_mesh sample_space sample_quadrature 1000
        ⟨16, []⟩ = some pr2 ∧
      pr2.entries = [] ++ added ∧
      (added.map laplace.transpose_triplet).Perm added :=
  (assembly_symmetric sample_gauss sample_mesh sample_space sample_quadrature 1000 ⟨16, []⟩
    rfl (by decide) (by decide) (by decide) (by decide)).2.2.2.2

/-! ## C27: the Dirichlet data and the exact solution -/

/-- C27: the Dirichlet data of the driver is not the boundary value of its exact
solution.  At the point `(1/2, 0)` of the bottom edge of the unit square `g`
returns `1/4`, while `sol` returns `1` for every sine with `sin 0 = 0`; and at
every point `(x, 0)` with `0 <= x < 1` of the bottom edge, `g(x, 0) < sol(x, 0)`. -/
theorem dirichlet_data_mismatch :
    laplace.g (1 / 2) 0 = 1 / 4 ∧
    (∀ (sin : ℚ → ℚ) (pi : ℚ), sin 0 = 0 → laplace.sol sin pi (1 / 2) 0 = 1) ∧
    (∀ (sin : ℚ → ℚ) (pi : ℚ) (x : ℚ), sin 0 = 0 → 0 ≤ x → x < 1 →
      laplace.g x 0 < laplace.sol sin pi x 0) := by
  refine ⟨?_, ?_, ?_⟩
  · simp only [laplace.g]
    norm_num
  · intro sin pi hsin
    simp only [laplace.sol, mul_zero, hsin, add_zero]
  · intro sin pi x hsin hx0 hx1
    simp only [laplace.g, laplace.sol, mul_zero, hsin, add_zero]
    nlinarith

/-! ## C36: the knot vector of `create_basis` is nondecreasing -/

/-- A list made of `P` copies of `a`, then `R` copies of each value of an increasing
sequence between `a` and `b`, then `P` copies of `b`, is nondecreasing. -/
theorem sorted_blocks (P D R : Nat) (a b : ℚ) (g : Nat → ℚ) (hab : a ≤ b)
    (hga : ∀ d : Nat, d < D → a ≤ g d) (hgb : ∀ d : Nat, d < D → g d ≤ b)
    (hg : ∀ d e : Nat, d < e → e < D → g d ≤ g e) :
    (List.replicate P a
      ++ ((List.range D).flatMap (fun (d : Nat) => List.replicate R (g d))
        ++ List.replicate P b)).Sorted (· ≤ ·) := by
  have hmem : ∀ (D2 : Nat) (x : ℚ),
      x ∈ (List.range D2).flatMap (fun (d : Nat) => List.replicate R (g d)) →
      ∃ d : Nat, d < D2 ∧ x = g d := by
    intro D2 x hx
    rw [List.mem_flatMap] at hx
    obtain ⟨d, hd, hxd⟩ := hx
    exact ⟨d, List.mem_range.1 hd, (List.mem_replicate.1 hxd).2⟩
  have hmid : ∀ D2 : Nat, D2 ≤ D →
      ((List.range D2).flatMap (fun (d : Nat) => List.replicate R (g d))).Pairwise (· ≤ ·) := by
    intro D2
    induction D2 with
    | zero => intro _; simp
    | succ D2 ih =>
      intro hD2
      rw [List.range_succ, List.flatMap_append, List.pairwise_append]
      refine ⟨ih (by omega), ?_, ?_⟩
      · simp only [List.flatMap_cons, List.flatMap_nil, List.append_nil]
        rw [List.pairwise_replicate]
        exact Or.inr (le_refl _)
      · intro x hx y hy
        obtain ⟨d, hd, rfl⟩ := hmem D2 x hx
        simp only [List.flatMap_cons, List.flatMap_nil, List.append_nil] at hy
        rw [(List.mem_replicate.1 hy).2]
        exact hg d D2 hd (by omega)
  unfold List.Sorted
  rw [List.pairwise_append]
  refine ⟨?_, ?_, ?_⟩
  · rw [List.pairwise_replicate]
    exact Or.inr (le_refl _)
  · rw [List.pairwise_append]
    refine ⟨hmid D (le_refl _), ?_, ?_⟩
    · rw [List.pairwise_replicate]
      exact Or.inr (le_refl _)
    · intro x hx y hy
      obtain ⟨d, hd, rfl⟩ := hmem D x hx
      rw [(List.mem_replicate.1 hy).2]
      exact hgb d hd
  · intro x hx y hy
    rw [(List.mem_replicate.1 hx).2]
    rw [List.mem_append] at hy
    rcases hy with hy | hy
    · obtain ⟨d, hd, rfl⟩ := hmem D y hy
      exact hga d hd
    · rw [(List.mem_replicate.1 hy).2]
      exact hab

/-- The knot vector of `create_basis` as a list: `p + 1` copies of `a`, then
`repeated_nodes + 1` copies of each interior knot, then `p + 1` copies of `b`. -/
theorem create_basis_knot_eq (L : lerp_overloads) (a b : ℚ) (p elements repeated_nodes : Int)
    (hp : 0 ≤ p) (he : 1 ≤ elements) (hr : 0 ≤ repeated_nodes) :
    erikkson.create_basis_knot L a b p elements repeated_nodes
      = List.replicate (p + 1).toNat a
        ++ ((List.range (elements - 1).toNat).flatMap (fun (d : Nat) =>
              List.replicate (repeated_nodes + 1).toNat
                (erikkson.interior_knot L a b elements (1 + (d : Int))))
          ++ List.replicate (p + 1).toNat b) := by
  have hP : p + 1 = (((p + 1).toNat : Nat) : Int) := by omega
  have hD : elements - 1 = (((elements - 1).toNat : Nat) : Int) := by omega
  have hR : repeated_nodes + 1 = (((repeated_nodes + 1).toNat : Nat) : Int) := by omega
  have hsz : 2 * (p + 1) + (elements + 1 - 2) * (repeated_nodes + 1)
      = ((2 * (p + 1).toNat + (elements - 1).toNat * (repeated_nodes + 1).toNat : Nat) : Int) := by
    push_cast
    rw [← hP, ← hD, ← hR]
    ring
  exact fill_knots_eq L _ a b p elements repeated_nodes _ _ _ hP hD hR
    (by rw [List.length_replicate, hsz, Int.toNat_ofNat])

/-- C36: for `a < b`, `p >= 0`, `elements >= 1` and `repeated_nodes >= 0` (the two
external `lerp` overloads being linear interpolation) the knot vector of the
erikkson `create_basis` is nondecreasing.  It consists of `p + 1` copies of `a`,
`repeated_nodes + 1` copies of each interior breakpoint `i = 1, ..., elements - 1`
in order, and `p + 1` copies of `b`; breakpoint `i` is
`a + s(i / elements) * (b - a)` with `s(t) = 9/5 * t` for `t < 1/2` and
`s(t) = 1/5 * t + 4/5` otherwise; the breakpoints increase strictly with `i` and
lie strictly between `a` and `b`. -/
theorem create_basis_knot_sorted (L : lerp_overloads)
    (hv : ∀ t a b : ℚ, L.value t a b = (1 - t) * a + t * b)
    (hi : ∀ (i n : Int) (a b : ℚ), L.indexed i n a b = L.value ((i : ℚ) / (n : ℚ)) a b)
    (a b : ℚ) (hab : a < b) (p elements repeated_nodes : Int)
    (hp : 0 ≤ p) (he : 1 ≤ elements) (hr : 0 ≤ repeated_nodes) :
    (erikkson.create_basis_knot L a b p elements repeated_nodes).Sorted (· ≤ ·) ∧
    erikkson.create_basis_knot L a b p elements repeated_nodes
      = List.replicate (p + 1).toNat a
        ++ ((List.range (elements - 1).toNat).flatMap (fun (d : Nat) =>
              List.replicate (repeated_nodes + 1).toNat
                (erikkson.interior_knot L a b elements (1 + (d : Int))))
          ++ List.replicate (p + 1).toNat b) ∧
    (∀ i : Int, 1 ≤ i → i ≤ elements - 1 →
      erikkson.interior_knot L a b elements i
        = a + (if (i : ℚ) / (elements : ℚ) < (1 / 2 : ℚ)
                then 9 / 5 * ((i : ℚ) / (elements : ℚ))
                else 1 / 5 * ((i : ℚ) / (elements : ℚ)) + 4 / 5) * (b - a) ∧
      a < erikkson.interior_knot L a b elements i ∧
      erikkson.interior_knot L a b elements i < b) ∧
    (∀ i j : Int, 1 ≤ i → i < j → j ≤ elements - 1 →
      erikkson.interior_knot L a b elements i < erikkson.interior_knot L a b elements j) := by
  refine ⟨?_, create_basis_knot_eq L a b p elements repeated_nodes hp he hr, ?_, ?_⟩
  · rw [create_basis_knot_eq L a b p elements repeated_nodes hp he hr]
    apply sorted_blocks _ _ _ a b _ (le_of_lt hab)
    · intro d hd
      exact le_of_lt (interior_knot_mem L hv hi a b hab elements (1 + (d : Int))
        (by omega) (by omega)).1
    · intro d hd
      exact le_of_lt (interior_knot_mem L hv hi a b hab elements (1 + (d : Int))
        (by omega) (by omega)).2
    · intro d e hde _
      exact le_of_lt (interior_knot_lt L hv hi a b hab elements he (1 + (d : Int))
        (1 + (e : Int)) (by omega))
  · intro i hi1 hie
    exact ⟨interior_knot_eq L hv hi a b elements i,
      (interior_knot_mem L hv hi a b hab elements i hi1 hie).1,
      (interior_knot_mem L hv hi a b hab elements i hi1 hie).2⟩
  · intro i j _ hij _
    exact interior_knot_lt L hv hi a b hab elements he i j hij

/-- C36 at the interval `[0, 1]`, `p = 1`, `elements = 3` and `repeated_nodes = 1`
with linear interpolation. -/
theorem create_basis_knot_sorted_witness :
    (erikkson.create_basis_knot linear_lerp 0 1 1 3 1).Sorted (· ≤ ·) ∧
    erikkson.interior_knot linear_lerp 0 1 3 1 < erikkson.interior_knot linear_lerp 0 1 3 2 :=
  ⟨(create_basis_knot_sorted linear_lerp (fun _ _ _ => rfl) (fun _ _ _ _ => rfl) 0 1
      (by norm_num) 1 3 1 (by decide) (by decide) (by decide)).1,
   (create_basis_knot_sorted linear_lerp (fun _ _ _ => rfl) (fun _ _ _ _ => rfl) 0 1
      (by norm_num) 1 3 1 (by decide) (by decide) (by decide)).2.2.2 1 2
      (by decide) (by decide) (by decide)⟩

/-! ## C31, C33: the knot vector of `make_bspline_basis` and its spans -/

/-- A loop that appends a list in every pass appends the lists of all passes. -/
theorem foldl_append_flatMap {α β : Type} (l : List α) (f : α → List β) (init : List β) :
    l.foldl (fun (acc : List β) (x : α) => acc ++ f x) init = init ++ l.flatMap f := by
  induction l generalizing init with
  | nil => simp
  | cons x t ih => rw [List.foldl_cons, ih, List.flatMap_cons, List.append_assoc]

/-- The knot vector of `make_bspline_basis` as a list. -/
theorem make_bspline_basis_knot_eq (points : partition) (p c : Int) :
    make_bspline_basis_knot points p c
      = List.replicate (p + 1).toNat (vec_at points 0)
        ++ ((List.range ((points.length : Int) - 2).toNat).flatMap (fun (d : Nat) =>
              List.replicate (p - c).toNat (vec_at points (1 + (d : Int))))
          ++ List.replicate (p + 1).toNat (vec_at points ((points.length : Int) - 1))) := by
  have h2 : ((points.length : Int) - 1 - 1).toNat = ((points.length : Int) - 2).toNat := by
    congr 1
    ring
  simp only [make_bspline_basis_knot, List.nil_append, h2]
  rw [foldl_append_flatMap (List.range ((points.length : Int) - 2).toNat)
    (fun (k : Nat) => List.replicate (p - c).toNat (vec_at points (1 + (k : Int))))]
  rw [List.append_assoc]

/-- In a strictly increasing partition, a later point is larger. -/
theorem vec_at_lt_of_sorted (points : partition) (hs : points.Sorted (· < ·)) (i j : Int)
    (hi : 0 ≤ i) (hij : i < j) (hj : j < (points.length : Int)) :
    vec_at points i < vec_at points j := by
  obtain ⟨a, rfl⟩ : ∃ a : Nat, i = (a : Int) := ⟨i.toNat, by omega⟩
  obtain ⟨b, rfl⟩ : ∃ b : Nat, j = (b : Int) := ⟨j.toNat, by omega⟩
  have ha : a < points.length := by omega
  have hb : b < points.length := by omega
  rw [vec_at_natCast, vec_at_natCast, List.getElem?_eq_getElem ha, List.getElem?_eq_getElem hb]
  simp only [Option.getD_some]
  exact (List.pairwise_iff_getElem.1 hs) a b ha hb (by omega)

/-- The cells of a list of `P` copies of `a`, `D` blocks of `R` copies and `P`
copies of `b`. -/
theorem getElem?_blocks (P D R : Nat) (a b : ℚ) (g : Nat → ℚ) (k : Nat) :
    (List.replicate P a
      ++ ((List.range D).flatMap (fun (d : Nat) => List.replicate R (g d))
        ++ List.replicate P b))[k]?
      = if k < P then some a
        else if k < P + D * R then some (g ((k - P) / R))
        else if k < 2 * P + D * R then some b else none := by
  have hlenF := length_flatMap_replicate D R g
  by_cases c1 : k < P
  · rw [List.getElem?_append_left (by rw [List.length_replicate]; exact c1),
      List.getElem?_replicate]
    simp only [if_pos c1]
  · rw [List.getElem?_append_right (by rw [List.length_replicate]; omega),
      List.length_replicate]
    by_cases c2 : k < P + D * R
    · rw [List.getElem?_append_left (by rw [hlenF]; omega),
        getElem?_flatMap_replicate D R g (k - P)]
      have c3 : k - P < D * R := by omega
      simp only [if_neg c1, if_pos c2, if_pos c3]
    · rw [List.getElem?_append_right (by rw [hlenF]; omega), hlenF, List.getElem?_replicate]
      by_cases c4 : k < 2 * P + D * R
      · have c5 : k - P - D * R < P := by omega
        simp only [if_neg c1, if_neg c2, if_pos c4, if_pos c5]
      · have c5 : ¬ (k - P - D * R < P) := by omega
        simp only [if_neg c1, if_neg c2, if_neg c4, if_neg c5]

/-- C31: for every strictly increasing partition with `n >= 2` points, `p >= 0` and
`c < p`, the knot vector of `make_bspline_basis(points, p, c)` consists of `p + 1`
copies of `points[0]`, then `p - c` copies of each interior point in order, then
`p + 1` copies of `points[n-1]`; its length is `2 * (p + 1) + (n - 2) * (p - c)`;
it is nondecreasing; the two end points occur `p + 1` times and every interior
point `p - c` times, a multiplicity `m` with `p - (m - 1) - 1 = c`. -/
theorem make_bspline_basis_knot_spec (points : partition) (p c : Int)
    (hs : points.Sorted (· < ·)) (hn : 2 ≤ points.length) (hp : 0 ≤ p) (hc : c < p) :
    make_bspline_basis_knot points p c
      = List.replicate (p + 1).toNat (vec_at points 0)
        ++ ((List.range ((points.length : Int) - 2).toNat).flatMap (fun (d : Nat) =>
              List.replicate (p - c).toNat (vec_at points (1 + (d : Int))))
          ++ List.replicate (p + 1).toNat (vec_at points ((points.length : Int) - 1))) ∧
    ((make_bspline_basis_knot points p c).length : Int)
      = 2 * (p + 1) + ((points.length : Int) - 2) * (p - c) ∧
    (make_bspline_basis_knot points p c).Sorted (· ≤ ·) ∧
    (((make_bspline_basis_knot points p c).count (vec_at points 0) : Nat) : Int) = p + 1 ∧
    (((make_bspline_basis_knot points p c).count
        (vec_at points ((points.length : Int) - 1)) : Nat) : Int) = p + 1 ∧
    (∀ i : Int, 1 ≤ i → i ≤ (points.length : Int) - 2 →
      (((make_bspline_basis_knot points p c).count (vec_at points i) : Nat) : Int) = p - c ∧
      p - ((((make_bspline_basis_knot points p c).count (vec_at points i) : Nat) : Int) - 1) - 1
        = c) := by
  have hlt := vec_at_lt_of_sorted points hs
  have hP : (((p + 1).toNat : Nat) : Int) = p + 1 := by omega
  have hR : (((p - c).toNat : Nat) : Int) = p - c := by omega
  have hD : ((((points.length : Int) - 2).toNat : Nat) : Int) = (points.length : Int) - 2 := by
    omega
  have hinj : ∀ d e : Nat, d < ((points.length : Int) - 2).toNat →
      e < ((points.length : Int) - 2).toNat →
      (fun (d : Nat) => vec_at points (1 + (d : Int))) d
        = (fun (d : Nat) => vec_at points (1 + (d : Int))) e → d = e := by
    intro d e hd he hde
    rcases Nat.lt_trichotomy d e with h | h | h
    · exact absurd hde (ne_of_lt (hlt (1 + (d : Int)) (1 + (e : Int)) (by omega) (by omega)
        (by omega)))
    · exact h
    · exact absurd hde.symm (ne_of_lt (hlt (1 + (e : Int)) (1 + (d : Int)) (by omega) (by omega)
        (by omega)))
  have hfirst : ((List.range ((points.length : Int) - 2).toNat).flatMap (fun (d : Nat) =>
      List.replicate (p - c).toNat (vec_at points (1 + (d : Int))))).count (vec_at points 0)
      = 0 :=
    count_flatMap_replicate_zero _ _ (fun (d : Nat) => vec_at points (1 + (d : Int))) _
      (fun d hd => ne_of_gt (hlt 0 (1 + (d : Int)) (by omega) (by omega) (by omega)))
  have hlast : ((List.range ((points.length : Int) - 2).toNat).flatMap (fun (d : Nat) =>
      List.replicate (p - c).toNat (vec_at points (1 + (d : Int))))).count
        (vec_at points ((points.length : Int) - 1)) = 0 :=
    count_flatMap_replicate_zero _ _ (fun (d : Nat) => vec_at points (1 + (d : Int))) _
      (fun d hd => ne_of_lt (hlt (1 + (d : Int)) ((points.length : Int) - 1) (by omega)
        (by omega) (by omega)))
  have hends : vec_at points 0 < vec_at points ((points.length : Int) - 1) :=
    hlt 0 ((points.length : Int) - 1) (by omega) (by omega) (by omega)
  have hcount : ∀ i : Int, 1 ≤ i → i ≤ (points.length : Int) - 2 →
      (((make_bspline_basis_knot points p c).count (vec_at points i) : Nat) : Int) = p - c := by
    intro i hi1 hi2
    obtain ⟨d, hd⟩ : ∃ d : Nat, i = 1 + (d : Int) := ⟨(i - 1).toNat, by omega⟩
    have hdD : d < ((points.length : Int) - 2).toNat := by omega
    have c3 := count_flatMap_replicate _ (p - c).toNat
      (fun (d : Nat) => vec_at points (1 + (d : Int))) hinj d hdD
    simp only at c3
    rw [make_bspline_basis_knot_eq, List.count_append, List.count_append, hd, c3,
      List.count_replicate, List.count_replicate,
      if_neg (by
        simp only [beq_iff_eq]
        exact ne_of_lt (hlt 0 (1 + (d : Int)) (by omega) (by omega) (by omega))),
      if_neg (by
        simp only [beq_iff_eq]
        exact ne_of_gt (hlt (1 + (d : Int)) ((points.length : Int) - 1) (by omega) (by omega)
          (by omega))),
      zero_add, add_zero, hR]
  refine ⟨make_bspline_basis_knot_eq points p c, ?_, ?_, ?_, ?_, ?_⟩
  · rw [make_bspline_basis_knot_eq]
    simp only [List.length_append, List.length_replicate, length_flatMap_replicate]
    push_cast
    rw [hP, hR, hD]
    ring
  · rw [make_bspline_basis_knot_eq]
    apply sorted_blocks _ _ _ _ _ _ (le_of_lt hends)
    · intro d hd
      exact le_of_lt (hlt 0 (1 + (d : Int)) (by omega) (by omega) (by omega))
    · intro d hd
      exact le_of_lt (hlt (1 + (d : Int)) ((points.length : Int) - 1) (by omega) (by omega)
        (by omega))
    · intro d e hde he
      exact le_of_lt (hlt (1 + (d : Int)) (1 + (e : Int)) (by omega) (by omega) (by omega))
  · rw [make_bspline_basis_knot_eq, List.count_append, List.count_append, hfirst,
      List.count_replicate_self, List.count_replicate,
      if_neg (by simp only [beq_iff_eq]; exact ne_of_gt hends), add_zero, add_zero, hP]
  · rw [make_bspline_basis_knot_eq, List.count_append, List.count_append, hlast,
      List.count_replicate_self, List.count_replicate,
      if_neg (by simp only [beq_iff_eq]; exact ne_of_lt hends), zero_add, zero_add, hP]
  · intro i hi1 hi2
    have h := hcount i hi1 hi2
    exact ⟨h, by rw [h]; ring⟩

/-- C31 at the partition `0, 1, 2`, degree 2 and continuity 1: the knots
`0, 0, 0, 1, 2, 2, 2`. -/
theorem make_bspline_basis_knot_spec_witness :
    make_bspline_basis_knot [0, 1, 2] 2 1 = [0, 0, 0, 1, 2, 2, 2] ∧
    (make_bspline_basis_knot [0, 1, 2] 2 1).Sorted (· ≤ ·) ∧
    ((make_bspline_basis_knot [0, 1, 2] 2 1).length : Int)
      = 2 * (2 + 1) + ((([0, 1, 2] : List ℚ).length : Int) - 2) * (2 - 1) :=
  ⟨rfl,
   (make_bspline_basis_knot_spec [0, 1, 2] 2 1 (by simp [List.Sorted]) (by decide) (by decide)
      (by decide)).2.2.1,
   (make_bspline_basis_knot_spec [0, 1, 2] 2 1 (by simp [List.Sorted]) (by decide) (by decide)
      (by decide)).2.1⟩

/-- In a list of `P` copies of `a`, `D` blocks of `R >= 1` copies of the values
of a strictly increasing sequence between `a` and `b`, and `P` copies of `b`, two
neighbouring cells differ exactly at the last cell of the first part and of every
block. -/
theorem blocks_change_iff (P D R : Nat) (hR : 1 ≤ R) (a b : ℚ) (g : Nat → ℚ)
    (hab : a < b) (hga : ∀ d : Nat, d < D → a < g d) (hgb : ∀ d : Nat, d < D → g d < b)
    (hg : ∀ d e : Nat, d < e → e < D → g d < g e) (k : Nat) (hk : k + 1 < 2 * P + D * R) :
    ((List.replicate P a
        ++ ((List.range D).flatMap (fun (d : Nat) => List.replicate R (g d))
          ++ List.replicate P b))[k]?).getD 0
      ≠ ((List.replicate P a
        ++ ((List.range D).flatMap (fun (d : Nat) => List.replicate R (g d))
          ++ List.replicate P b))[k + 1]?).getD 0
      ↔ ∃ e : Nat, e ≤ D ∧ k + 1 = P + e * R := by
  rw [getElem?_blocks, getElem?_blocks]
  have hmulD : ∀ e : Nat, e ≤ D → e * R ≤ D * R := fun e he => Nat.mul_le_mul_right R he
  by_cases c1 : k + 1 < P
  · have c0 : k < P := by omega
    simp only [if_pos c0, if_pos c1, Option.getD_some, ne_eq, not_true_eq_false, false_iff]
    rintro ⟨e, _, he⟩
    omega
  · by_cases c2 : k < P
    · have hkP : k + 1 = P := by omega
      have hex : ∃ e : Nat, e ≤ D ∧ k + 1 = P + e * R := ⟨0, by omega, by omega⟩
      simp only [if_pos c2, if_neg c1, Option.getD_some, hex, iff_true]
      by_cases c3 : k + 1 < P + D * R
      · have hD : 0 < D := by
          rcases Nat.eq_zero_or_pos D with h0 | h0
          · subst h0
            omega
          · exact h0
        have hdiv : (k + 1 - P) / R = 0 := by
          rw [hkP, Nat.sub_self, Nat.zero_div]
        rw [if_pos c3, Option.getD_some, hdiv]
        exact ne_of_lt (hga 0 hD)
      · have c4 : k + 1 < 2 * P + D * R := hk
        rw [if_neg c3, if_pos c4, Option.getD_some]
        exact ne_of_lt hab
    · by_cases c3 : k < P + D * R
      · have hm := Nat.div_add_mod (k - P) R
        have hj : (k - P) % R < R := Nat.mod_lt _ (by omega)
        have hcomm : R * ((k - P) / R) = (k - P) / R * R := Nat.mul_comm _ _
        rw [hcomm] at hm
        have heD : (k - P) / R < D := by
          rw [Nat.div_lt_iff_lt_mul (by omega)]
          omega
        have hsucc : ((k - P) / R + 1) * R = (k - P) / R * R + R := by ring
        have hle := hmulD ((k - P) / R + 1) (by omega)
        simp only [if_neg c2, if_pos c3, Option.getD_some]
        by_cases hjR : (k - P) % R + 1 < R
        · have c4 : k + 1 < P + D * R := by omega
          have hdiv : (k + 1 - P) / R = (k - P) / R := by
            apply Nat.div_eq_of_lt_le
            · omega
            · rw [hsucc]
              omega
          simp only [if_neg c1, if_pos c4, Option.getD_some, hdiv, ne_eq, not_true_eq_false,
            false_iff]
          rintro ⟨e, _, he⟩
          rcases Nat.lt_or_ge ((k - P) / R) e with h | h
          · have h1 : ((k - P) / R + 1) * R ≤ e * R := Nat.mul_le_mul_right R h
            omega
          · have h1 : e * R ≤ (k - P) / R * R := Nat.mul_le_mul_right R h
            omega
        · have hk1 : k + 1 = P + ((k - P) / R + 1) * R := by omega
          have hex : ∃ e : Nat, e ≤ D ∧ k + 1 = P + e * R := ⟨(k - P) / R + 1, by omega, hk1⟩
          simp only [hex, iff_true, if_neg c1]
          by_cases c4 : k + 1 < P + D * R
          · have heD2 : (k - P) / R + 1 < D := by
              rcases Nat.lt_or_ge ((k - P) / R + 1) D with h | h
              · exact h
              · have h1 : D * R ≤ ((k - P) / R + 1) * R := Nat.mul_le_mul_right R h
                omega
            have hdiv : (k + 1 - P) / R = (k - P) / R + 1 := by
              apply Nat.div_eq_of_lt_le
              · omega
              · have h2 : ((k - P) / R + 1 + 1) * R = ((k - P) / R + 1) * R + R := by ring
                rw [h2]
                omega
            rw [if_pos c4, Option.getD_some, hdiv]
            exact ne_of_lt (hg _ _ (by omega) heD2)
          · rw [if_neg c4, if_pos hk, Option.getD_some]
            exact ne_of_lt (hgb _ heD)
      · have c4 : ¬ (k + 1 < P + D * R) := by omega
        have c5 : k < 2 * P + D * R := by omega
        simp only [if_neg c1, if_neg c2, if_neg c3, if_neg c4, if_pos c5, if_pos hk,
          Option.getD_some, ne_eq, not_true_eq_false, false_iff]
        rintro ⟨e, he1, he⟩
        have := hmulD e he1
        omega

/-- The cells at which a list of `P >= 1` copies, `D` blocks of `R >= 1` copies and
`P` copies differs from the next cell, in increasing order. -/
theorem blocks_change_filter (P D R : Nat) (hP : 1 ≤ P) (hR : 1 ≤ R) (a b : ℚ) (g : Nat → ℚ)
    (hab : a < b) (hga : ∀ d : Nat, d < D → a < g d) (hgb : ∀ d : Nat, d < D → g d < b)
    (hg : ∀ d e : Nat, d < e → e < D → g d < g e) :
    (List.range (2 * P + D * R - 1)).filter
        (fun (k : Nat) => decide
          (((List.replicate P a
              ++ ((List.range D).flatMap (fun (d : Nat) => List.replicate R (g d))
                ++ List.replicate P b))[k]?).getD 0
            ≠ ((List.replicate P a
              ++ ((List.range D).flatMap (fun (d : Nat) => List.replicate R (g d))
                ++ List.replicate P b))[k + 1]?).getD 0))
      = (List.range (D + 1)).map (fun (e : Nat) => P + e * R - 1) := by
  have hmulD : ∀ e : Nat, e ≤ D → e * R ≤ D * R := fun e he => Nat.mul_le_mul_right R he
  have hs1 : ((List.range (2 * P + D * R - 1)).filter
        (fun (k : Nat) => decide
          (((List.replicate P a
              ++ ((List.range D).flatMap (fun (d : Nat) => List.replicate R (g d))
                ++ List.replicate P b))[k]?).getD 0
            ≠ ((List.replicate P a
              ++ ((List.range D).flatMap (fun (d : Nat) => List.replicate R (g d))
                ++ List.replicate P b))[k + 1]?).getD 0))).Sorted (· < ·) :=
    (List.sorted_lt_range _).filter _
  have hs2 : ((List.range (D + 1)).map (fun (e : Nat) => P + e * R - 1)).Sorted (· < ·) := by
    unfold List.Sorted
    rw [List.pairwise_map]
    refine (List.sorted_lt_range (D + 1)).imp ?_
    intro d e hde
    have h1 : (d + 1) * R ≤ e * R := Nat.mul_le_mul_right R hde
    have h2 : (d + 1) * R = d * R + R := by ring
    omega
  apply List.eq_of_perm_of_sorted _ hs1 hs2
  rw [List.perm_ext_iff_of_nodup hs1.nodup hs2.nodup]
  intro k
  rw [List.mem_filter, List.mem_range, List.mem_map, decide_eq_true_eq]
  constructor
  · rintro ⟨hk, hne⟩
    obtain ⟨e, he, hke⟩ := (blocks_change_iff P D R hR a b g hab hga hgb hg k (by omega)).1 hne
    exact ⟨e, List.mem_range.2 (by omega), by omega⟩
  · rintro ⟨e, he, rfl⟩
    have he2 : e ≤ D := by
      have := List.mem_range.1 he
      omega
    have h1 := hmulD e he2
    refine ⟨by omega, ?_⟩
    exact (blocks_change_iff P D R hR a b g hab hga hgb hg (P + e * R - 1) (by omega)).2
      ⟨e, he2, by omega⟩

/-- The loop of `spans_for_elements` on the knot vector of `make_bspline_basis`. -/
theorem make_bspline_basis_spans (points : partition) (p c : Int)
    (hs : points.Sorted (· < ·)) (hn : 2 ≤ points.length) (hp : 0 ≤ p) (hc : c < p) :
    (List.range (((make_bspline_basis_knot points p c).length : Int) - 1).toNat).foldl
      (fun (spans : List Int) (i : Nat) =>
        if vec_at (make_bspline_basis_knot points p c) (i : Int)
            ≠ vec_at (make_bspline_basis_knot points p c) ((i : Int) + 1)
        then spans ++ [(i : Int)] else spans)
      []
    = (List.range (points.length - 1)).map (fun (e : Nat) => p + (e : Int) * (p - c)) := by
  have hlt := vec_at_lt_of_sorted points hs
  obtain ⟨P, hP⟩ : ∃ P : Nat, p + 1 = (P : Int) := ⟨(p + 1).toNat, by omega⟩
  obtain ⟨R, hR⟩ : ∃ R : Nat, p - c = (R : Int) := ⟨(p - c).toNat, by omega⟩
  obtain ⟨D, hD⟩ : ∃ D : Nat, points.length = D + 2 := ⟨points.length - 2, by omega⟩
  have hknot : make_bspline_basis_knot points p c
      = List.replicate P (vec_at points 0)
        ++ ((List.range D).flatMap (fun (d : Nat) =>
              List.replicate R ((fun (d : Nat) => vec_at points (1 + (d : Int))) d))
          ++ List.replicate P (vec_at points ((D : Int) + 1))) := by
    rw [make_bspline_basis_knot_eq, hP, hR, hD]
    have e1 : (((D + 2 : Nat) : Int) - 2).toNat = D := by omega
    have e2 : ((D + 2 : Nat) : Int) - 1 = (D : Int) + 1 := by omega
    rw [e1, e2, Int.toNat_ofNat, Int.toNat_ofNat]
  have hlen : (make_bspline_basis_knot points p c).length = 2 * P + D * R := by
    rw [hknot]
    simp only [List.length_append, List.length_replicate, length_flatMap_replicate]
    omega
  have hcast : (((make_bspline_basis_knot points p c).length : Int) - 1).toNat
      = 2 * P + D * R - 1 := by
    rw [hlen]
    omega
  rw [spans_loop_eq_filter, hcast]
  have hfilter : (List.range (2 * P + D * R - 1)).filter
      (fun (i : Nat) => decide (vec_at (make_bspline_basis_knot points p c) (i : Int)
          ≠ vec_at (make_bspline_basis_knot points p c) ((i : Int) + 1)))
      = (List.range (D + 1)).map (fun (e : Nat) => P + e * R - 1) := by
    rw [← blocks_change_filter P D R (by omega) (by omega) (vec_at points 0)
      (vec_at points ((D : Int) + 1)) (fun (d : Nat) => vec_at points (1 + (d : Int)))
      (hlt 0 ((D : Int) + 1) (by omega) (by omega) (by omega))
      (fun d hd => hlt 0 (1 + (d : Int)) (by omega) (by omega) (by omega))
      (fun d hd => hlt (1 + (d : Int)) ((D : Int) + 1) (by omega) (by omega) (by omega))
      (fun d e hde he => hlt (1 + (d : Int)) (1 + (e : Int)) (by omega) (by omega)
        (by omega))]
    apply List.filter_congr
    intro k _
    have hk1 : ((k : Int) + 1) = ((k + 1 : Nat) : Int) := by push_cast; rfl
    rw [hk1, vec_at_natCast, vec_at_natCast, hknot]
  rw [hfilter, List.map_map, hD]
  have e3 : D + 2 - 1 = D + 1 := by omega
  rw [e3]
  apply List.map_congr_left
  intro e _
  simp only [Function.comp]
  have hpos : 1 ≤ P + e * R := by omega
  rw [Nat.cast_sub hpos]
  push_cast
  rw [← hP, ← hR]
  ring

/-- C33: for every strictly increasing partition with `n >= 2` points, `p >= 0` and
`c < p`, `spans_for_elements` applied to the basis of
`make_bspline_basis(points, p, c)` (the external constructor keeping the knot
vector and reporting `n - 1` elements) returns the `n - 1` spans
`p + e * (p - c)`, `e = 0, ..., n - 2`, one per mesh element. -/
theorem spans_of_make_bspline_basis (make : List ℚ → Int → bspline.basis)
    (points : partition) (p c : Int)
    (hs : points.Sorted (· < ·)) (hn : 2 ≤ points.length) (hp : 0 ≤ p) (hc : c < p)
    (hknot : (make (make_bspline_basis_knot points p c) p).knot
      = make_bspline_basis_knot points p c)
    (helem : (make (make_bspline_basis_knot points p c) p).elements
      = (points.length : Int) - 1) :
    spans_for_elements (make_bspline_basis make points p c)
      = some ((List.range (points.length - 1)).map
          (fun (e : Nat) => p + (e : Int) * (p - c))) ∧
    (((List.range (points.length - 1)).map
        (fun (e : Nat) => p + (e : Int) * (p - c))).length : Int)
      = (points.length : Int) - 1 ∧
    (∀ e : Int, 0 ≤ e → e < (points.length : Int) - 1 →
      vec_at ((List.range (points.length - 1)).map
        (fun (e : Nat) => p + (e : Int) * (p - c))) e = p + e * (p - c)) := by
  have hloop := make_bspline_basis_spans points p c hs hn hp hc
  have hlen : (((List.range (points.length - 1)).map
      (fun (e : Nat) => p + (e : Int) * (p - c))).length : Int) = (points.length : Int) - 1 := by
    rw [List.length_map, List.length_range]
    omega
  refine ⟨?_, hlen, ?_⟩
  · simp only [spans_for_elements, make_bspline_basis, bspline.basis.knot_size, hknot, helem]
    rw [hloop, if_pos hlen]
  · intro e he0 he1
    obtain ⟨k, rfl⟩ : ∃ k : Nat, e = (k : Int) := ⟨e.toNat, by omega⟩
    rw [vec_at_map_range _ _ k (by omega)]

/-- C33 at the partition `0, 1, 2`, degree 2 and continuity 1 (knots
`0, 0, 0, 1, 2, 2, 2`): the spans `2, 3`. -/
theorem spans_of_make_bspline_basis_witness :
    spans_for_elements (make_bspline_basis sample_make_counting [0, 1, 2] 2 1)
      = some [2, 3] :=
  (spans_of_make_bspline_basis sample_make_counting [0, 1, 2] 2 1 (by simp [List.Sorted])
    (by decide) (by decide) (by decide) rfl (by decide)).1

/-! ## C32, C34: the vertex tables of a facet -/

/-- The read of `left(i, der)` is the read at `left_lookup`. -/
theorem left_eq_lookup (t : bspline_basis_values_on_vertex) (i der : Int) :
    t.left i der
      = (match t.left_, t.left_lookup i with
        | some l, some idx => l.value 0 idx der
        | _, _ => 0) := by
  cases hl : t.left_ with
  | none => simp only [bspline_basis_values_on_vertex.left, hl]
  | some l =>
    by_cases h : i ≤ t.left_last_
    · simp only [bspline_basis_values_on_vertex.left,
        bspline_basis_values_on_vertex.left_lookup, hl, if_pos h]
    · simp only [bspline_basis_values_on_vertex.left,
        bspline_basis_values_on_vertex.left_lookup, hl, if_neg h]

/-- The read of `right(i, der)` is the read at `right_lookup`. -/
theorem right_eq_lookup (t : bspline_basis_values_on_vertex) (i der : Int) :
    t.right i der
      = (match t.right_, t.right_lookup i with
        | some r, some idx => r.value 0 idx der
        | _, _ => 0) := by
  cases hr : t.right_ with
  | none => simp only [bspline_basis_values_on_vertex.right, hr]
  | some r =>
    by_cases h : i ≥ t.right_first_
    · simp only [bspline_basis_values_on_vertex.right,
        bspline_basis_values_on_vertex.right_lookup, hr, if_pos h]
    · simp only [bspline_basis_values_on_vertex.right,
        bspline_basis_values_on_vertex.right_lookup, hr, if_neg h]

/-- C32: for every facet index `f` (in particular `0 <= f <= E`) of a space with
`E >= 1` elements, one of `element_left(f)`, `element_right(f)` is present and
`evaluate_basis(f, space, ders)` returns a table with a side present, so neither
assertion fails; the left side is present iff `0 < f` and then `left_last` is the
degree, the right side iff `f < E`; `left`, `right` read their tables at
`left_lookup`, `right_lookup` only (and `operator()` reads through `left` or
`right`); and for every facet-local DOF `i` in `[0, facet_dof_count(f))` every such
read uses a DOF index in `[0, degree]`. -/
theorem vertex_lookups_in_range (s : bspline_space) (f ders : Int)
    (hE : 1 ≤ s.basis_.elements) :
    ((element_left f s.basis_).isSome ∨ (element_right f s.basis_).isSome) ∧
    ∃ t : bspline_basis_values_on_vertex,
      evaluate_basis_facet f s ders = some t ∧
      (t.left_.isSome ∨ t.right_.isSome) ∧
      (t.left_.isSome ↔ 0 < f) ∧
      (t.right_.isSome ↔ f < s.basis_.elements) ∧
      (t.left_.isSome → t.left_last_ = s.degree) ∧
      (∀ i der : Int,
        t.left i der
          = (match t.left_, t.left_lookup i with
            | some l, some idx => l.value 0 idx der
            | _, _ => 0) ∧
        t.right i der
          = (match t.right_, t.right_lookup i with
            | some r, some idx => r.value 0 idx der
            | _, _ => 0) ∧
        t.value i der
          = (if t.left_.isSome ∧ i ≤ t.left_last_ then t.left i der else t.right i der)) ∧
      (∀ i : Int, 0 ≤ i → i < s.facet_dof_count f →
        (∀ idx : Int, t.left_lookup i = some idx →
          idx = i ∧ i ≤ t.left_last_ ∧ 0 ≤ idx ∧ idx ≤ s.degree) ∧
        (∀ idx : Int, t.right_lookup i = some idx →
          idx = i - t.right_first_ ∧ 0 ≤ idx ∧ idx ≤ s.degree)) := by
  have hreads : ∀ (t : bspline_basis_values_on_vertex) (i der : Int),
      t.left i der
        = (match t.left_, t.left_lookup i with
          | some l, some idx => l.value 0 idx der
          | _, _ => 0) ∧
      t.right i der
        = (match t.right_, t.right_lookup i with
          | some r, some idx => r.value 0 idx der
          | _, _ => 0) ∧
      t.value i der
        = (if t.left_.isSome ∧ i ≤ t.left_last_ then t.left i der else t.right i der) :=
    fun t i der => ⟨left_eq_lookup t i der, right_eq_lookup t i der, rfl⟩
  by_cases hl : 0 < f
  · have hmax : max (f - 1) 0 = f - 1 := max_eq_left (by omega)
    have hll : s.facet_local_index (s.last_dof (f - 1)) f = s.degree := by
      simp only [bspline_space.facet_local_index, bspline_space.last_dof,
        bspline_space.first_dof, bspline_space.dofs_per_element, hmax]
      omega
    have hleft : (element_left f s.basis_).isSome := by
      have hl2 : f > 0 := hl
      simp only [element_left, if_pos hl2, Option.isSome_some]
    by_cases hr : f < s.basis_.elements
    · have hmin : min f (s.basis_.elements - 1) = f := min_eq_left (by omega)
      refine ⟨Or.inl hleft, _, evaluate_basis_facet_interior s f ders hl hr, Or.inl rfl,
        ?_, ?_, fun _ => hll, hreads _, ?_⟩
      · simp only [Option.isSome_some, true_iff]
        exact hl
      · simp only [Option.isSome_some, true_iff]
        exact hr
      · intro i hi0 hi1
        simp only [bspline_space.facet_dof_count, bspline_space.dofs_on_facet,
          simple_index_range.distance, range, bspline_space.dofs_per_element, hmax, hmin] at hi1
        constructor
        · intro idx hidx
          simp only [bspline_basis_values_on_vertex.left_lookup] at hidx
          by_cases h : i ≤ s.facet_local_index (s.last_dof (f - 1)) f
          · rw [if_pos h] at hidx
            simp only [Option.some.injEq] at hidx
            subst hidx
            rw [hll] at h
            exact ⟨rfl, by rw [hll]; exact h, hi0, h⟩
          · rw [if_neg h] at hidx
            simp only [reduceCtorEq] at hidx
        · intro idx hidx
          simp only [bspline_basis_values_on_vertex.right_lookup] at hidx
          by_cases h : i ≥ s.facet_local_index (s.first_dof f) f
          · rw [if_pos h] at hidx
            simp only [Option.some.injEq] at hidx
            subst hidx
            refine ⟨rfl, by omega, ?_⟩
            simp only [bspline_space.facet_local_index, bspline_space.first_dof, hmax] at h ⊢
            omega
          · rw [if_neg h] at hidx
            simp only [reduceCtorEq] at hidx
    · refine ⟨Or.inl hleft, _, evaluate_basis_facet_last s f ders hl hr, Or.inl rfl,
        ?_, ?_, fun _ => hll, hreads _, ?_⟩
      · simp only [Option.isSome_some, true_iff]
        exact hl
      · simp only [Option.isSome_none, Bool.false_eq_true, false_iff]
        exact hr
      · intro i hi0 _
        constructor
        · intro idx hidx
          simp only [bspline_basis_values_on_vertex.left_lookup] at hidx
          by_cases h : i ≤ s.facet_local_index (s.last_dof (f - 1)) f
          · rw [if_pos h] at hidx
            simp only [Option.some.injEq] at hidx
            subst hidx
            rw [hll] at h
            exact ⟨rfl, by rw [hll]; exact h, hi0, h⟩
          · rw [if_neg h] at hidx
            simp only [reduceCtorEq] at hidx
        · intro idx hidx
          simp only [bspline_basis_values_on_vertex.right_lookup, reduceCtorEq] at hidx
  · have hr : f < s.basis_.elements := by omega
    have hmax : max (f - 1) 0 = 0 := max_eq_right (by omega)
    have hmin : min f (s.basis_.elements - 1) = f := min_eq_left (by omega)
    have hright : (element_right f s.basis_).isSome := by
      simp only [element_right, if_pos hr, Option.isSome_some]
    refine ⟨Or.inr hright, _, evaluate_basis_facet_first s f ders hl hr, Or.inr rfl,
      ?_, ?_, ?_, hreads _, ?_⟩
    · simp only [Option.isSome_none, Bool.false_eq_true, false_iff]
      exact hl
    · simp only [Option.isSome_some, true_iff]
      exact hr
    · intro h
      simp only [Option.isSome_none, Bool.false_eq_true] at h
    · intro i hi0 hi1
      simp only [bspline_space.facet_dof_count, bspline_space.dofs_on_facet,
        simple_index_range.distance, range, bspline_space.dofs_per_element, hmax, hmin] at hi1
      constructor
      · intro idx hidx
        simp only [bspline_basis_values_on_vertex.left_lookup, reduceCtorEq] at hidx
      · intro idx hidx
        simp only [bspline_basis_values_on_vertex.right_lookup] at hidx
        by_cases h : i ≥ s.facet_local_index (s.first_dof f) f
        · rw [if_pos h] at hidx
          simp only [Option.some.injEq] at hidx
          subst hidx
          refine ⟨rfl, by omega, ?_⟩
          simp only [bspline_space.facet_local_index, bspline_space.first_dof, hmax] at h ⊢
          omega
        · rw [if_neg h] at hidx
          simp only [reduceCtorEq] at hidx

/-- C32 at the interior facet 1 of the linear sample space. -/
theorem vertex_lookups_in_range_witness :
    ∃ t : bspline_basis_values_on_vertex,
      evaluate_basis_facet 1 sample_space_y 1 = some t ∧
      (t.left_.isSome ∨ t.right_.isSome) ∧
      (t.left_.isSome → t.left_last_ = sample_space_y.degree) :=
  (vertex_lookups_in_range sample_space_y 1 1 (by decide)).2.imp
    (fun _ h => ⟨h.1, h.2.1, h.2.2.2.2.1⟩)

/-- C34: at the two boundary facets `f = 0` and `f = E` of a 1D space with `E >= 1`
elements (on a mesh of `E + 1` points) the vertex table is built,
`interval_mesh::facet(f)` gives the normal `-1` at `f = 0` and `+1` at `f = E`, and
for every facet-local DOF `i` and derivative order `der` the value
`operator()(i, der)`, `average(i, der)` and `jump(i, der, normal)` coincide. -/
theorem boundary_vertex_values (s : bspline_space) (m : interval_mesh) (ders : Int)
    (hE : 1 ≤ s.basis_.elements)
    (hm : (m.points_.length : Int) = s.basis_.elements + 1) :
    (∃ (t : bspline_basis_values_on_vertex) (d : point_data),
      evaluate_basis_facet 0 s ders = some t ∧ m.facet 0 = some d ∧ d.normal = -1 ∧
      ∀ i der : Int,
        t.value i der = t.average i der ∧ t.value i der = t.jump i der d.normal) ∧
    (∃ (t : bspline_basis_values_on_vertex) (d : point_data),
      evaluate_basis_facet s.basis_.elements s ders = some t ∧
      m.facet s.basis_.elements = some d ∧ d.normal = 1 ∧
      ∀ i der : Int,
        t.value i der = t.average i der ∧ t.value i der = t.jump i der d.normal) := by
  constructor
  · have h0 : (0 : Int) < (m.points_.length : Int) := by omega
    have hn : ¬ ((0 : Int) > 0) := by omega
    refine ⟨_, ⟨vec_at m.points_ 0, -1⟩,
      evaluate_basis_facet_first s 0 ders (by omega) (by omega), ?_, rfl, ?_⟩
    · simp only [interval_mesh.facet, if_pos h0, if_neg hn]
    · intro i der
      simp only [bspline_basis_values_on_vertex.value, bspline_basis_values_on_vertex.average,
        bspline_basis_values_on_vertex.jump, bspline_basis_values_on_vertex.left,
        Option.isSome_none, Bool.false_eq_true, false_and, if_false]
      constructor <;> ring
  · have h0 : s.basis_.elements < (m.points_.length : Int) := by omega
    have hn : s.basis_.elements > 0 := by omega
    refine ⟨_, ⟨vec_at m.points_ s.basis_.elements, 1⟩,
      evaluate_basis_facet_last s s.basis_.elements ders (by omega) (by omega), ?_, rfl, ?_⟩
    · simp only [interval_mesh.facet, if_pos h0, if_pos hn]
    · intro i der
      simp only [bspline_basis_values_on_vertex.value, bspline_basis_values_on_vertex.average,
        bspline_basis_values_on_vertex.jump, bspline_basis_values_on_vertex.left,
        bspline_basis_values_on_vertex.right, Option.isSome_some, Option.isSome_none,
        Bool.false_eq_true, and_false, if_false, true_and]
      by_cases h : i ≤ s.facet_local_index (s.last_dof (s.basis_.elements - 1)) s.basis_.elements
      · simp only [if_pos h]
        constructor <;> ring
      · simp only [if_neg h]
        constructor <;> ring

/-- C34 at the linear sample space (3 elements) on the mesh `0, 1/3, 2/3, 1`. -/
theorem boundary_vertex_values_witness :
    (∃ (t : bspline_basis_values_on_vertex) (d : point_data),
      evaluate_basis_facet 0 sample_space_y 1 = some t ∧
      sample_mesh.mesh_y_.facet 0 = some d ∧ d.normal = -1 ∧
      ∀ i der : Int,
        t.value i der = t.average i der ∧ t.value i der = t.jump i der d.normal) :=
  (boundary_vertex_values sample_space_y sample_mesh.mesh_y_ 1 (by decide) (by decide)).1

/-! ## C35: the element quadrature weights tile the domain -/

theorem sum_over_pairs_eq_some (l : List (Int × Int)) (term : Int × Int → Option ℚ)
    (g : Int × Int → ℚ) (h : ∀ q : Int × Int, q ∈ l → term q = some (g q)) :
    sum_over_pairs l term = some (l.map g).sum := by
  induction l with
  | nil => rfl
  | cons q t ih =>
    have hq := h q (List.mem_cons_self q t)
    have ht := ih (fun r hr => h r (List.mem_cons_of_mem q hr))
    simp only [sum_over_pairs, hq, ht, List.map_cons, List.sum_cons]
    rfl

/-- The sum of a product of two factors over a product of two lists. -/
theorem sum_map_product (l1 l2 : List Int) (f1 f2 : Int → ℚ) :
    ((List.product l1 l2).map (fun q => f1 q.1 * f2 q.2)).sum
      = (l1.map f1).sum * (l2.map f2).sum := by
  induction l1 with
  | nil => simp [List.product]
  | cons a t ih =>
    have hp : List.product (a :: t) l2 = l2.map (Prod.mk a) ++ List.product t l2 :=
      List.product_cons a t l2
    rw [hp, List.map_append, List.sum_append, ih, List.map_map, List.map_cons, List.sum_cons,
      add_mul]
    congr 1
    have hcomp : ((fun (q : Int × Int) => f1 q.1 * f2 q.2) ∘ Prod.mk a)
        = fun (b : Int) => f1 a * f2 b := rfl
    rw [hcomp, List.sum_map_mul_left]

/-- The differences of consecutive entries add up to the difference of the ends. -/
theorem sum_range_diff (x : Int → ℚ) (m : Nat) :
    ((List.range m).map (fun (k : Nat) => x ((k : Int) + 1) - x (k : Int))).sum
      = x (m : Int) - x 0 := by
  induction m with
  | zero => simp
  | succ m ih =>
    rw [List.range_succ, List.map_append, List.sum_append, ih]
    simp only [List.map_cons, List.map_nil, List.sum_cons, List.sum_nil, add_zero]
    push_cast
    ring

/-- The lengths of the elements of a strictly increasing partition add up to the
distance of its ends. -/
theorem sum_lengths (m : interval_mesh) (hs : m.points_.Sorted (· < ·)) :
    (m.elements.toList.map
      (fun (e : Int) => length ⟨vec_at m.points_ e, vec_at m.points_ (e + 1)⟩)).sum
      = vec_at m.points_ ((m.points_.length : Int) - 1) - vec_at m.points_ 0 := by
  have hlt := vec_at_lt_of_sorted m.points_ hs
  simp only [interval_mesh.elements, interval_mesh.element_count, range,
    simple_index_range.toList, sub_zero, List.map_map]
  rcases Nat.eq_zero_or_pos m.points_.length with h0 | hpos
  · have hnil : m.points_ = [] := List.length_eq_zero.1 h0
    rw [hnil]
    simp [vec_at]
  · have hcast : (((m.points_.length : Int) - 1).toNat : Int) = (m.points_.length : Int) - 1 := by
      omega
    rw [← hcast, ← sum_range_diff (vec_at m.points_) ((m.points_.length : Int) - 1).toNat]
    congr 1
    apply List.map_congr_left
    intro k hk
    have hk2 := List.mem_range.1 hk
    simp only [Function.comp, length, zero_add]
    have := hlt (k : Int) ((k : Int) + 1) (by omega) (by omega) (by omega)
    rw [abs_of_pos (by linarith)]

/-- The weights of `data_for_interval` add up to the length of the target when the
canonical weights add up to 2. -/
theorem data_for_interval_weight_sum (G : gauss_tables) (qd : quadrature) (target : interval)
    (hW : ((range 0 qd.point_count_).toList.map
      (fun (q : Int) => vec_at (G.Ws qd.point_count_) q)).sum = 2) :
    (qd.data_for_interval G target).indices.toList = (range 0 qd.point_count_).toList ∧
    (∀ q : Int, q ∈ (range 0 qd.point_count_).toList →
      (qd.data_for_interval G target).weight q
        = some (vec_at (G.Ws qd.point_count_) q * (length target / 2))) ∧
    ((range 0 qd.point_count_).toList.map
      (fun (q : Int) => vec_at (G.Ws qd.point_count_) q * (length target / 2))).sum
      = length target := by
  refine ⟨?_, ?_, ?_⟩
  · simp only [interval_quadrature_points.indices, quadrature.data_for_interval,
      quadrature.transform_points, List.length_map, List.length_range, range,
      simple_index_range.toList, sub_zero]
    congr 2
  · intro q hq
    rw [mem_range_toList] at hq
    exact data_for_interval_weight G qd target q hq.1 hq.2
  · rw [List.sum_map_mul_right, hW]
    ring

/-- C35: when the canonical weights of the chosen rule add up to 2, for every
regular mesh over strictly increasing partitions `xs` and `ys`, the weights of
`quadrature::coordinates(e)` add up, over the point indices of one element, to
`length(span_x) * length(span_y)`, and over all elements and point indices to
`(xs.last - xs.first) * (ys.last - ys.first)`. -/
theorem weights_tile_domain (G : gauss_tables) (qd : quadrature)
    (hW : ((range 0 qd.point_count_).toList.map
      (fun (q : Int) => vec_at (G.Ws qd.point_count_) q)).sum = 2)
    (hsx : qd.mesh_.mesh_x_.points_.Sorted (· < ·))
    (hsy : qd.mesh_.mesh_y_.points_.Sorted (· < ·)) :
    (∀ e : Int × Int, e ∈ qd.mesh_.elements.toList →
      ∃ el : element_data, qd.mesh_.element e = some el ∧
        qd.element_weight_sum G e = some (length el.span_x * length el.span_y)) ∧
    qd.total_weight_sum G
      = some ((vec_at qd.mesh_.mesh_x_.points_ ((qd.mesh_.mesh_x_.points_.length : Int) - 1)
                - vec_at qd.mesh_.mesh_x_.points_ 0)
              * (vec_at qd.mesh_.mesh_y_.points_ ((qd.mesh_.mesh_y_.points_.length : Int) - 1)
                - vec_at qd.mesh_.mesh_y_.points_ 0)) := by
  have helem : ∀ e : Int × Int, e ∈ qd.mesh_.elements.toList →
      qd.mesh_.element e
        = some ⟨⟨vec_at qd.mesh_.mesh_x_.points_ e.1, vec_at qd.mesh_.mesh_x_.points_ (e.1 + 1)⟩,
            ⟨vec_at qd.mesh_.mesh_y_.points_ e.2, vec_at qd.mesh_.mesh_y_.points_ (e.2 + 1)⟩⟩ ∧
      qd.element_weight_sum G e
        = some (length ⟨vec_at qd.mesh_.mesh_x_.points_ e.1,
                  vec_at qd.mesh_.mesh_x_.points_ (e.1 + 1)⟩
                * length ⟨vec_at qd.mesh_.mesh_y_.points_ e.2,
                  vec_at qd.mesh_.mesh_y_.points_ (e.2 + 1)⟩) := by
    intro e he
    rw [mem_index_range_toList] at he
    simp only [regular_mesh.elements, product_range, interval_mesh.elements, range,
      interval_mesh.element_count] at he
    obtain ⟨⟨h1, h2⟩, h3, h4⟩ := he
    have c1 : e.1 ≥ 0 ∧ e.1 < (qd.mesh_.mesh_x_.points_.length : Int) - 1 := ⟨h1, h2⟩
    have c2 : e.2 ≥ 0 ∧ e.2 < (qd.mesh_.mesh_y_.points_.length : Int) - 1 := ⟨h3, h4⟩
    have hel : qd.mesh_.element e
        = some ⟨⟨vec_at qd.mesh_.mesh_x_.points_ e.1,
              vec_at qd.mesh_.mesh_x_.points_ (e.1 + 1)⟩,
            ⟨vec_at qd.mesh_.mesh_y_.points_ e.2,
              vec_at qd.mesh_.mesh_y_.points_ (e.2 + 1)⟩⟩ := by
      simp only [regular_mesh.element, interval_mesh.subinterval, subinterval, if_pos c1,
        if_pos c2, Option.bind_eq_bind, Option.some_bind, Option.pure_def]
    refine ⟨hel, ?_⟩
    obtain ⟨hix, hwx, hsumx⟩ := data_for_interval_weight_sum G qd
      ⟨vec_at qd.mesh_.mesh_x_.points_ e.1, vec_at qd.mesh_.mesh_x_.points_ (e.1 + 1)⟩ hW
    obtain ⟨hiy, hwy, hsumy⟩ := data_for_interval_weight_sum G qd
      ⟨vec_at qd.mesh_.mesh_y_.points_ e.2, vec_at qd.mesh_.mesh_y_.points_ (e.2 + 1)⟩ hW
    simp only [quadrature.element_weight_sum, quadrature.coordinates, hel, Option.bind_eq_bind,
      Option.some_bind, Option.pure_def]
    rw [sum_over_pairs_eq_some _ _
      (fun q => (vec_at (G.Ws qd.point_count_) q.1
          * (length ⟨vec_at qd.mesh_.mesh_x_.points_ e.1,
              vec_at qd.mesh_.mesh_x_.points_ (e.1 + 1)⟩ / 2))
        * (vec_at (G.Ws qd.point_count_) q.2
          * (length ⟨vec_at qd.mesh_.mesh_y_.points_ e.2,
              vec_at qd.mesh_.mesh_y_.points_ (e.2 + 1)⟩ / 2)))]
    · simp only [tensor_quadrature_points.indices, product_range, index_range.toList, hix, hiy]
      rw [sum_map_product _ _
        (fun q => vec_at (G.Ws qd.point_count_) q
          * (length ⟨vec_at qd.mesh_.mesh_x_.points_ e.1,
              vec_at qd.mesh_.mesh_x_.points_ (e.1 + 1)⟩ / 2))
        (fun q => vec_at (G.Ws qd.point_count_) q
          * (length ⟨vec_at qd.mesh_.mesh_y_.points_ e.2,
              vec_at qd.mesh_.mesh_y_.points_ (e.2 + 1)⟩ / 2)),
        hsumx, hsumy]
    · intro q hq
      simp only [tensor_quadrature_points.indices, product_range, index_range.toList, hix,
        hiy] at hq
      have hq2 : q.1 ∈ (range 0 qd.point_count_).toList ∧ q.2 ∈ (range 0 qd.point_count_).toList :=
        List.mem_product.1 hq
      simp only [tensor_quadrature_points.weight, hwx q.1 hq2.1, hwy q.2 hq2.2,
        Option.bind_eq_bind, Option.some_bind, Option.pure_def]
  constructor
  · intro e he
    exact ⟨_, (helem e he).1, (helem e he).2⟩
  · simp only [quadrature.total_weight_sum]
    rw [sum_over_pairs_eq_some _ _
      (fun e => length ⟨vec_at qd.mesh_.mesh_x_.points_ e.1,
                  vec_at qd.mesh_.mesh_x_.points_ (e.1 + 1)⟩
                * length ⟨vec_at qd.mesh_.mesh_y_.points_ e.2,
                  vec_at qd.mesh_.mesh_y_.points_ (e.2 + 1)⟩)
      (fun e he => (helem e he).2)]
    simp only [regular_mesh.elements, product_range, index_range.toList]
    rw [sum_map_product _ _
      (fun e => length ⟨vec_at qd.mesh_.mesh_x_.points_ e, vec_at qd.mesh_.mesh_x_.points_ (e + 1)⟩)
      (fun e => length ⟨vec_at qd.mesh_.mesh_y_.points_ e, vec_at qd.mesh_.mesh_y_.points_ (e + 1)⟩),
      sum_lengths _ hsx, sum_lengths _ hsy]

/-- C35 at the sample mesh (`xs = 0, 1/2, 1`, `ys = 0, 1/3, 2/3, 1`) with the
three-point sample rule (weights `1/3, 4/3, 1/3`). -/
theorem weights_tile_domain_witness :
    sample_quadrature.total_weight_sum sample_gauss
      = some ((vec_at sample_quadrature.mesh_.mesh_x_.points_
                  ((sample_quadrature.mesh_.mesh_x_.points_.length : Int) - 1)
                - vec_at sample_quadrature.mesh_.mesh_x_.points_ 0)
              * (vec_at sample_quadrature.mesh_.mesh_y_.points_
                  ((sample_quadrature.mesh_.mesh_y_.points_.length : Int) - 1)
                - vec_at sample_quadrature.mesh_.mesh_y_.points_ 0)) :=
  (weights_tile_domain sample_gauss sample_quadrature
    (by
      show ((1 / 3 : ℚ) + (4 / 3 + (1 / 3 + 0))) = 2
      norm_num)
    (by
      show List.Sorted (· < ·) ([0, 1 / 2, 1] : List ℚ)
      simp only [List.Sorted, List.pairwise_cons, List.mem_cons, List.mem_singleton,
        List.not_mem_nil, forall_eq_or_imp, forall_eq, List.Pairwise.nil, and_true,
        IsEmpty.forall_iff, implies_true]
      norm_num)
    (by
      show List.Sorted (· < ·) ([0, 1 / 3, 2 / 3, 1] : List ℚ)
      simp only [List.Sorted, List.pairwise_cons, List.mem_cons, List.mem_singleton,
        List.not_mem_nil, forall_eq_or_imp, forall_eq, List.Pairwise.nil, and_true,
        IsEmpty.forall_iff, implies_true]
      norm_num)).2

/-! ## C37: the layout of a basis value table -/

theorem length_write_cell (buf : List ℚ) (addr : Int) (x : ℚ) :
    (write_cell buf addr x).length = buf.length := by
  unfold write_cell
  split_ifs
  · rw [List.length_set]
  · rfl

/-- The writes of `eval_basis_with_derivatives` keep the pointer tables and the size
of the buffer. -/
theorem eval_basis_with_derivatives_tables (span : Int) (x : ℚ) (b : bspline.basis)
    (v : bspline_basis_values) (buffer ders : Int) :
    (eval_basis_with_derivatives span x b v buffer ders).point_data_ = v.point_data_ ∧
    (eval_basis_with_derivatives span x b v buffer ders).dof_data_ = v.dof_data_ ∧
    (eval_basis_with_derivatives span x b v buffer ders).buffer_.length = v.buffer_.length := by
  refine ⟨rfl, rfl, ?_⟩
  simp only [eval_basis_with_derivatives]
  have inner : ∀ (l : List Nat) (g : Nat → Int) (w : Nat → ℚ) (buf : List ℚ),
      (l.foldl (fun buf (i : Nat) => write_cell buf (g i) (w i)) buf).length = buf.length := by
    intro l g w
    induction l with
    | nil => intro buf; rfl
    | cons a t ih => intro buf; rw [List.foldl_cons, ih, length_write_cell]
  have outer : ∀ (l l2 : List Nat) (g : Nat → Nat → Int) (w : Nat → Nat → ℚ) (buf : List ℚ),
      (l.foldl (fun buf (d : Nat) =>
        l2.foldl (fun buf (i : Nat) => write_cell buf (g d i) (w d i)) buf) buf).length
        = buf.length := by
    intro l l2 g w
    induction l with
    | nil => intro buf; rfl
    | cons a t ih => intro buf; rw [List.foldl_cons, ih, inner]
  exact outer _ _
    (fun (der i : Nat) => vec_at v.dof_data_ (buffer + (der : Int)) + (i : Int))
    (fun (der i : Nat) => basis_function_derivative b.knot span x der b.degree.toNat
      (span - b.degree + (i : Int))) v.buffer_

/-- The table of `evaluate_basis(points, space, ders)` has the pointer tables and the
buffer size of the table it was constructed as. -/
theorem evaluate_basis_tables (points : List ℚ) (sp : bspline_space) (ders : Int) :
    (evaluate_basis points sp ders).point_data_
      = (bspline_basis_values.create (points.length : Int) sp.dofs_per_element ders).point_data_ ∧
    (evaluate_basis points sp ders).dof_data_
      = (bspline_basis_values.create (points.length : Int) sp.dofs_per_element ders).dof_data_ ∧
    (evaluate_basis points sp ders).buffer_.length
      = (bspline_basis_values.create (points.length : Int) sp.dofs_per_element
          ders).buffer_.length := by
  have key : ∀ (l : List Nat) (v : bspline_basis_values),
      (l.foldl
        (fun (values : bspline_basis_values) (q : Nat) =>
          eval_basis_with_derivatives (find_span (vec_at points (q : Int)) sp.basis_)
            (vec_at points (q : Int)) sp.basis_ values (values.point_buffer (q : Int)) ders)
        v).point_data_ = v.point_data_ ∧
      (l.foldl
        (fun (values : bspline_basis_values) (q : Nat) =>
          eval_basis_with_derivatives (find_span (vec_at points (q : Int)) sp.basis_)
            (vec_at points (q : Int)) sp.basis_ values (values.point_buffer (q : Int)) ders)
        v).dof_data_ = v.dof_data_ ∧
      (l.foldl
        (fun (values : bspline_basis_values) (q : Nat) =>
          eval_basis_with_derivatives (find_span (vec_at points (q : Int)) sp.basis_)
            (vec_at points (q : Int)) sp.basis_ values (values.point_buffer (q : Int)) ders)
        v).buffer_.length = v.buffer_.length := by
    intro l
    induction l with
    | nil => intro v; exact ⟨rfl, rfl, rfl⟩
    | cons a t ih =>
      intro v
      rw [List.foldl_cons]
      obtain ⟨h1, h2, h3⟩ := ih (eval_basis_with_derivatives
        (find_span (vec_at points (a : Int)) sp.basis_) (vec_at points (a : Int)) sp.basis_ v
        (v.point_buffer (a : Int)) ders)
      obtain ⟨k1, k2, k3⟩ := eval_basis_with_derivatives_tables
        (find_span (vec_at points (a : Int)) sp.basis_) (vec_at points (a : Int)) sp.basis_ v
        (v.point_buffer (a : Int)) ders
      exact ⟨h1.trans k1, h2.trans k2, h3.trans k3⟩
  exact key _ _

/-- The cell of a table constructed with `points` points, `dofs` DOFs and derivative
order `ders` that the triple `(point, der, i)` addresses. -/
theorem create_offset (points dofs ders point i der : Int)
    (hp0 : 0 ≤ point) (hp1 : point < points) (hd0 : 0 ≤ der) (hd1 : der ≤ ders)
    (hi0 : 0 ≤ i) (hi1 : i < dofs) :
    (bspline_basis_values.create points dofs ders).offset point i der
        = (point * (ders + 1) + der) * dofs + i ∧
    0 ≤ (point * (ders + 1) + der) * dofs + i ∧
    (point * (ders + 1) + der) * dofs + i < points * dofs * (ders + 1) := by
  have hk0 : 0 ≤ point * (ders + 1) := mul_nonneg hp0 (by omega)
  have hk1 : (point + 1) * (ders + 1) ≤ points * (ders + 1) :=
    mul_le_mul_of_nonneg_right (by omega) (by omega)
  have hk2 : (point + 1) * (ders + 1) = point * (ders + 1) + ders + 1 := by ring
  have hk3 : point * (ders + 1) + der < points * (ders + 1) := by omega
  have hc0 : 0 ≤ (point * (ders + 1) + der) * dofs := mul_nonneg (by omega) (by omega)
  have hc1 : (point * (ders + 1) + der + 1) * dofs ≤ points * (ders + 1) * dofs :=
    mul_le_mul_of_nonneg_right (by omega) (by omega)
  have hc2 : (point * (ders + 1) + der + 1) * dofs
      = (point * (ders + 1) + der) * dofs + dofs := by ring
  have hc3 : points * (ders + 1) * dofs = points * dofs * (ders + 1) := by ring
  refine ⟨?_, by omega, by omega⟩
  simp only [bspline_basis_values.offset, bspline_basis_values.create]
  rw [vec_at_map_range_of _ _ point hp0 (by omega), Int.toNat_of_nonneg hp0,
    vec_at_map_range_of _ _ (point * (ders + 1) + der) (by omega) (by omega),
    Int.toNat_of_nonneg (by omega)]

/-- Every read of a table of `evaluate_basis(points, space, ders)` at a point index
below the point count, a local DOF index at most the degree and a derivative order
at most `ders` stays inside the buffer. -/
theorem evaluate_basis_offset (points : List ℚ) (sp : bspline_space) (ders q i der : Int)
    (hq0 : 0 ≤ q) (hq1 : q < (points.length : Int)) (hd0 : 0 ≤ der) (hd1 : der ≤ ders)
    (hi0 : 0 ≤ i) (hi1 : i ≤ sp.degree) :
    (evaluate_basis points sp ders).offset q i der
        = (q * (ders + 1) + der) * sp.dofs_per_element + i ∧
    0 ≤ (evaluate_basis points sp ders).offset q i der ∧
    (evaluate_basis points sp ders).offset q i der
      < ((evaluate_basis points sp ders).buffer_.length : Int) := by
  obtain ⟨h1, h2, h3⟩ := evaluate_basis_tables points sp ders
  have hi2 : i < sp.dofs_per_element := by
    simp only [bspline_space.dofs_per_element]
    omega
  obtain ⟨c1, c2, c3⟩ := create_offset (points.length : Int) sp.dofs_per_element ders q i der
    hq0 hq1 hd0 hd1 hi0 hi2
  have hoff : (evaluate_basis points sp ders).offset q i der
      = (bspline_basis_values.create (points.length : Int) sp.dofs_per_element ders).offset
          q i der := by
    simp only [bspline_basis_values.offset, h1, h2]
  have hlen : ((evaluate_basis points sp ders).buffer_.length : Int)
      = (points.length : Int) * sp.dofs_per_element * (ders + 1) := by
    rw [h3]
    simp only [bspline_basis_values.create, List.length_replicate]
    omega
  rw [hoff, c1, hlen]
  exact ⟨rfl, c2, c3⟩

/-- C37: in a basis value table constructed with `points` points, `dofs` DOFs and
derivative order `ders`, the cell that `(point, der, i)` addresses is the cell
`(point * (ders + 1) + der) * dofs + i` of the buffer; for `0 <= point < points`,
`0 <= der <= ders` and `0 <= i < dofs` this offset is at least 0 and below
`points * dofs * (ders + 1)`, the size of the buffer, and different triples address
different cells.  Hence for `ders >= 1` every read of the element evaluator (a DOF
of the element, a point index of the point set, derivative order 0 or 1) uses a
local DOF index in `[0, degree]` and a point index below the point count, and
stays inside the buffer of its table. -/
theorem basis_values_layout (points dofs ders : Int) :
    (∀ point i der : Int, 0 ≤ point → point < points → 0 ≤ der → der ≤ ders →
      0 ≤ i → i < dofs →
      (bspline_basis_values.create points dofs ders).offset point i der
          = (point * (ders + 1) + der) * dofs + i ∧
      (bspline_basis_values.create points dofs ders).value point i der
          = vec_at (bspline_basis_values.create points dofs ders).buffer_
              ((point * (ders + 1) + der) * dofs + i) ∧
      0 ≤ (point * (ders + 1) + der) * dofs + i ∧
      (point * (ders + 1) + der) * dofs + i < points * dofs * (ders + 1) ∧
      (point * (ders + 1) + der) * dofs + i
        < ((bspline_basis_values.create points dofs ders).buffer_.length : Int)) ∧
    (∀ point i der point2 i2 der2 : Int,
      0 ≤ point → point < points → 0 ≤ der → der ≤ ders → 0 ≤ i → i < dofs →
      0 ≤ point2 → point2 < points → 0 ≤ der2 → der2 ≤ ders → 0 ≤ i2 → i2 < dofs →
      (bspline_basis_values.create points dofs ders).offset point i der
        = (bspline_basis_values.create points dofs ders).offset point2 i2 der2 →
      point = point2 ∧ der = der2 ∧ i = i2) ∧
    (∀ (s : space) (e : Int × Int) (pts : tensor_quadrature_points) (dof q : Int × Int)
      (der : Int),
      1 ≤ ders → dof ∈ (s.dofs_elem e).toList → q ∈ pts.indices.toList →
      (der = 0 ∨ der = 1) →
      (0 ≤ (s.index_on_element dof e).1 ∧
        (s.index_on_element dof e).1 ≤ s.space_x_.degree ∧
        0 ≤ q.1 ∧ q.1 < (pts.xs.length : Int) ∧
        0 ≤ (s.dof_evaluator e pts ders).vals_x_.offset q.1 (s.index_on_element dof e).1 der ∧
        (s.dof_evaluator e pts ders).vals_x_.offset q.1 (s.index_on_element dof e).1 der
          < ((s.dof_evaluator e pts ders).vals_x_.buffer_.length : Int)) ∧
      (0 ≤ (s.index_on_element dof e).2 ∧
        (s.index_on_element dof e).2 ≤ s.space_y_.degree ∧
        0 ≤ q.2 ∧ q.2 < (pts.ys.length : Int) ∧
        0 ≤ (s.dof_evaluator e pts ders).vals_y_.offset q.2 (s.index_on_element dof e).2 der ∧
        (s.dof_evaluator e pts ders).vals_y_.offset q.2 (s.index_on_element dof e).2 der
          < ((s.dof_evaluator e pts ders).vals_y_.buffer_.length : Int))) := by
  refine ⟨?_, ?_, ?_⟩
  · intro point i der hp0 hp1 hd0 hd1 hi0 hi1
    obtain ⟨c1, c2, c3⟩ := create_offset points dofs ders point i der hp0 hp1 hd0 hd1 hi0 hi1
    have hval : (bspline_basis_values.create points dofs ders).value point i der
        = vec_at (bspline_basis_values.create points dofs ders).buffer_
            ((bspline_basis_values.create points dofs ders).offset point i der) := rfl
    refine ⟨c1, by rw [hval, c1], c2, c3, ?_⟩
    simp only [bspline_basis_values.create, List.length_replicate]
    omega
  · intro point i der point2 i2 der2 hp0 hp1 hd0 hd1 hi0 hi1 hq0 hq1 he0 he1 hj0 hj1 heq
    rw [(create_offset points dofs ders point i der hp0 hp1 hd0 hd1 hi0 hi1).1,
      (create_offset points dofs ders point2 i2 der2 hq0 hq1 he0 he1 hj0 hj1).1] at heq
    obtain ⟨h1, h2⟩ := linearized_inj (points * (ders + 1)) dofs
      (point * (ders + 1) + der) i (point2 * (ders + 1) + der2) i2 hi0 hi1 hj0 hj1 heq
    obtain ⟨h3, h4⟩ := linearized_inj points (ders + 1) point der point2 der2
      hd0 (by omega) he0 (by omega) h1
    exact ⟨h3, h4, h2⟩
  · intro s e pts dof q der hders hdof hq hder
    rw [mem_index_range_toList] at hdof hq
    simp only [space.dofs_elem, product_range, bspline_space.dofs_elem, range,
      bspline_space.dofs_per_element] at hdof
    simp only [tensor_quadrature_points.indices, product_range,
      interval_quadrature_points.indices, range] at hq
    obtain ⟨⟨a1, a2⟩, a3, a4⟩ := hdof
    obtain ⟨⟨b1, b2⟩, b3, b4⟩ := hq
    have hd0 : 0 ≤ der := by omega
    have hd1 : der ≤ ders := by omega
    have hx0 : 0 ≤ (s.index_on_element dof e).1 := by
      simp only [space.index_on_element, bspline_space.local_index]
      omega
    have hx1 : (s.index_on_element dof e).1 ≤ s.space_x_.degree := by
      simp only [space.index_on_element, bspline_space.local_index]
      omega
    have hy0 : 0 ≤ (s.index_on_element dof e).2 := by
      simp only [space.index_on_element, bspline_space.local_index]
      omega
    have hy1 : (s.index_on_element dof e).2 ≤ s.space_y_.degree := by
      simp only [space.index_on_element, bspline_space.local_index]
      omega
    have ex := evaluate_basis_offset pts.xs s.space_x_ ders q.1 (s.index_on_element dof e).1 der
      b1 b2 hd0 hd1 hx0 hx1
    have ey := evaluate_basis_offset pts.ys s.space_y_ ders q.2 (s.index_on_element dof e).2 der
      b3 b4 hd0 hd1 hy0 hy1
    exact ⟨⟨hx0, hx1, b1, b2, ex.2.1, ex.2.2⟩, ⟨hy0, hy1, b3, b4, ey.2.1, ey.2.2⟩⟩

/-- C37 at a table with 2 points, 3 DOFs and derivative order 1: the cell of
`(1, 1, 2)` is the last of the 12 cells. -/
theorem basis_values_layout_witness :
    (bspline_basis_values.create 2 3 1).offset 1 2 1 = (1 * (1 + 1) + 1) * 3 + 2 ∧
    (1 * (1 + 1) + 1) * 3 + 2 < (2 : Int) * 3 * (1 + 1) :=
  ⟨((basis_values_layout 2 3 1).1 1 2 1 (by decide) (by decide) (by decide) (by decide)
      (by decide) (by decide)).1,
   ((basis_values_layout 2 3 1).1 1 2 1 (by decide) (by decide) (by decide) (by decide)
      (by decide) (by decide)).2.2.2.1⟩

end ads
